import Mathlib

/-!
# Write-back sector cache of the SPI flash mapper (`Firmware/Lil_Soundie/spiusb.c`)

A shallow embedding of the cache and flash layer of `spiusb.c`:
`EeIsBlockErased`, `EeProgram4K`, `EeReadBlock`, `EeCompareBlock`,
`EeRead4KSectorYToWorkspace`, `FindCachedBlock`, `WriteContinuous4K`,
`GetEmptyBlock`, `FsMapSpiFlashCreate`, `FsMapSpiFlashRead`,
`FsMapSpiFlashWrite` and `FsMapSpiFlashFlush`.

Conventions of the embedding.

* 16-bit machine words are natural numbers; arithmetic that can wrap is
  reduced modulo `65536` where the C code computes in `u_int16`.
* Y memory (`mallocAreaY`) and the flash array are functions from a word
  index to a word.  A pointer into `mallocAreaY` is its word offset; `NULL`
  is `none`.
* The flash chip is the environment: it is an array of 16-bit words indexed
  by half the 24-bit byte address; a sector erase sets a 4096-byte sector to
  all ones, a page program can only clear bits (the new content is the old
  content AND the words sent).
* The bus reset observed by `SpiWaitStatus` is an oracle: the field `resets`
  lists, for the coming calls of `SpiWaitStatus` whose result the code tests,
  whether that call returns `-1`.  Calls whose result is discarded
  (`EeUnprotect`, the read primitives, `EeIsBlockErased`) change nothing that
  is modelled and are left out.
* The field `log` is instrumentation: the flash operations issued so far,
  most recent first: the calls of `EeRead4KSectorYToWorkspace` and
  `EeProgram4K`, the erase and page program commands, and `reset` for each
  `return -1` of `EeProgram4K`.
-/

namespace SpiUsb

/-! ## Constants -/

/-- Number of 512-byte blocks of the chip, `CHIP_TOTAL_BLOCKS`. -/
def CHIP_TOTAL_BLOCKS : Nat := 4096

/-- Blocks set aside for boot code, `RESERVED_BLOCKS`. -/
def RESERVED_BLOCKS : Nat := 32

/-- Size of the logical disk, `LOGICAL_DISK_BLOCKS`. -/
def LOGICAL_DISK_BLOCKS : Nat := CHIP_TOTAL_BLOCKS - RESERVED_BLOCKS

/-- Number of 512-byte blocks in the RAM cache, `CACHE_BLOCKS`. -/
def CACHE_BLOCKS : Nat := 16

/-- Word offset of the 4K work area in `mallocAreaY`, `WORKSPACE`. -/
def WORKSPACE : Nat := 6144

/-! ## Words, memory and the flash chip -/

/-- The C operator `~` on a `u_int16`. -/
def not16 (x : Nat) : Nat := 65535 - x % 65536

/-- Conversion of a 16-bit pattern to `s_int16`. -/
def toS16 (x : Nat) : Int :=
  if x % 65536 < 32768 then ((x % 65536 : Nat) : Int) else ((x % 65536 : Nat) : Int) - 65536

/-- One store `mem[a] = v`. -/
def setWord (mem : Nat → Nat) (a v : Nat) : Nat → Nat :=
  fun x => if x = a then v else mem x

/-- The loop `for (n = n0; n < n0 + k; n++) *dptr++ = g(n)` with `dptr`
starting at `base + n0`. -/
def storeWords (g : Nat → Nat) (base : Nat) : Nat → Nat → (Nat → Nat) → (Nat → Nat)
  | 0, _, mem => mem
  | k + 1, n, mem => storeWords g base k (n + 1) (setWord mem (base + n) (g n))

/-- The library copies `memcpyYX`, `memcpyXY`, `memcpyYY`: `count` words from
`src + srcOff` to `dst + dstOff`. -/
def memcpy (dst : Nat → Nat) (dstOff : Nat) (src : Nat → Nat) (srcOff count : Nat) :
    Nat → Nat :=
  storeWords (fun n => src (srcOff + n)) dstOff count 0 dst

/-- Flash operations recorded in the log. -/
inductive FlashOp where
  | read4K (blockn : Nat)
  | program4K (blockn dptr : Nat)
  | erase (a2 a1 a0 : Nat)
  | page (a2 a1 a0 : Nat)
  | reset
  deriving DecidableEq, Repr

/-- The globals of `spiusb.c` that the cache uses, Y memory, the flash chip and
the environment. -/
structure State where
  /-- Presence bitmap, `u_int16 blockPresent`. -/
  blockPresent : Nat
  /-- Slot addresses, `u_int16 blockAddress[CACHE_BLOCKS]`. -/
  blockAddress : Nat → Nat
  /-- Index found by the last lookup, `s_int16 lastFoundBlock`. -/
  lastFoundBlock : Int
  /-- Flush flag, `u_int16 shouldFlush`: 0 idle, 1 flush failed, 2 flushing. -/
  shouldFlush : Nat
  /-- Y memory: slot `i` at words `256*i ..`, the work area at `WORKSPACE ..`. -/
  mallocAreaY : Nat → Nat
  /-- Raw content of the flash chip, one 16-bit word per index. -/
  flash : Nat → Nat
  /-- Outcomes of the coming tested `SpiWaitStatus` calls (`true`: bus reset). -/
  resets : List Bool
  /-- Flash operations issued so far, most recent first. -/
  log : List FlashOp

/-- Index in the flash array of the `n`-th 16-bit word transferred after the
address bytes `a2 a1 a0`. -/
def flashIndex (a2 a1 a0 n : Nat) : Nat := (a2 * 65536 + a1 * 256 + a0) / 2 + n

/-- Sector erase, command `0x20`: the 4096-byte sector that contains the byte
address reads all ones. -/
def chipErase (flash : Nat → Nat) (a2 a1 a0 : Nat) : Nat → Nat :=
  fun w => if w / 2048 = (a2 * 65536 + a1 * 256 + a0) / 4096 then 0xffff else flash w

/-- Page program, command `0x02`, of the 128 words `words 0 .. words 127`:
programming only clears bits. -/
def chipProgram (flash : Nat → Nat) (a2 a1 a0 : Nat) (words : Nat → Nat) : Nat → Nat :=
  fun w =>
    if flashIndex a2 a1 a0 0 ≤ w ∧ w < flashIndex a2 a1 a0 0 + 128 then
      flash w &&& words (w - flashIndex a2 a1 a0 0)
    else flash w

/-! ## Flash primitive layer -/

/-- The test of `SpiWaitStatus() == -1`: the next outcome of the reset oracle. -/
def SpiWaitStatus (s : State) : Bool × State :=
  match s.resets with
  | [] => (false, s)
  | r :: rest => (r, { s with resets := rest })

/-- Address bytes sent by `EePutReadBlockAddress(blockn)` after the read
command: `blockn>>7`, `(blockn<<1)&0xff`, `0`. -/
def EePutReadBlockAddress (blockn : Nat) : Nat × Nat × Nat :=
  (blockn >>> 7, ((blockn <<< 1) % 65536) &&& 0xff, 0)

/-- Address bytes of the second page of a sector in `EeProgram4K`:
`blockn>>7`, `((blockn<<1)+1)&0xff`, `0`. -/
def secondPageAddress (blockn : Nat) : Nat × Nat × Nat :=
  (blockn >>> 7, (((blockn <<< 1) % 65536 + 1) % 65536) &&& 0xff, 0)

/-- The `n`-th word `SpiSendReceive(0)` returns after
`EePutReadBlockAddress(blockn)`. -/
def readWord (flash : Nat → Nat) (blockn n : Nat) : Nat :=
  flash (flashIndex (EePutReadBlockAddress blockn).1 (EePutReadBlockAddress blockn).2.1
    (EePutReadBlockAddress blockn).2.2 n)

/-- The loop of `EeIsBlockErased`: `k` words left, next word `n`. -/
def EeIsBlockErasedLoop (flash : Nat → Nat) (blockn : Nat) : Nat → Nat → Nat
  | 0, _ => 1
  | k + 1, n =>
    if readWord flash blockn n ≠ 0xffff then 0
    else EeIsBlockErasedLoop flash blockn k (n + 1)

/-- `EeIsBlockErased(blockn)`: 1 when the 2048 words read from `blockn` are
all `0xffff`, else 0. -/
def EeIsBlockErased (s : State) (blockn : Nat) : Nat :=
  EeIsBlockErasedLoop s.flash blockn 2048 0

/-- The sector loop of `EeProgram4K`: `k` sectors left. Returns `-1` when a
tested `SpiWaitStatus` saw a bus reset, else 0. -/
def EeProgram4KLoop : Nat → Nat → Nat → State → Int × State
  | 0, _, _, s => (0, s)
  | k + 1, blockn, dptr, s =>
    let a := EePutReadBlockAddress blockn
    let s1 : State :=
      { s with
        flash := chipProgram s.flash a.1 a.2.1 a.2.2 (fun n => not16 (s.mallocAreaY (dptr + n)))
        log := FlashOp.page a.1 a.2.1 a.2.2 :: s.log }
    let w1 := SpiWaitStatus s1
    if w1.1 then (-1, { w1.2 with log := FlashOp.reset :: w1.2.log })
    else
      let b := secondPageAddress blockn
      let s2 : State :=
        { w1.2 with
          flash := chipProgram w1.2.flash b.1 b.2.1 b.2.2
            (fun n => not16 (w1.2.mallocAreaY (dptr + 128 + n)))
          log := FlashOp.page b.1 b.2.1 b.2.2 :: w1.2.log }
      let w2 := SpiWaitStatus s2
      if w2.1 then (-1, { w2.2 with log := FlashOp.reset :: w2.2.log })
      else EeProgram4KLoop k ((blockn + 1) % 65536) (dptr + 256) w2.2

/-- `EeProgram4K(blockn, dptr)`: erase the unit unless it is blank, then
program the 2048 words at `dptr`, inverted, as 16 pages. -/
def EeProgram4K (s : State) (blockn dptr : Nat) : Int × State :=
  let s0 : State := { s with log := FlashOp.program4K blockn dptr :: s.log }
  let a := EePutReadBlockAddress blockn
  let s1 : State :=
    if EeIsBlockErased s0 blockn = 0 then
      { s0 with
        flash := chipErase s0.flash a.1 a.2.1 a.2.2
        log := FlashOp.erase a.1 a.2.1 a.2.2 :: s0.log }
    else s0
  let w := SpiWaitStatus s1
  if w.1 then (-1, { w.2 with log := FlashOp.reset :: w.2.log })
  else EeProgram4KLoop 8 blockn dptr w.2

/-- `EeReadBlock(blockn, dptr)`: the 256 words of a sector, inverted back, into
the buffer `data` at offset `dptr`. -/
def EeReadBlock (s : State) (blockn : Nat) (data : Nat → Nat) (dptr : Nat) : Nat → Nat :=
  storeWords (fun n => not16 (readWord s.flash blockn n)) dptr 256 0 data

/-- The loop of `EeCompareBlock`: `k` words left, next word `n`. -/
def EeCompareBlockLoop (flash : Nat → Nat) (blockn : Nat) (data : Nat → Nat) (dptr : Nat) :
    Nat → Nat → Nat
  | 0, _ => 0
  | k + 1, n =>
    if data (dptr + n) ≠ not16 (readWord flash blockn n) then 1
    else EeCompareBlockLoop flash blockn data dptr k (n + 1)

/-- `EeCompareBlock(blockn, dptr)`: 1 if the sector on flash differs from the
256 words of `data` at `dptr`, 0 if it is the same. -/
def EeCompareBlock (s : State) (blockn : Nat) (data : Nat → Nat) (dptr : Nat) : Nat :=
  EeCompareBlockLoop s.flash blockn data dptr 256 0

/-- `EeRead4KSectorYToWorkspace(blockn)`: the 2048 words of the unit of
`blockn`, inverted back, into the work area. -/
def EeRead4KSectorYToWorkspace (s : State) (blockn : Nat) : State :=
  { s with
    mallocAreaY :=
      storeWords (fun n => not16 (readWord s.flash (blockn &&& 0xfff8) n)) WORKSPACE 2048 0
        s.mallocAreaY
    log := FlashOp.read4K blockn :: s.log }

/-! ## Sector cache -/

/-- The C test `blockPresent & 1<<i`. -/
def slotPresent (blockPresent i : Nat) : Bool :=
  blockPresent &&& ((1 <<< i) % 65536) != 0

/-- The C update `blockPresent &= ~(1<<i)`. -/
def clearSlot (blockPresent i : Nat) : Nat :=
  blockPresent &&& not16 ((1 <<< i) % 65536)

/-- The loop of `FindCachedBlock`: `k` slots left, next slot `i`. -/
def FindCachedBlockLoop (blockNumber : Nat) : Nat → Nat → State → Option Nat × State
  | 0, _, s => (none, s)
  | k + 1, i, s =>
    if slotPresent s.blockPresent i && s.blockAddress i == blockNumber then
      (some (256 * i), { s with lastFoundBlock := (i : Int) })
    else FindCachedBlockLoop blockNumber k (i + 1) s

/-- `FindCachedBlock(blockNumber)`: the buffer of the first present slot
holding `blockNumber`, or `NULL`; sets `lastFoundBlock`. -/
def FindCachedBlock (s : State) (blockNumber : Nat) : Option Nat × State :=
  FindCachedBlockLoop blockNumber CACHE_BLOCKS 0 { s with lastFoundBlock := -1 }

/-- The loop `for (k=1; k<8; k++) if (blockAddress[i+k] != blockAddress[i]+k) goto ohi;`
of `WriteContinuous4K`: `true` when no test fails. -/
def continuousFrom (blockAddress : Nat → Nat) (i : Nat) : Nat → Nat → Bool
  | 0, _ => true
  | n + 1, k =>
    if blockAddress (i + k) ≠ (blockAddress i + k) % 65536 then false
    else continuousFrom blockAddress i n (k + 1)

/-- The loop `for (k=0; k<8; k++) blockPresent &= ~(1<<(i+k));`. -/
def releaseFrom (i : Nat) : Nat → Nat → Nat → Nat
  | 0, _, bp => bp
  | n + 1, k, bp => releaseFrom i n (k + 1) (clearSlot bp (i + k))

/-- The loop of `WriteContinuous4K`: `n` slots left, next slot `i`. -/
def WriteContinuous4KLoop : Nat → Nat → State → Nat × State
  | 0, _, s => (0, s)
  | n + 1, i, s =>
    if slotPresent s.blockPresent i && (s.blockAddress i &&& 0x0007 == 0) then
      if continuousFrom s.blockAddress i 7 1 then
        let r := EeProgram4K s (s.blockAddress i) (256 * i)
        if r.1 ≠ -1 then
          (1, { r.2 with blockPresent := releaseFrom i 8 0 r.2.blockPresent })
        else (0, r.2)
      else WriteContinuous4KLoop n (i + 1) s
    else WriteContinuous4KLoop n (i + 1) s

/-- `WriteContinuous4K()`: program the first run of 8 slots found to hold one
aligned unit. -/
def WriteContinuous4K (s : State) : Nat × State :=
  WriteContinuous4KLoop (CACHE_BLOCKS - 7) 0 s

/-- The loop of `GetEmptyBlock`: `k` slots left, next slot `i`. -/
def GetEmptyBlockLoop (blockNumber : Nat) : Nat → Nat → State → Option Nat × State
  | 0, _, s => (none, s)
  | k + 1, i, s =>
    if !slotPresent s.blockPresent i then
      (some (256 * i),
        { s with
          blockPresent := s.blockPresent ||| ((1 <<< i) % 65536)
          blockAddress := setWord s.blockAddress i blockNumber })
    else GetEmptyBlockLoop blockNumber k (i + 1) s

/-- `GetEmptyBlock(blockNumber)`: take the first absent slot for
`blockNumber`, or return `NULL`. -/
def GetEmptyBlock (s : State) (blockNumber : Nat) : Option Nat × State :=
  GetEmptyBlockLoop blockNumber CACHE_BLOCKS 0 s

/-! ## Mapper -/

/-- `FsMapSpiFlashCreate`: empty cache, idle flush flag. -/
def FsMapSpiFlashCreate (s : State) : State :=
  { s with blockPresent := 0, shouldFlush := 0 }

/-- The loop of `FsMapSpiFlashRead`: `k` blocks left. The buffer `data` is
indexed from the caller's pointer; `off` is the current `data` offset. -/
def FsMapSpiFlashReadLoop : Nat → Nat → Nat → Nat → State → (Nat → Nat) →
    Nat × State × (Nat → Nat)
  | 0, _, bl, _, s, data => (bl, s, data)
  | k + 1, firstBlock, bl, off, s, data =>
    let f := FindCachedBlock s (firstBlock % 65536)
    let data1 :=
      match f.1 with
      | some source => memcpy data off f.2.mallocAreaY source 256
      | none => EeReadBlock f.2 (firstBlock % 65536) data off
    FsMapSpiFlashReadLoop k ((firstBlock + 1) % 4294967296) ((bl + 1) % 65536) (off + 256)
      f.2 data1

/-- `FsMapSpiFlashRead(map, firstBlock, blocks, data)`: the value returned,
the state and the buffer afterwards. -/
def FsMapSpiFlashRead (s : State) (firstBlock blocks : Nat) (data : Nat → Nat) :
    Int × State × (Nat → Nat) :=
  if s.shouldFlush ≠ 0 then (0, s, data)
  else
    let r := FsMapSpiFlashReadLoop (blocks % 65536)
      ((firstBlock + RESERVED_BLOCKS) % 4294967296) 0 0 s data
    (toS16 r.1, r.2)

/-- The body of the slot loop of `FsMapSpiFlashFlush` for `j = 8 - n .. 7`:
merge the cached sectors of the unit `lba` into the work area and clear their
bits in `newBlockPresent`. Returns the state and `newBlockPresent`. -/
def flushMerge (lba : Nat) : Nat → Nat → State → Nat → State × Nat
  | 0, _, s, nbp => (s, nbp)
  | n + 1, j, s, nbp =>
    let f := FindCachedBlock s ((lba + j) % 65536)
    match f.1 with
    | some dptr =>
      flushMerge lba n (j + 1)
        { f.2 with mallocAreaY := memcpy f.2.mallocAreaY (WORKSPACE + 256 * j) f.2.mallocAreaY dptr 256 }
        (clearSlot nbp f.2.lastFoundBlock.toNat)
    | none => flushMerge lba n (j + 1) f.2 nbp

/-- The slot loop of `FsMapSpiFlashFlush`: `k` slots left, next slot `i`. -/
def FsMapSpiFlashFlushLoop : Nat → Nat → State → State
  | 0, _, s => { s with shouldFlush := 0 }
  | k + 1, i, s =>
    if slotPresent s.blockPresent i then
      let lba := s.blockAddress i &&& 0xfff8
      let s1 := EeRead4KSectorYToWorkspace s lba
      let m := flushMerge lba 8 0 s1 s1.blockPresent
      let r := EeProgram4K m.1 lba WORKSPACE
      if r.1 ≠ -1 then
        FsMapSpiFlashFlushLoop k (i + 1) { r.2 with blockPresent := m.2, shouldFlush := 0 }
      else { r.2 with shouldFlush := 1 }
    else FsMapSpiFlashFlushLoop k (i + 1) s

/-- `FsMapSpiFlashFlush(map, hard)`; the value returned is always 0. -/
def FsMapSpiFlashFlush (s : State) : State :=
  if s.shouldFlush > 1 then s
  else FsMapSpiFlashFlushLoop CACHE_BLOCKS 0 { s with shouldFlush := 2 }

/-- The loop of `FsMapSpiFlashWrite`: `k` blocks left; `none` when the code
reaches the endless loop after `FATAL ERROR: NO CACHE SPACE`. -/
def FsMapSpiFlashWriteLoop : Nat → Nat → Nat → Nat → (Nat → Nat) → State →
    Option (Nat × State)
  | 0, _, bl, _, _, s => some (bl, s)
  | k + 1, firstBlock, bl, off, data, s =>
    if EeCompareBlock s (firstBlock % 65536) data off ≠ 0 then
      let f := FindCachedBlock s (firstBlock % 65536)
      let t1 : Option Nat × State :=
        match f.1 with
        | some target => (some target, f.2)
        | none => GetEmptyBlock f.2 (firstBlock % 65536)
      let t2 : Option Nat × State :=
        match t1.1 with
        | some target => (some target, t1.2)
        | none => GetEmptyBlock (FsMapSpiFlashFlush t1.2) (firstBlock % 65536)
      match t2.1 with
      | some target =>
        let s4 : State :=
          { t2.2 with mallocAreaY := memcpy t2.2.mallocAreaY target data off 256 }
        FsMapSpiFlashWriteLoop k ((firstBlock + 1) % 4294967296) ((bl + 1) % 65536)
          (off + 256) data (WriteContinuous4K s4).2
      | none => none
    else
      FsMapSpiFlashWriteLoop k ((firstBlock + 1) % 4294967296) ((bl + 1) % 65536)
        (off + 256) data s

/-- `FsMapSpiFlashWrite(map, firstBlock, blocks, data)`: the value returned
and the state afterwards, or `none` when the call never returns. -/
def FsMapSpiFlashWrite (s : State) (firstBlock blocks : Nat) (data : Nat → Nat) :
    Option (Int × State) :=
  if s.shouldFlush ≠ 0 then some (0, s)
  else
    (FsMapSpiFlashWriteLoop (blocks % 65536) ((firstBlock + RESERVED_BLOCKS) % 4294967296)
      0 0 data s).map (fun r => (toS16 r.1, r.2))

/-! ## Notions used to state the properties -/

/-- Word `w` of sector `blockn` as `EeReadBlock` delivers it: the inverse of
the word the chip returns. -/
def flashWord (s : State) (blockn w : Nat) : Nat :=
  not16 (readWord s.flash blockn w)

/-- Logical content of a sector: word `w` of the buffer `FindCachedBlock`
finds for `blockn`, or of the sector on flash when it finds none. -/
def logicalWord (s : State) (blockn w : Nat) : Nat :=
  match (FindCachedBlock s blockn).1 with
  | some source => s.mallocAreaY (source + w)
  | none => flashWord s blockn w

/-- The variables hold 16-bit values. -/
def WellTyped (s : State) : Prop :=
  s.blockPresent < 65536 ∧ (∀ i, i < CACHE_BLOCKS → s.blockAddress i < 65536) ∧
    ∀ a, s.mallocAreaY a < 65536

/-- Present slots hold pairwise distinct addresses. -/
def DistinctPresent (s : State) : Prop :=
  ∀ i j, i < CACHE_BLOCKS → j < CACHE_BLOCKS → slotPresent s.blockPresent i = true →
    slotPresent s.blockPresent j = true → s.blockAddress i = s.blockAddress j → i = j

/-- No bus reset is observed from now on. -/
def NoReset (s : State) : Prop := ∀ r ∈ s.resets, r = false

/-- Block number of the most recent `EeProgram4K` call in a log. -/
def lastProgram : List FlashOp → Option Nat
  | [] => none
  | FlashOp.program4K blockn _ :: _ => some blockn
  | FlashOp.read4K _ :: rest => lastProgram rest
  | FlashOp.erase _ _ _ :: rest => lastProgram rest
  | FlashOp.page _ _ _ :: rest => lastProgram rest
  | FlashOp.reset :: rest => lastProgram rest

/-- Number of `EeProgram4K` calls in a log. -/
def programCalls : List FlashOp → Nat
  | [] => 0
  | FlashOp.program4K _ _ :: rest => programCalls rest + 1
  | FlashOp.read4K _ :: rest => programCalls rest
  | FlashOp.erase _ _ _ :: rest => programCalls rest
  | FlashOp.page _ _ _ :: rest => programCalls rest
  | FlashOp.reset :: rest => programCalls rest

/-- Number of `EeProgram4K` calls in a log that returned `-1`. -/
def resetCount : List FlashOp → Nat
  | [] => 0
  | FlashOp.reset :: rest => resetCount rest + 1
  | FlashOp.program4K _ _ :: rest => resetCount rest
  | FlashOp.read4K _ :: rest => resetCount rest
  | FlashOp.erase _ _ _ :: rest => resetCount rest
  | FlashOp.page _ _ _ :: rest => resetCount rest

/-- First slot among `i .. i+k-1` that is present and holds `blockNumber`. -/
def findFrom (blockPresent : Nat) (blockAddress : Nat → Nat) (blockNumber : Nat) :
    Nat → Nat → Option Nat
  | 0, _ => none
  | k + 1, i =>
    if slotPresent blockPresent i && blockAddress i == blockNumber then some i
    else findFrom blockPresent blockAddress blockNumber k (i + 1)

/-- Slot that `FindCachedBlock` finds for `blockNumber`. -/
def cachedSlot (s : State) (blockNumber : Nat) : Option Nat :=
  findFrom s.blockPresent s.blockAddress blockNumber CACHE_BLOCKS 0

/-- The body of the slot loop of `FsMapSpiFlashFlush` for a present slot `i`,
up to the call of `EeProgram4K`: its result and `newBlockPresent`. -/
def flushUnit (s : State) (i : Nat) : (Int × State) × Nat :=
  let lba := s.blockAddress i &&& 0xfff8
  let s1 := EeRead4KSectorYToWorkspace s lba
  let m := flushMerge lba 8 0 s1 s1.blockPresent
  (EeProgram4K m.1 lba WORKSPACE, m.2)

/-- What a run of the slot loop of `FsMapSpiFlashFlush` from `s` to `r` does to
the flag, the presence bitmap and the slots. -/
structure FlushPresence (s r : State) : Prop where
  flag : r.shouldFlush = 0 ∨ r.shouldFlush = 1
  noReset : (∀ x ∈ s.resets, x = false) → r.shouldFlush = 0
  subset : ∀ t, t < 16 → slotPresent r.blockPresent t = true →
    slotPresent s.blockPresent t = true
  empty : r.shouldFlush = 0 → ∀ t, t < 16 → slotPresent r.blockPresent t = false
  address : r.blockAddress = s.blockAddress
  slots : ∀ x, x < WORKSPACE → r.mallocAreaY x = s.mallocAreaY x
  wellTyped : WellTyped r
  resets : ∀ x ∈ r.resets, x ∈ s.resets
  calls : programCalls s.log ≤ programCalls r.log
  abortCalls : r.shouldFlush = 1 → programCalls s.log + 1 ≤ programCalls r.log
  firstAbort : r.shouldFlush = 1 → programCalls r.log = programCalls s.log + 1 →
    r.blockPresent = s.blockPresent
  aborts : resetCount r.log = resetCount s.log + (if r.shouldFlush = 1 then 1 else 0)

/-- What a run of the slot loop of `FsMapSpiFlashFlush` from `s` to `r` does to
the logical content of the disk, when the present addresses of `s` are
pairwise distinct. -/
structure FlushContent (s r : State) : Prop where
  distinct : DistinctPresent r
  kept : r.shouldFlush = 0 → ∀ A w, w < 256 → logicalWord r A w = logicalWord s A w
  interrupted : r.shouldFlush = 1 → ∃ t, t < 16 ∧ slotPresent s.blockPresent t = true ∧
    slotPresent r.blockPresent t = true ∧
    lastProgram r.log = some (s.blockAddress t &&& 0xfff8)
  keptAbort : r.shouldFlush = 1 → ∀ A w, w < 256 →
    (cachedSlot s A ≠ none ∨ lastProgram r.log ≠ some (8 * (A / 8))) →
    logicalWord r A w = logicalWord s A w
  retained : r.shouldFlush = 1 → ∀ t, t < 16 → slotPresent s.blockPresent t = true →
    lastProgram r.log = some (s.blockAddress t &&& 0xfff8) →
    slotPresent r.blockPresent t = true

/-! ## Scenarios -/

/-- State at power-up: the globals are zero-initialised, `lastFoundBlock` is
`-1`; `flash` is the content of the chip and `resets` the coming bus resets. -/
def powerUp (flash : Nat → Nat) (resets : List Bool) : State :=
  { blockPresent := 0, blockAddress := fun _ => 0, lastFoundBlock := -1, shouldFlush := 0,
    mallocAreaY := fun _ => 0, flash := flash, resets := resets, log := [] }

/-- A scenario step: `FsMapSpiFlashWrite(a, 1, d)`; `none` when a call did not
return. -/
def thenWrite (o : Option State) (a : Nat) (d : Nat → Nat) : Option State :=
  o.bind (fun s => (FsMapSpiFlashWrite s a 1 d).map Prod.snd)

/-- A scenario step: `FsMapSpiFlashFlush`. -/
def thenFlush (o : Option State) : Option State :=
  o.map FsMapSpiFlashFlush

/-- The value `FsMapSpiFlashRead(a, 1)` returns after a scenario, and word `w`
of the sector it delivers into a zeroed buffer. -/
def readBack (o : Option State) (a w : Nat) : Option (Int × Nat) :=
  o.map (fun s =>
    ((FsMapSpiFlashRead s a 1 (fun _ => 0)).1, (FsMapSpiFlashRead s a 1 (fun _ => 0)).2.2 w))

/-- The state after `N` calls `FsMapSpiFlashWrite(a, 1, d)`; `none` when a call
did not return. -/
def writeTimes : Nat → State → Nat → (Nat → Nat) → Option State
  | 0, s, _, _ => some s
  | N + 1, s, a, d => (FsMapSpiFlashWrite s a 1 d).bind (fun r => writeTimes N r.2 a d)

/-- Number of present slots. -/
def presentCount (blockPresent : Nat) : Nat :=
  ((List.range CACHE_BLOCKS).filter (fun i => slotPresent blockPresent i)).length

/-- A state with two present slots in one erase unit, used to instantiate the
theorems. -/
def sampleState : State :=
  { blockPresent := 3, blockAddress := fun i => 32 + i, lastFoundBlock := -1, shouldFlush := 0,
    mallocAreaY := fun _ => 5, flash := fun _ => 0, resets := [], log := [] }

/-- The part of the loop body of `FsMapSpiFlashWrite` that caches a sector
differing from flash, up to the call of `WriteContinuous4K`: look the address
up, else allocate, else flush and allocate, then copy the data; `none` when the
code reaches the endless loop. -/
def cacheSector (s : State) (firstBlock : Nat) (data : Nat → Nat) (off : Nat) : Option State :=
  let f := FindCachedBlock s firstBlock
  let t1 : Option Nat × State :=
    match f.1 with
    | some target => (some target, f.2)
    | none => GetEmptyBlock f.2 firstBlock
  let t2 : Option Nat × State :=
    match t1.1 with
    | some target => (some target, t1.2)
    | none => GetEmptyBlock (FsMapSpiFlashFlush t1.2) firstBlock
  match t2.1 with
  | some target =>
    some { t2.2 with mallocAreaY := memcpy t2.2.mallocAreaY target data off 256 }
  | none => none

/-- Scenario: from `FsMapSpiFlashCreate` on a chip whose sectors all read
`0xffff`, with no bus reset: logical sectors 8..15 (one erase unit) are written
with words `100 + k`, then logical sector 9 is written with words 777, then
`FsMapSpiFlashFlush` is called. -/
def staleSlotsState : Option State :=
  thenFlush (thenWrite
    ((List.range 8).foldl (fun o k => thenWrite o (8 + k) (fun _ => 100 + k))
      (some (FsMapSpiFlashCreate (powerUp (fun _ => 0) [])))) 9 (fun _ => 777))

/-- Number of erase commands in a log. -/
def eraseCount : List FlashOp → Nat
  | [] => 0
  | FlashOp.erase _ _ _ :: rest => eraseCount rest + 1
  | FlashOp.program4K _ _ :: rest => eraseCount rest
  | FlashOp.read4K _ :: rest => eraseCount rest
  | FlashOp.page _ _ _ :: rest => eraseCount rest
  | FlashOp.reset :: rest => eraseCount rest

/-- Number of page program commands in a log. -/
def pageCount : List FlashOp → Nat
  | [] => 0
  | FlashOp.page _ _ _ :: rest => pageCount rest + 1
  | FlashOp.program4K _ _ :: rest => pageCount rest
  | FlashOp.read4K _ :: rest => pageCount rest
  | FlashOp.erase _ _ _ :: rest => pageCount rest
  | FlashOp.reset :: rest => pageCount rest

/-- Number of `EeRead4KSectorYToWorkspace` calls in a log. -/
def readCalls : List FlashOp → Nat
  | [] => 0
  | FlashOp.read4K _ :: rest => readCalls rest + 1
  | FlashOp.program4K _ _ :: rest => readCalls rest
  | FlashOp.erase _ _ _ :: rest => readCalls rest
  | FlashOp.page _ _ _ :: rest => readCalls rest
  | FlashOp.reset :: rest => readCalls rest

/-- A chip whose words are all `0xffff`, at power-up with no bus reset to come. -/
def blankState : State := powerUp (fun _ => 0xffff) []

/-- First absent slot among `i .. i+k-1`. -/
def findFree (blockPresent : Nat) : Nat → Nat → Option Nat
  | 0, _ => none
  | k + 1, i => if !slotPresent blockPresent i then some i else findFree blockPresent k (i + 1)

/-- A state with all 16 slots present, holding the sectors of two erase units. -/
def fullState : State :=
  { blockPresent := 65535, blockAddress := fun i => 32 + i, lastFoundBlock := -1,
    shouldFlush := 0, mallocAreaY := fun _ => 5, flash := fun _ => 0, resets := [], log := [] }

/-- The loop body of `FsMapSpiFlashWrite` for one sector: skip it when it
equals the flash content, else cache it and call `WriteContinuous4K`; `none`
when the code reaches the endless loop. -/
def writeSector (s : State) (firstBlock : Nat) (data : Nat → Nat) (off : Nat) : Option State :=
  if EeCompareBlock s firstBlock data off ≠ 0 then
    (cacheSector s firstBlock data off).map (fun s4 => (WriteContinuous4K s4).2)
  else some s

/-- First slot among `i .. i+n-1` at which `WriteContinuous4K` calls
`EeProgram4K`: present, unit-aligned address, and the next seven slots holding
the next seven addresses. -/
def findRun (blockPresent : Nat) (blockAddress : Nat → Nat) : Nat → Nat → Option Nat
  | 0, _ => none
  | n + 1, i =>
    if (slotPresent blockPresent i && (blockAddress i &&& 0x0007 == 0)) &&
        continuousFrom blockAddress i 7 1 then some i
    else findRun blockPresent blockAddress n (i + 1)

/-- A call of the mapper interface. -/
inductive Call where
  | read (firstBlock blocks : Nat)
  | write (firstBlock blocks : Nat) (data : Nat → Nat)
  | flush

/-- The state after a call; `none` when the call does not return. The state
after a read does not depend on the output buffer. -/
def Call.apply (s : State) : Call → Option State
  | Call.read firstBlock blocks => some (FsMapSpiFlashRead s firstBlock blocks (fun _ => 0)).2.1
  | Call.write firstBlock blocks data => (FsMapSpiFlashWrite s firstBlock blocks data).map Prod.snd
  | Call.flush => some (FsMapSpiFlashFlush s)

/-- The state after a sequence of calls. -/
def run : List Call → State → Option State
  | [], s => some s
  | c :: cs, s => (c.apply s).bind (run cs)

/-- The data a call passes is made of 16-bit words. -/
def Call.wellTyped : Call → Prop
  | Call.write _ _ data => ∀ x, data x < 65536
  | _ => True

/-- The invariant of the cache: 16-bit variables, pairwise distinct present
addresses, flush flag not `flushing`. -/
structure CacheInv (s : State) : Prop where
  wellTyped : WellTyped s
  distinct : DistinctPresent s
  flag : s.shouldFlush ≤ 1

/-- Scenario: from `FsMapSpiFlashCreate` on a chip whose sectors all read
`0xffff`, the logical sectors `1, 9, 17, ..., 121` (16 sectors of 16 erase
units) are written with words 5: all 16 slots are present. `resets` lists the
coming bus resets. -/
def fullCacheScenario (resets : List Bool) : Option State :=
  (List.range 16).foldl (fun o k => thenWrite o (1 + 8 * k) (fun _ => 5))
    (some (FsMapSpiFlashCreate (powerUp (fun _ => 0) resets)))

/-- Two single-sector writes, to logical sectors 0 and 8. -/
def twoWrites : List Call :=
  [Call.write 0 1 (fun _ => 5), Call.write 8 1 (fun _ => 6)]

/-- The state after `twoWrites` from `FsMapSpiFlashCreate` on a chip whose
sectors all read `0xffff`. -/
def twoSlotState : State :=
  (run twoWrites (FsMapSpiFlashCreate (powerUp (fun _ => 0) []))).getD (powerUp (fun _ => 0) [])

/-- The sectors a logged flash operation erases or programs lie in
`[RESERVED_BLOCKS, CHIP_TOTAL_BLOCKS)`: the eight sectors of an `EeProgram4K`
call, the eight sectors of the 4096-byte sector erased, the sector of the page
programmed. -/
def opInRange : FlashOp → Prop
  | FlashOp.program4K blockn _ => RESERVED_BLOCKS ≤ blockn ∧ blockn + 8 ≤ CHIP_TOTAL_BLOCKS
  | FlashOp.erase a2 a1 a0 =>
    RESERVED_BLOCKS ≤ 8 * ((a2 * 65536 + a1 * 256 + a0) / 4096) ∧
      8 * ((a2 * 65536 + a1 * 256 + a0) / 4096) + 8 ≤ CHIP_TOTAL_BLOCKS
  | FlashOp.page a2 a1 a0 =>
    RESERVED_BLOCKS ≤ (a2 * 65536 + a1 * 256 + a0) / 512 ∧
      (a2 * 65536 + a1 * 256 + a0) / 512 < CHIP_TOTAL_BLOCKS
  | FlashOp.read4K _ => True
  | FlashOp.reset => True

/-- The calls of a sequence address logical sectors below
`LOGICAL_DISK_BLOCKS` only. -/
def Call.inRange : Call → Prop
  | Call.read firstBlock blocks => firstBlock + blocks ≤ LOGICAL_DISK_BLOCKS
  | Call.write firstBlock blocks _ => firstBlock + blocks ≤ LOGICAL_DISK_BLOCKS
  | Call.flush => True

/-- Relative to a state `s0`: present slots hold physical sectors of the
logical disk, the flash words of the reserved sectors are those of `s0`, and
every flash operation logged since `s0` is in range. -/
structure RangeInv (s0 s : State) : Prop where
  addr : ∀ i, i < 16 → slotPresent s.blockPresent i = true →
    32 ≤ s.blockAddress i ∧ s.blockAddress i < 4096
  boot : ∀ w, w < 8192 → s.flash w = s0.flash w
  log : ∀ e ∈ s.log, e ∈ s0.log ∨ opInRange e

/-- The state after the single-sector writes of the logical sectors
`A, A+1, ..., A+n-1`, in this order, with payloads `d 0, d 1, ..., d (n-1)`;
`none` when a call did not return. -/
def writeRun (s : State) (A : Nat) (d : Nat → Nat → Nat) : Nat → Option State
  | 0 => some s
  | n + 1 => thenWrite (writeRun s A d n) (A + n) (d n)

/-- The invariant of a run of writes to ascending addresses with no bus reset:
the cache invariant, idle flag, every slot address (present or stale) below
`bound`, and no present slot holds an address that is in the same erase unit
as, and lower than, the stale address of an absent slot. -/
structure AscInv (s : State) (bound : Nat) : Prop where
  inv : CacheInv s
  idle : s.shouldFlush = 0
  noReset : NoReset s
  below : ∀ i, i < 16 → s.blockAddress i < bound
  stale : ∀ i j, i < 16 → j < 16 → slotPresent s.blockPresent i = true →
    slotPresent s.blockPresent j = false →
    ¬ (s.blockAddress i / 8 = s.blockAddress j / 8 ∧ s.blockAddress i < s.blockAddress j)


/-- Number of `EeProgram4K` calls for block `u` in a log. -/
def programCallsFor (u : Nat) : List FlashOp → Nat
  | [] => 0
  | FlashOp.program4K blockn _ :: rest => programCallsFor u rest + (if blockn = u then 1 else 0)
  | FlashOp.read4K _ :: rest => programCallsFor u rest
  | FlashOp.erase _ _ _ :: rest => programCallsFor u rest
  | FlashOp.page _ _ _ :: rest => programCallsFor u rest
  | FlashOp.reset :: rest => programCallsFor u rest

/-- The erase unit that starts at block `u` contains a present slot: some
present slot `t` has `blockAddress[t] & 0xfff8 = u`. -/
def DirtyUnit (s : State) (u : Nat) : Prop :=
  ∃ t, t < 16 ∧ slotPresent s.blockPresent t = true ∧ s.blockAddress t &&& 0xfff8 = u

/-- A state with three present slots in two erase units: slots 0 and 2 hold
sectors 32 and 35 of the unit at 32, slot 1 holds sector 41 of the unit at 40. -/
def threeSlotState : State :=
  { blockPresent := 7, blockAddress := fun i => if i = 0 then 32 else if i = 1 then 41 else 35,
    lastFoundBlock := -1, shouldFlush := 0, mallocAreaY := fun _ => 5, flash := fun _ => 0,
    resets := [], log := [] }

/-! ## Words and bits -/

theorem not16_lt (x : Nat) : not16 x < 65536 := by
  unfold not16; omega

theorem not16_not16 (x : Nat) (h : x < 65536) : not16 (not16 x) = x := by
  unfold not16; omega

theorem not16_not16_not16 (x : Nat) : not16 (not16 (not16 x)) = not16 x := by
  unfold not16; omega

theorem ffff_and (x : Nat) (h : x < 65536) : 0xffff &&& x = x := by
  rw [Nat.and_comm]
  exact Nat.and_pow_two_sub_one_of_lt_two_pow (n := 16) h

theorem shiftLeft_one_mod (i : Nat) (hi : i < 16) : (1 <<< i) % 65536 = 2 ^ i := by
  rw [Nat.one_shiftLeft]
  apply Nat.mod_eq_of_lt
  calc 2 ^ i < 2 ^ 16 := Nat.pow_lt_pow_right (by decide) hi
    _ = 65536 := by norm_num

theorem slotPresent_eq_testBit (bp i : Nat) (hi : i < 16) :
    slotPresent bp i = bp.testBit i := by
  unfold slotPresent
  rw [shiftLeft_one_mod i hi]
  cases h : bp.testBit i
  · have : bp &&& 2 ^ i = 0 := by
      apply Nat.eq_of_testBit_eq
      intro j
      simp only [Nat.testBit_and, Nat.testBit_two_pow, Nat.zero_testBit]
      by_cases hj : i = j
      · subst hj; simp [h]
      · simp [hj]
    simp [this]
  · have : (bp &&& 2 ^ i).testBit i = true := by
      simp [Nat.testBit_and, Nat.testBit_two_pow, h]
    have hne : bp &&& 2 ^ i ≠ 0 := by
      intro h0
      rw [h0] at this
      simp at this
    simp [hne]

theorem testBit_clearSlot (bp i j : Nat) (hi : i < 16) :
    (clearSlot bp i).testBit j = (bp.testBit j && decide (j < 16) && !decide (i = j)) := by
  unfold clearSlot not16
  rw [shiftLeft_one_mod i hi]
  have h2 : 2 ^ i < 65536 := by
    calc 2 ^ i < 2 ^ 16 := Nat.pow_lt_pow_right (by decide) hi
      _ = 65536 := by norm_num
  rw [Nat.mod_eq_of_lt h2]
  have h3 : 65535 - 2 ^ i = 2 ^ 16 - (2 ^ i + 1) := by omega
  rw [h3, Nat.testBit_and, Nat.testBit_two_pow_sub_succ (by simpa using h2), Nat.testBit_two_pow]
  cases bp.testBit j <;> simp

theorem clearSlot_lt (bp i : Nat) : clearSlot bp i < 65536 := by
  unfold clearSlot
  exact Nat.lt_of_le_of_lt Nat.and_le_right (not16_lt _)

theorem testBit_setSlot (bp i j : Nat) (hi : i < 16) :
    (bp ||| ((1 <<< i) % 65536)).testBit j = (bp.testBit j || decide (i = j)) := by
  rw [shiftLeft_one_mod i hi, Nat.testBit_or, Nat.testBit_two_pow]

theorem and_fff8 (a : Nat) (h : a < 65536) : a &&& 0xfff8 = 8 * (a / 8) := by
  apply Nat.eq_of_testBit_eq
  intro j
  have e1 : (0xfff8 : Nat) = 2 ^ 3 * (2 ^ 13 - 1) := by norm_num
  have e2 : (8 : Nat) = 2 ^ 3 := by norm_num
  rw [Nat.testBit_and, e1, e2, Nat.testBit_mul_pow_two, Nat.testBit_mul_pow_two,
    Nat.testBit_two_pow_sub_one, ← Nat.shiftRight_eq_div_pow, Nat.testBit_shiftRight]
  by_cases h3 : 3 ≤ j
  · have : 3 + (j - 3) = j := by omega
    simp only [h3, ge_iff_le, decide_True, Bool.true_and, this]
    by_cases h16 : j < 16
    · have : j - 3 < 13 := by omega
      simp [this]
    · have hf : a.testBit j = false :=
        Nat.testBit_lt_two_pow (Nat.lt_of_lt_of_le (by simpa using h)
          (Nat.pow_le_pow_right (by decide) (by omega : 16 ≤ j)))
      simp [hf]
  · simp [h3]

theorem and_seven (a : Nat) : a &&& 0x0007 = a % 8 :=
  Nat.and_pow_two_sub_one_eq_mod a 3

/-! ## Flash addressing -/

theorem readWord_eq (flash : Nat → Nat) (blockn n : Nat) :
    readWord flash blockn n = flash (256 * blockn + n) := by
  unfold readWord EePutReadBlockAddress flashIndex
  have e : blockn <<< 1 % 65536 &&& 0xff = (blockn <<< 1 % 65536) % 256 :=
    Nat.and_pow_two_sub_one_eq_mod _ 8
  rw [e]
  simp only [Nat.shiftRight_eq_div_pow, Nat.shiftLeft_eq]
  congr 1
  omega

theorem storeWords_apply (g : Nat → Nat) (base : Nat) (k n : Nat) (mem : Nat → Nat) (x : Nat) :
    storeWords g base k n mem x =
      if base + n ≤ x ∧ x < base + n + k then g (x - base) else mem x := by
  induction k generalizing n mem with
  | zero =>
    have h : ¬ (base + n ≤ x ∧ x < base + n + 0) := by omega
    rw [storeWords, if_neg h]
  | succ k ih =>
    rw [storeWords, ih]
    unfold setWord
    by_cases h1 : base + (n + 1) ≤ x ∧ x < base + (n + 1) + k
    · have h2 : base + n ≤ x ∧ x < base + n + (k + 1) := by omega
      simp [h1, h2]
    · by_cases h3 : x = base + n
      · have h2 : base + n ≤ x ∧ x < base + n + (k + 1) := by omega
        have : x - base = n := by omega
        simp [h1, h2, h3]
      · have h2 : ¬ (base + n ≤ x ∧ x < base + n + (k + 1)) := by omega
        simp [h1, h2, h3]

theorem memcpy_apply (dst : Nat → Nat) (dstOff : Nat) (src : Nat → Nat) (srcOff count x : Nat) :
    memcpy dst dstOff src srcOff count x =
      if dstOff ≤ x ∧ x < dstOff + count then src (srcOff + (x - dstOff)) else dst x := by
  unfold memcpy
  rw [storeWords_apply]
  simp


/-! ## Slot lookup -/

theorem FindCachedBlockLoop_eq (b : Nat) (k i : Nat) (s : State) :
    FindCachedBlockLoop b k i s =
      match findFrom s.blockPresent s.blockAddress b k i with
      | some m => (some (256 * m), { s with lastFoundBlock := (m : Int) })
      | none => (none, s) := by
  induction k generalizing i with
  | zero => simp [FindCachedBlockLoop, findFrom]
  | succ k ih =>
    rw [FindCachedBlockLoop, findFrom]
    split
    · rfl
    · exact ih (i + 1)

theorem FindCachedBlock_eq (s : State) (b : Nat) :
    FindCachedBlock s b =
      match findFrom s.blockPresent s.blockAddress b CACHE_BLOCKS 0 with
      | some m => (some (256 * m), { s with lastFoundBlock := (m : Int) })
      | none => (none, { s with lastFoundBlock := -1 }) := by
  unfold FindCachedBlock
  rw [FindCachedBlockLoop_eq]

theorem findFrom_some {bp : Nat} {addr : Nat → Nat} {b k i m : Nat}
    (h : findFrom bp addr b k i = some m) :
    i ≤ m ∧ m < i + k ∧ slotPresent bp m = true ∧ addr m = b ∧
      ∀ t, i ≤ t → t < m → ¬ (slotPresent bp t = true ∧ addr t = b) := by
  induction k generalizing i with
  | zero => simp [findFrom] at h
  | succ k ih =>
    rw [findFrom] at h
    split at h
    · rename_i hc
      simp only [Bool.and_eq_true, beq_iff_eq] at hc
      injection h with h
      subst h
      refine ⟨Nat.le_refl _, by omega, hc.1, hc.2, ?_⟩
      intro t h1 h2
      omega
    · rename_i hc
      simp only [Bool.and_eq_true, beq_iff_eq] at hc
      obtain ⟨h1, h2, h3, h4, h5⟩ := ih h
      refine ⟨by omega, by omega, h3, h4, ?_⟩
      intro t ht1 ht2
      by_cases hti : t = i
      · subst hti; exact hc
      · exact h5 t (by omega) ht2

theorem findFrom_none {bp : Nat} {addr : Nat → Nat} {b k i : Nat}
    (h : findFrom bp addr b k i = none) :
    ∀ t, i ≤ t → t < i + k → ¬ (slotPresent bp t = true ∧ addr t = b) := by
  induction k generalizing i with
  | zero => intro t h1 h2; omega
  | succ k ih =>
    rw [findFrom] at h
    split at h
    · simp at h
    · rename_i hc
      simp only [Bool.and_eq_true, beq_iff_eq] at hc
      intro t ht1 ht2
      by_cases hti : t = i
      · subst hti; exact hc
      · exact ih h t (by omega) (by omega)

theorem findFrom_congr {bp bp2 : Nat} {addr addr2 : Nat → Nat} {b k i : Nat}
    (h : ∀ t, i ≤ t → t < i + k →
      ((slotPresent bp t = true ∧ addr t = b) ↔ (slotPresent bp2 t = true ∧ addr2 t = b))) :
    findFrom bp addr b k i = findFrom bp2 addr2 b k i := by
  induction k generalizing i with
  | zero => rfl
  | succ k ih =>
    rw [findFrom, findFrom]
    have hi := h i (Nat.le_refl _) (by omega)
    have hrec := ih (i := i + 1) (fun t h1 h2 => h t (by omega) (by omega))
    by_cases hc : slotPresent bp i = true ∧ addr i = b
    · have hc2 := hi.1 hc
      simp [hc.1, hc.2, hc2.1, hc2.2]
    · have hc2 : ¬ (slotPresent bp2 i = true ∧ addr2 i = b) := fun h2 => hc (hi.2 h2)
      have e1 : (slotPresent bp i && addr i == b) = false := by
        simpa [Bool.and_eq_true] using hc
      have e2 : (slotPresent bp2 i && addr2 i == b) = false := by
        simpa [Bool.and_eq_true] using hc2
      simp [e1, e2, hrec]

theorem findFrom_of_distinct {s : State} (hd : DistinctPresent s) {m : Nat}
    (hm : m < CACHE_BLOCKS) (hp : slotPresent s.blockPresent m = true) :
    findFrom s.blockPresent s.blockAddress (s.blockAddress m) CACHE_BLOCKS 0 = some m := by
  cases h : findFrom s.blockPresent s.blockAddress (s.blockAddress m) CACHE_BLOCKS 0 with
  | none =>
    exact absurd ⟨hp, rfl⟩ (findFrom_none h m (Nat.zero_le _) (by simpa using hm))
  | some t =>
    obtain ⟨_, h2, h3, h4, _⟩ := findFrom_some h
    have := hd t m (by simpa using h2) hm h3 hp h4
    rw [this]

/-! ## The reset oracle and the chip -/

theorem SpiWaitStatus_snd (s : State) :
    (SpiWaitStatus s).2 = { s with resets := s.resets.tail } := by
  unfold SpiWaitStatus
  cases h : s.resets with
  | nil => cases s; simp_all
  | cons r rest => simp

theorem SpiWaitStatus_fst (s : State) :
    (SpiWaitStatus s).1 = s.resets.headD false := by
  unfold SpiWaitStatus
  cases h : s.resets <;> simp

theorem flashIndex_first (blockn : Nat) :
    flashIndex (EePutReadBlockAddress blockn).1 (EePutReadBlockAddress blockn).2.1
      (EePutReadBlockAddress blockn).2.2 0 = 256 * blockn := by
  have := readWord_eq id blockn 0
  simpa [readWord] using this

theorem flashIndex_second (blockn : Nat) :
    flashIndex (secondPageAddress blockn).1 (secondPageAddress blockn).2.1
      (secondPageAddress blockn).2.2 0 = 256 * blockn + 128 := by
  unfold secondPageAddress flashIndex
  have e : (blockn <<< 1 % 65536 + 1) % 65536 &&& 0xff = ((blockn <<< 1 % 65536 + 1) % 65536) % 256 :=
    Nat.and_pow_two_sub_one_eq_mod _ 8
  rw [e]
  simp only [Nat.shiftRight_eq_div_pow, Nat.shiftLeft_eq]
  omega

theorem eraseIndex (blockn : Nat) :
    ((EePutReadBlockAddress blockn).1 * 65536 + (EePutReadBlockAddress blockn).2.1 * 256 +
      (EePutReadBlockAddress blockn).2.2) / 4096 = blockn / 8 := by
  unfold EePutReadBlockAddress
  have e : blockn <<< 1 % 65536 &&& 0xff = (blockn <<< 1 % 65536) % 256 :=
    Nat.and_pow_two_sub_one_eq_mod _ 8
  rw [e]
  simp only [Nat.shiftRight_eq_div_pow, Nat.shiftLeft_eq]
  omega

theorem EeIsBlockErasedLoop_one {flash : Nat → Nat} {blockn k n : Nat}
    (h : EeIsBlockErasedLoop flash blockn k n ≠ 0) :
    ∀ t, n ≤ t → t < n + k → flash (256 * blockn + t) = 0xffff := by
  induction k generalizing n with
  | zero => intro t h1 h2; omega
  | succ k ih =>
    rw [EeIsBlockErasedLoop] at h
    split at h
    · exact absurd rfl h
    · rename_i hc
      rw [readWord_eq] at hc
      intro t h1 h2
      by_cases ht : t = n
      · subst ht; simpa using hc
      · exact ih h t (by omega) (by omega)


/-! ## `EeProgram4K` -/

theorem headD_true_mem {l : List Bool} (h : l.headD false = true) : true ∈ l := by
  cases l with
  | nil => simp at h
  | cons a t => simp at h; simp [h]

theorem chipProgram_first (flash : Nat → Nat) (blockn : Nat) (words : Nat → Nat) (w : Nat) :
    chipProgram flash (EePutReadBlockAddress blockn).1 (EePutReadBlockAddress blockn).2.1
      (EePutReadBlockAddress blockn).2.2 words w =
      if 256 * blockn ≤ w ∧ w < 256 * blockn + 128 then flash w &&& words (w - 256 * blockn)
      else flash w := by
  simp only [chipProgram, flashIndex_first]

theorem chipProgram_second (flash : Nat → Nat) (blockn : Nat) (words : Nat → Nat) (w : Nat) :
    chipProgram flash (secondPageAddress blockn).1 (secondPageAddress blockn).2.1
      (secondPageAddress blockn).2.2 words w =
      if 256 * blockn + 128 ≤ w ∧ w < 256 * blockn + 256 then
        flash w &&& words (w - (256 * blockn + 128))
      else flash w := by
  simp only [chipProgram, flashIndex_second]

theorem chipErase_apply (flash : Nat → Nat) (blockn : Nat) (w : Nat) :
    chipErase flash (EePutReadBlockAddress blockn).1 (EePutReadBlockAddress blockn).2.1
      (EePutReadBlockAddress blockn).2.2 w =
      if w / 2048 = blockn / 8 then 0xffff else flash w := by
  simp only [chipErase, eraseIndex]

theorem EeProgram4KLoop_spec (k blockn dptr : Nat) (s : State) (hb : blockn + k ≤ 65536) :
    ∃ (res : Int) (F : Nat → Nat) (R : List Bool) (L : List FlashOp),
      EeProgram4KLoop k blockn dptr s = (res, { s with flash := F, resets := R, log := L }) ∧
      (res = 0 ∨ res = -1) ∧
      (∀ w, ¬ (256 * blockn ≤ w ∧ w < 256 * (blockn + k)) → F w = s.flash w) ∧
      (res = 0 → ∀ w, 256 * blockn ≤ w → w < 256 * (blockn + k) →
        F w = s.flash w &&& not16 (s.mallocAreaY (dptr + (w - 256 * blockn)))) ∧
      (∀ r ∈ R, r ∈ s.resets) ∧
      ((∀ r ∈ s.resets, r = false) → res = 0) ∧
      lastProgram L = lastProgram s.log ∧ programCalls L = programCalls s.log ∧
      resetCount L = resetCount s.log + (if res = -1 then 1 else 0) := by
  induction k generalizing blockn dptr s with
  | zero =>
    refine ⟨0, s.flash, s.resets, s.log, ?_, Or.inl rfl, fun _ _ => rfl, ?_, fun _ h => h,
      fun _ => rfl, rfl, rfl, by simp⟩
    · rw [EeProgram4KLoop]
    · intro _ w h1 h2; omega
  | succ k ih =>
    rw [EeProgram4KLoop]
    simp only [SpiWaitStatus_fst, SpiWaitStatus_snd]
    by_cases h1 : s.resets.headD false = true
    · rw [if_pos h1]
      refine ⟨-1, _, _, _, rfl, Or.inr rfl, ?_, ?_, ?_, ?_, rfl, rfl, by simp [resetCount]⟩
      · intro w hw
        rw [chipProgram_first, if_neg]
        omega
      · intro h; simp at h
      · intro r h; exact List.mem_of_mem_tail h
      · intro h; exact absurd (h true (headD_true_mem h1)) (by simp)
    · rw [if_neg h1]
      by_cases h2 : s.resets.tail.headD false = true
      · rw [if_pos h2]
        refine ⟨-1, _, _, _, rfl, Or.inr rfl, ?_, ?_, ?_, ?_, rfl, rfl, by simp [resetCount]⟩
        · intro w hw
          rw [chipProgram_second, if_neg (by omega), chipProgram_first, if_neg (by omega)]
        · intro h; simp at h
        · intro r h; exact List.mem_of_mem_tail (List.mem_of_mem_tail h)
        · intro h
          exact absurd (h true (List.mem_of_mem_tail (headD_true_mem h2))) (by simp)
      · rw [if_neg h2]
        by_cases hk : k = 0
        · subst hk
          rw [EeProgram4KLoop]
          refine ⟨0, _, _, _, rfl, Or.inl rfl, ?_, ?_, ?_, ?_, rfl, rfl, by simp [resetCount]⟩
          · intro w hw
            rw [chipProgram_second, if_neg (by omega), chipProgram_first, if_neg (by omega)]
          · intro _ w hw1 hw2
            rw [chipProgram_second, chipProgram_first]
            by_cases hlo : w < 256 * blockn + 128
            · rw [if_neg (by omega), if_pos (by omega)]
            · rw [if_pos (by omega), if_neg (by omega)]
              have : dptr + 128 + (w - (256 * blockn + 128)) = dptr + (w - 256 * blockn) := by
                omega
              rw [this]
          · intro r h; exact List.mem_of_mem_tail (List.mem_of_mem_tail h)
          · intro _; rfl
        · have hb1 : (blockn + 1) % 65536 = blockn + 1 := Nat.mod_eq_of_lt (by omega)
          rw [hb1]
          obtain ⟨res, F, R, L, he, hres, hout, hin, hR, hno, hl, hp, hrc⟩ :=
            ih (blockn + 1) (dptr + 256)
              { s with
                flash := chipProgram
                  (chipProgram s.flash (EePutReadBlockAddress blockn).1
                    (EePutReadBlockAddress blockn).2.1 (EePutReadBlockAddress blockn).2.2
                    fun n => not16 (s.mallocAreaY (dptr + n)))
                  (secondPageAddress blockn).1 (secondPageAddress blockn).2.1
                  (secondPageAddress blockn).2.2 fun n => not16 (s.mallocAreaY (dptr + 128 + n))
                resets := s.resets.tail.tail
                log := FlashOp.page (secondPageAddress blockn).1 (secondPageAddress blockn).2.1
                    (secondPageAddress blockn).2.2 ::
                  FlashOp.page (EePutReadBlockAddress blockn).1
                    (EePutReadBlockAddress blockn).2.1 (EePutReadBlockAddress blockn).2.2 ::
                  s.log } (by omega)
          refine ⟨res, F, R, L, he, hres, ?_, ?_, ?_, ?_, hl, hp, hrc⟩
          · intro w hw
            rw [hout w (by omega)]
            dsimp only
            rw [chipProgram_second, if_neg (by omega), chipProgram_first, if_neg (by omega)]
          · intro h0 w hw1 hw2
            by_cases hhi : w < 256 * blockn + 256
            · rw [hout w (by omega)]
              dsimp only
              rw [chipProgram_second, chipProgram_first]
              by_cases hlo : w < 256 * blockn + 128
              · rw [if_neg (by omega), if_pos (by omega)]
              · rw [if_pos (by omega), if_neg (by omega)]
                have : dptr + 128 + (w - (256 * blockn + 128)) = dptr + (w - 256 * blockn) := by
                  omega
                rw [this]
            · rw [hin h0 w (by omega) (by omega)]
              dsimp only
              rw [chipProgram_second, if_neg (by omega), chipProgram_first, if_neg (by omega)]
              have : dptr + 256 + (w - 256 * (blockn + 1)) = dptr + (w - 256 * blockn) := by
                omega
              rw [this]
          · intro r h; exact List.mem_of_mem_tail (List.mem_of_mem_tail (hR r h))
          · intro h
            exact hno (fun r hr => h r (List.mem_of_mem_tail (List.mem_of_mem_tail hr)))

theorem EeProgram4K_tail (s : State) (blockn dptr : Nat) (F1 : Nat → Nat) (L1 : List FlashOp)
    (ha : blockn % 8 = 0) (hb : blockn < 65536)
    (hblank : ∀ w, w / 2048 = blockn / 8 → F1 w = 0xffff)
    (hout : ∀ w, w / 2048 ≠ blockn / 8 → F1 w = s.flash w)
    (hl : lastProgram L1 = some blockn) (hp : programCalls L1 = programCalls s.log + 1)
    (hrc1 : resetCount L1 = resetCount s.log) :
    ∃ (res : Int) (F : Nat → Nat) (R : List Bool) (L : List FlashOp),
      (if (SpiWaitStatus { s with flash := F1, log := L1 }).1 = true then
          ((-1 : Int),
            { (SpiWaitStatus { s with flash := F1, log := L1 }).2 with
              log := FlashOp.reset :: (SpiWaitStatus { s with flash := F1, log := L1 }).2.log })
        else EeProgram4KLoop 8 blockn dptr (SpiWaitStatus { s with flash := F1, log := L1 }).2) =
        (res, { s with flash := F, resets := R, log := L }) ∧
      (res = 0 ∨ res = -1) ∧
      (∀ w, w / 2048 ≠ blockn / 8 → F w = s.flash w) ∧
      (res = 0 → ∀ w, w / 2048 = blockn / 8 →
        F w = not16 (s.mallocAreaY (dptr + (w - 256 * blockn)))) ∧
      (∀ r ∈ R, r ∈ s.resets) ∧
      ((∀ r ∈ s.resets, r = false) → res = 0) ∧
      lastProgram L = some blockn ∧ programCalls L = programCalls s.log + 1 ∧
      resetCount L = resetCount s.log + (if res = -1 then 1 else 0) := by
  simp only [SpiWaitStatus_fst, SpiWaitStatus_snd]
  by_cases h1 : s.resets.headD false = true
  · rw [if_pos h1]
    refine ⟨-1, _, _, _, rfl, Or.inr rfl, hout, ?_, ?_, ?_, hl, hp, by simp [resetCount, hrc1]⟩
    · intro h; simp at h
    · intro r h; exact List.mem_of_mem_tail h
    · intro h; exact absurd (h true (headD_true_mem h1)) (by simp)
  · rw [if_neg h1]
    obtain ⟨res, F, R, L, he, hres, hout2, hin2, hR, hno, hl2, hp2, hrc2⟩ :=
      EeProgram4KLoop_spec 8 blockn dptr
        { s with flash := F1, resets := s.resets.tail, log := L1 } (by omega)
    refine ⟨res, F, R, L, he, hres, ?_, ?_, ?_, ?_, ?_, ?_, ?_⟩
    · intro w hw
      rw [hout2 w (by omega)]
      exact hout w hw
    · intro h0 w hw
      rw [hin2 h0 w (by omega) (by omega)]
      dsimp only
      rw [hblank w hw, ffff_and _ (not16_lt _)]
    · intro r h; exact List.mem_of_mem_tail (hR r h)
    · intro h; exact hno (fun r hr => h r (List.mem_of_mem_tail hr))
    · rw [hl2]; exact hl
    · rw [hp2]; exact hp
    · rw [hrc2]; dsimp only; rw [hrc1]

theorem EeProgram4K_spec (s : State) (blockn dptr : Nat)
    (ha : blockn % 8 = 0) (hb : blockn < 65536) :
    ∃ (res : Int) (F : Nat → Nat) (R : List Bool) (L : List FlashOp),
      EeProgram4K s blockn dptr = (res, { s with flash := F, resets := R, log := L }) ∧
      (res = 0 ∨ res = -1) ∧
      (∀ w, w / 2048 ≠ blockn / 8 → F w = s.flash w) ∧
      (res = 0 → ∀ w, w / 2048 = blockn / 8 →
        F w = not16 (s.mallocAreaY (dptr + (w - 256 * blockn)))) ∧
      (∀ r ∈ R, r ∈ s.resets) ∧
      ((∀ r ∈ s.resets, r = false) → res = 0) ∧
      lastProgram L = some blockn ∧ programCalls L = programCalls s.log + 1 ∧
      resetCount L = resetCount s.log + (if res = -1 then 1 else 0) := by
  unfold EeProgram4K
  dsimp only
  by_cases he : EeIsBlockErased { s with log := FlashOp.program4K blockn dptr :: s.log } blockn = 0
  · rw [if_pos he]
    exact EeProgram4K_tail s blockn dptr _ _ ha hb
      (fun w hw => by rw [chipErase_apply, if_pos hw])
      (fun w hw => by rw [chipErase_apply, if_neg hw]) rfl rfl rfl
  · rw [if_neg he]
    have hbl := @EeIsBlockErasedLoop_one s.flash blockn 2048 0 he
    exact EeProgram4K_tail s blockn dptr _ _ ha hb
      (fun w hw => by
        have := hbl (w - 256 * blockn) (Nat.zero_le _) (by omega)
        rw [← this]
        congr 1
        omega)
      (fun w hw => rfl) rfl rfl rfl

/-! ## The merge step of the flush -/

theorem slotPresent_clearSlot (bp i t : Nat) (hi : i < 16) (ht : t < 16) :
    slotPresent (clearSlot bp i) t = (slotPresent bp t && !decide (i = t)) := by
  rw [slotPresent_eq_testBit _ _ ht, slotPresent_eq_testBit _ _ ht, testBit_clearSlot _ _ _ hi]
  simp [ht]

theorem cachedSlot_lt {s : State} {b t : Nat} (h : cachedSlot s b = some t) : t < 16 := by
  have := (findFrom_some h).2.1
  simpa [CACHE_BLOCKS] using this

theorem FindCachedBlock_cachedSlot (s : State) (b : Nat) :
    FindCachedBlock s b =
      match cachedSlot s b with
      | some m => (some (256 * m), { s with lastFoundBlock := (m : Int) })
      | none => (none, { s with lastFoundBlock := -1 }) :=
  FindCachedBlock_eq s b

theorem logicalWord_eq (s : State) (b w : Nat) :
    logicalWord s b w =
      match cachedSlot s b with
      | some t => s.mallocAreaY (256 * t + w)
      | none => flashWord s b w := by
  unfold logicalWord
  rw [FindCachedBlock_cachedSlot]
  cases cachedSlot s b <;> rfl

theorem EeRead4KSectorYToWorkspace_eq (s : State) (blockn : Nat) :
    EeRead4KSectorYToWorkspace s blockn =
      { s with
        mallocAreaY := fun x =>
          if WORKSPACE ≤ x ∧ x < WORKSPACE + 2048 then
            not16 (s.flash (256 * (blockn &&& 0xfff8) + (x - WORKSPACE)))
          else s.mallocAreaY x
        log := FlashOp.read4K blockn :: s.log } := by
  unfold EeRead4KSectorYToWorkspace
  have h : storeWords (fun n => not16 (readWord s.flash (blockn &&& 0xfff8) n)) WORKSPACE 2048 0
      s.mallocAreaY = fun x =>
        if WORKSPACE ≤ x ∧ x < WORKSPACE + 2048 then
          not16 (s.flash (256 * (blockn &&& 0xfff8) + (x - WORKSPACE)))
        else s.mallocAreaY x := by
    funext x
    rw [storeWords_apply]
    simp only [readWord_eq, Nat.add_zero]
  rw [h]

theorem flushMerge_spec (lba n j : Nat) (s : State) (nbp : Nat) (hj : j + n ≤ 8) :
    ∃ (M : Nat → Nat) (lf : Int),
      (flushMerge lba n j s nbp).1 = { s with mallocAreaY := M, lastFoundBlock := lf } ∧
      (∀ x, ¬ (WORKSPACE + 256 * j ≤ x ∧ x < WORKSPACE + 256 * (j + n)) →
        M x = s.mallocAreaY x) ∧
      (∀ jj w, j ≤ jj → jj < j + n → w < 256 →
        M (WORKSPACE + 256 * jj + w) =
          match cachedSlot s ((lba + jj) % 65536) with
          | some t => s.mallocAreaY (256 * t + w)
          | none => s.mallocAreaY (WORKSPACE + 256 * jj + w)) ∧
      (∀ t, t < 16 →
        (slotPresent (flushMerge lba n j s nbp).2 t = true ↔
          slotPresent nbp t = true ∧
            ∀ jj, j ≤ jj → jj < j + n → cachedSlot s ((lba + jj) % 65536) ≠ some t)) ∧
      (nbp < 65536 → (flushMerge lba n j s nbp).2 < 65536) := by
  induction n generalizing j s nbp with
  | zero =>
    refine ⟨s.mallocAreaY, s.lastFoundBlock, ?_, fun _ _ => rfl, ?_, ?_, ?_⟩
    · rw [flushMerge]
    · intro jj w h1 h2; omega
    · intro t ht
      rw [flushMerge]
      constructor
      · intro h; exact ⟨h, fun jj h1 h2 => by omega⟩
      · intro h; exact h.1
    · intro h; rw [flushMerge]; exact h
  | succ n ih =>
    rw [flushMerge]
    dsimp only
    rw [FindCachedBlock_cachedSlot]
    cases hc : cachedSlot s ((lba + j) % 65536) with
    | none =>
      dsimp only
      obtain ⟨M, lf, he, hout, hin, hbits, hlt⟩ :=
        ih (j + 1) { s with lastFoundBlock := -1 } nbp (by omega)
      refine ⟨M, lf, ?_, ?_, ?_, ?_, hlt⟩
      · rw [he]
      · intro x hx
        exact hout x (by omega)
      · intro jj w h1 h2 hw
        by_cases hjj : jj = j
        · subst hjj
          rw [hc]
          exact hout _ (by omega)
        · exact hin jj w (by omega) (by omega) hw
      · intro t ht
        rw [hbits t ht]
        constructor
        · rintro ⟨h1, h2⟩
          refine ⟨h1, fun jj hj1 hj2 => ?_⟩
          by_cases hjj : jj = j
          · subst hjj; rw [hc]; simp
          · exact h2 jj (by omega) (by omega)
        · rintro ⟨h1, h2⟩
          exact ⟨h1, fun jj hj1 hj2 => h2 jj (by omega) (by omega)⟩
    | some t0 =>
      dsimp only
      have ht0 : t0 < 16 := cachedSlot_lt hc
      have hnat : ((t0 : Int)).toNat = t0 := Int.toNat_natCast t0
      rw [hnat]
      obtain ⟨M, lf, he, hout, hin, hbits, hlt⟩ :=
        ih (j + 1)
          { s with
            lastFoundBlock := (t0 : Int)
            mallocAreaY := memcpy s.mallocAreaY (WORKSPACE + 256 * j) s.mallocAreaY (256 * t0) 256 }
          (clearSlot nbp t0) (by omega)
      have hmem : ∀ x, ¬ (WORKSPACE + 256 * j ≤ x ∧ x < WORKSPACE + 256 * j + 256) →
          memcpy s.mallocAreaY (WORKSPACE + 256 * j) s.mallocAreaY (256 * t0) 256 x =
            s.mallocAreaY x := by
        intro x hx
        rw [memcpy_apply, if_neg hx]
      refine ⟨M, lf, ?_, ?_, ?_, ?_, ?_⟩
      · rw [he]
      · intro x hx
        rw [hout x (by omega)]
        dsimp only
        exact hmem x (by omega)
      · intro jj w h1 h2 hw
        by_cases hjj : jj = j
        · subst hjj
          rw [hc, hout _ (by omega)]
          dsimp only
          rw [memcpy_apply, if_pos (by omega)]
          congr 1
          omega
        · rw [hin jj w (by omega) (by omega) hw]
          have hcs : cachedSlot
              { s with
                lastFoundBlock := (t0 : Int)
                mallocAreaY :=
                  memcpy s.mallocAreaY (WORKSPACE + 256 * j) s.mallocAreaY (256 * t0) 256 }
              ((lba + jj) % 65536) = cachedSlot s ((lba + jj) % 65536) := rfl
          rw [hcs]
          cases hc2 : cachedSlot s ((lba + jj) % 65536) with
          | none =>
            dsimp only
            exact hmem _ (by omega)
          | some t2 =>
            dsimp only
            have : t2 < 16 := cachedSlot_lt hc2
            exact hmem _ (by unfold WORKSPACE; omega)
      · intro t ht
        rw [hbits t ht, slotPresent_clearSlot _ _ _ ht0 ht]
        have hcs : ∀ b, cachedSlot
            { s with
              lastFoundBlock := (t0 : Int)
              mallocAreaY :=
                memcpy s.mallocAreaY (WORKSPACE + 256 * j) s.mallocAreaY (256 * t0) 256 } b =
            cachedSlot s b := fun _ => rfl
        simp only [hcs]
        constructor
        · rintro ⟨h1, h2⟩
          simp only [Bool.and_eq_true, Bool.not_eq_true', decide_eq_false_iff_not] at h1
          refine ⟨h1.1, fun jj hj1 hj2 => ?_⟩
          by_cases hjj : jj = j
          · subst hjj
            rw [hc]
            intro h
            injection h with h
            exact h1.2 h
          · exact h2 jj (by omega) (by omega)
        · rintro ⟨h1, h2⟩
          refine ⟨?_, fun jj hj1 hj2 => h2 jj (by omega) (by omega)⟩
          simp only [Bool.and_eq_true, Bool.not_eq_true', decide_eq_false_iff_not]
          refine ⟨h1, fun h => ?_⟩
          subst h
          exact h2 j (Nat.le_refl _) (by omega) hc
      · intro _
        exact hlt (clearSlot_lt _ _)

/-! ## One erase unit of the flush -/

theorem FsMapSpiFlashFlushLoop_succ (k i : Nat) (s : State) :
    FsMapSpiFlashFlushLoop (k + 1) i s =
      if slotPresent s.blockPresent i then
        if (flushUnit s i).1.1 ≠ -1 then
          FsMapSpiFlashFlushLoop k (i + 1)
            { (flushUnit s i).1.2 with blockPresent := (flushUnit s i).2, shouldFlush := 0 }
        else { (flushUnit s i).1.2 with shouldFlush := 1 }
      else FsMapSpiFlashFlushLoop k (i + 1) s := rfl

theorem flashWord_lt (s : State) (b w : Nat) : flashWord s b w < 65536 := not16_lt _

theorem logicalWord_lt {s : State} (h : WellTyped s) (b w : Nat) : logicalWord s b w < 65536 := by
  rw [logicalWord_eq]
  cases cachedSlot s b with
  | none => exact flashWord_lt s b w
  | some t => exact h.2.2 _

theorem flushUnit_spec (s : State) (i : Nat) (hwt : WellTyped s) (hi : i < 16) :
    ∃ (res : Int) (F : Nat → Nat) (R : List Bool) (L : List FlashOp) (M : Nat → Nat) (lf : Int)
      (nbp : Nat),
      flushUnit s i =
        ((res,
          { s with mallocAreaY := M, lastFoundBlock := lf, flash := F, resets := R, log := L }),
          nbp) ∧
      (res = 0 ∨ res = -1) ∧
      (∀ x, x < WORKSPACE → M x = s.mallocAreaY x) ∧
      (∀ a, M a < 65536) ∧
      (∀ w, w / 2048 ≠ s.blockAddress i / 8 → F w = s.flash w) ∧
      (res = 0 → ∀ A w, A / 8 = s.blockAddress i / 8 → w < 256 →
        not16 (F (256 * A + w)) = logicalWord s A w) ∧
      (∀ t, t < 16 → (slotPresent nbp t = true ↔ slotPresent s.blockPresent t = true ∧
        ∀ A, A / 8 = s.blockAddress i / 8 → cachedSlot s A ≠ some t)) ∧
      nbp < 65536 ∧
      (∀ r ∈ R, r ∈ s.resets) ∧
      ((∀ r ∈ s.resets, r = false) → res = 0) ∧
      lastProgram L = some (s.blockAddress i &&& 0xfff8) ∧
      programCalls L = programCalls s.log + 1 ∧
      resetCount L = resetCount s.log + (if res = -1 then 1 else 0) := by
  have ha : s.blockAddress i < 65536 := hwt.2.1 i (by simpa [CACHE_BLOCKS] using hi)
  have hlba : s.blockAddress i &&& 0xfff8 = 8 * (s.blockAddress i / 8) := and_fff8 _ ha
  have hlba2 : 8 * (s.blockAddress i / 8) &&& 0xfff8 = 8 * (s.blockAddress i / 8) := by
    rw [and_fff8 _ (by omega)]; omega
  unfold flushUnit
  dsimp only
  rw [hlba, EeRead4KSectorYToWorkspace_eq, hlba2]
  dsimp only
  obtain ⟨M, lf, he, hout, hin, hbits, hlt⟩ :=
    flushMerge_spec (8 * (s.blockAddress i / 8)) 8 0
      { s with
        mallocAreaY := fun x =>
          if WORKSPACE ≤ x ∧ x < WORKSPACE + 2048 then
            not16 (s.flash (256 * (8 * (s.blockAddress i / 8)) + (x - WORKSPACE)))
          else s.mallocAreaY x
        log := FlashOp.read4K (8 * (s.blockAddress i / 8)) :: s.log }
      s.blockPresent (by omega)
  rw [he]
  obtain ⟨res, F, R, L, hp, hres, hFout, hFin, hR, hno, hl, hpc, hrc⟩ :=
    EeProgram4K_spec
      { s with
        mallocAreaY := M
        lastFoundBlock := lf
        log := FlashOp.read4K (8 * (s.blockAddress i / 8)) :: s.log }
      (8 * (s.blockAddress i / 8)) WORKSPACE (by omega) (by omega)
  have hcs : ∀ b, cachedSlot
      { s with
        mallocAreaY := fun x =>
          if WORKSPACE ≤ x ∧ x < WORKSPACE + 2048 then
            not16 (s.flash (256 * (8 * (s.blockAddress i / 8)) + (x - WORKSPACE)))
          else s.mallocAreaY x
        log := FlashOp.read4K (8 * (s.blockAddress i / 8)) :: s.log } b = cachedSlot s b :=
    fun _ => rfl
  simp only [hcs] at hin hbits
  dsimp only at hout hin hFout hFin hR hno hpc
  -- the work area holds the logical content of the unit
  have hws : ∀ jj w, jj < 8 → w < 256 →
      M (WORKSPACE + 256 * jj + w) = logicalWord s (8 * (s.blockAddress i / 8) + jj) w := by
    intro jj w hjj hw
    rw [hin jj w (Nat.zero_le _) (by omega) hw, logicalWord_eq,
      Nat.mod_eq_of_lt (by omega : 8 * (s.blockAddress i / 8) + jj < 65536)]
    cases hc : cachedSlot s (8 * (s.blockAddress i / 8) + jj) with
    | none =>
      dsimp only
      rw [if_pos (by omega)]
      unfold flashWord
      rw [readWord_eq]
      have e : 256 * (8 * (s.blockAddress i / 8)) + (WORKSPACE + 256 * jj + w - WORKSPACE) =
          256 * (8 * (s.blockAddress i / 8) + jj) + w := by omega
      rw [e]
    | some t =>
      dsimp only
      have : t < 16 := cachedSlot_lt hc
      rw [if_neg (by unfold WORKSPACE; omega)]
  refine ⟨res, F, R, L, M, lf, (flushMerge (8 * (s.blockAddress i / 8)) 8 0 _ s.blockPresent).2,
    ?_, hres, ?_, ?_, ?_, ?_, ?_, hlt hwt.1, hR, hno, hl, ?_, ?_⟩
  · rw [hp]
  · intro x hx
    rw [hout x (by omega)]
    rw [if_neg (by omega)]
  · intro a
    by_cases hr : WORKSPACE ≤ a ∧ a < WORKSPACE + 2048
    · have e : a = WORKSPACE + 256 * ((a - WORKSPACE) / 256) + (a - WORKSPACE) % 256 := by omega
      rw [e, hws _ _ (by omega) (Nat.mod_lt _ (by decide))]
      exact logicalWord_lt hwt _ _
    · rw [hout a (by omega), if_neg hr]
      exact hwt.2.2 a
  · intro w hw
    exact hFout w (by omega)
  · intro h0 A w hA hw
    rw [hFin h0 (256 * A + w) (by omega)]
    have e : WORKSPACE + (256 * A + w - 256 * (8 * (s.blockAddress i / 8))) =
        WORKSPACE + 256 * (A - 8 * (s.blockAddress i / 8)) + w := by omega
    rw [e, hws _ _ (by omega) hw, not16_not16 _ (logicalWord_lt hwt _ _)]
    congr 1
    omega
  · intro t ht
    rw [hbits t ht]
    constructor
    · rintro ⟨h1, h2⟩
      refine ⟨h1, fun A hA => ?_⟩
      have := h2 (A - 8 * (s.blockAddress i / 8)) (Nat.zero_le _) (by omega)
      rw [Nat.mod_eq_of_lt (by omega)] at this
      have e : 8 * (s.blockAddress i / 8) + (A - 8 * (s.blockAddress i / 8)) = A := by omega
      rw [e] at this
      exact this
    · rintro ⟨h1, h2⟩
      refine ⟨h1, fun jj _ hjj => ?_⟩
      rw [Nat.mod_eq_of_lt (by omega)]
      exact h2 _ (by omega)
  · rw [hpc]
    rfl
  · rw [hrc]
    rfl

theorem cachedSlot_after_unit (s : State) (i : Nat) (nbp : Nat)
    (hbits : ∀ t, t < 16 → (slotPresent nbp t = true ↔ slotPresent s.blockPresent t = true ∧
        ∀ A, A / 8 = s.blockAddress i / 8 → cachedSlot s A ≠ some t))
    (A : Nat) (hA : A / 8 ≠ s.blockAddress i / 8) :
    findFrom nbp s.blockAddress A CACHE_BLOCKS 0 = cachedSlot s A := by
  unfold cachedSlot
  apply findFrom_congr
  intro t _ ht
  have ht16 : t < 16 := by simpa [CACHE_BLOCKS] using ht
  rw [hbits t ht16]
  constructor
  · rintro ⟨⟨h1, _⟩, h2⟩
    exact ⟨h1, h2⟩
  · rintro ⟨h1, h2⟩
    refine ⟨⟨h1, fun A2 hA2 hc => ?_⟩, h2⟩
    have := (findFrom_some hc).2.2.2.1
    rw [h2] at this
    rw [this] at hA
    exact hA hA2

theorem cachedSlot_after_unit_none (s : State) (hd : DistinctPresent s) (i : Nat) (nbp : Nat)
    (hbits : ∀ t, t < 16 → (slotPresent nbp t = true ↔ slotPresent s.blockPresent t = true ∧
        ∀ A, A / 8 = s.blockAddress i / 8 → cachedSlot s A ≠ some t))
    (A : Nat) (hA : A / 8 = s.blockAddress i / 8) :
    findFrom nbp s.blockAddress A CACHE_BLOCKS 0 = none := by
  cases hc : findFrom nbp s.blockAddress A CACHE_BLOCKS 0 with
  | none => rfl
  | some t =>
    obtain ⟨_, h2, h3, h4, _⟩ := findFrom_some hc
    have ht16 : t < 16 := by simpa [CACHE_BLOCKS] using h2
    have hb := (hbits t ht16).1 h3
    have hf := findFrom_of_distinct hd (by simpa [CACHE_BLOCKS] using ht16) hb.1
    rw [h4] at hf
    exact absurd hf (hb.2 A hA)

theorem present_after_unit_other (s : State) (hd : DistinctPresent s) (i : Nat) (nbp : Nat)
    (hbits : ∀ t, t < 16 → (slotPresent nbp t = true ↔ slotPresent s.blockPresent t = true ∧
        ∀ A, A / 8 = s.blockAddress i / 8 → cachedSlot s A ≠ some t))
    (t : Nat) (ht : t < 16) (hp : slotPresent nbp t = true) :
    s.blockAddress t / 8 ≠ s.blockAddress i / 8 := by
  intro h
  have hb := (hbits t ht).1 hp
  have hf := findFrom_of_distinct hd (by simpa [CACHE_BLOCKS] using ht) hb.1
  exact hb.2 _ h hf

theorem logicalWord_after_unit (s : State) (hd : DistinctPresent s) (i : Nat)
    (F : Nat → Nat) (R : List Bool) (L : List FlashOp) (M : Nat → Nat) (lf : Int) (nbp sf : Nat)
    (hM : ∀ x, x < WORKSPACE → M x = s.mallocAreaY x)
    (hFout : ∀ w, w / 2048 ≠ s.blockAddress i / 8 → F w = s.flash w)
    (hFin : ∀ A w, A / 8 = s.blockAddress i / 8 → w < 256 →
        not16 (F (256 * A + w)) = logicalWord s A w)
    (hbits : ∀ t, t < 16 → (slotPresent nbp t = true ↔ slotPresent s.blockPresent t = true ∧
        ∀ A, A / 8 = s.blockAddress i / 8 → cachedSlot s A ≠ some t))
    (A w : Nat) (hw : w < 256) :
    logicalWord
      { s with mallocAreaY := M, lastFoundBlock := lf, flash := F, resets := R, log := L,
               blockPresent := nbp, shouldFlush := sf } A w = logicalWord s A w := by
  rw [logicalWord_eq]
  by_cases hA : A / 8 = s.blockAddress i / 8
  · have hn := cachedSlot_after_unit_none s hd i nbp hbits A hA
    have hcs : cachedSlot
        { s with mallocAreaY := M, lastFoundBlock := lf, flash := F, resets := R, log := L,
                 blockPresent := nbp, shouldFlush := sf } A = none := hn
    rw [hcs]
    dsimp only
    unfold flashWord
    rw [readWord_eq]
    exact hFin A w hA hw
  · have hn := cachedSlot_after_unit s i nbp hbits A hA
    have hcs : cachedSlot
        { s with mallocAreaY := M, lastFoundBlock := lf, flash := F, resets := R, log := L,
                 blockPresent := nbp, shouldFlush := sf } A = cachedSlot s A := hn
    rw [hcs, logicalWord_eq]
    cases hc : cachedSlot s A with
    | none =>
      dsimp only
      unfold flashWord
      rw [readWord_eq, readWord_eq]
      dsimp only
      rw [hFout _ (by omega)]
    | some t =>
      dsimp only
      have : t < 16 := cachedSlot_lt hc
      exact hM _ (by unfold WORKSPACE; omega)

theorem eq_zero_of_no_slot (bp : Nat) (h : bp < 65536)
    (h0 : ∀ t, t < 16 → slotPresent bp t = false) : bp = 0 := by
  apply Nat.eq_of_testBit_eq
  intro j
  rw [Nat.zero_testBit]
  by_cases hj : j < 16
  · rw [← slotPresent_eq_testBit _ _ hj]
    exact h0 j hj
  · exact Nat.testBit_lt_two_pow (Nat.lt_of_lt_of_le (by simpa using h)
      (Nat.pow_le_pow_right (by decide) (by omega : 16 ≤ j)))

/-! ## The slot loop of the flush: flag and presence bitmap -/

theorem cachedSlot_first (s : State) (i : Nat) (hi : i < 16)
    (hp : slotPresent s.blockPresent i = true)
    (hbelow : ∀ t, t < i → slotPresent s.blockPresent t = false) :
    cachedSlot s (s.blockAddress i) = some i := by
  unfold cachedSlot
  cases hc : findFrom s.blockPresent s.blockAddress (s.blockAddress i) CACHE_BLOCKS 0 with
  | none =>
    exact absurd ⟨hp, rfl⟩ (findFrom_none hc i (Nat.zero_le _) (by simpa [CACHE_BLOCKS] using hi))
  | some m =>
    obtain ⟨_, _, h3, _, h5⟩ := findFrom_some hc
    by_cases hmi : m = i
    · rw [hmi]
    · by_cases hlt : m < i
      · rw [hbelow m hlt] at h3
        exact absurd h3 (by simp)
      · exact absurd ⟨hp, rfl⟩ (h5 i (Nat.zero_le _) (by omega))

theorem FlushLoop_presence (k i : Nat) (s : State) (hwt : WellTyped s) (hik : i + k = 16)
    (hbelow : ∀ t, t < i → slotPresent s.blockPresent t = false) :
    FlushPresence s (FsMapSpiFlashFlushLoop k i s) := by
  induction k generalizing i s with
  | zero =>
    rw [FsMapSpiFlashFlushLoop]
    exact {
      flag := Or.inl rfl
      noReset := fun _ => rfl
      subset := fun t _ h => h
      empty := fun _ t ht => hbelow t (by omega)
      address := rfl
      slots := fun _ _ => rfl
      wellTyped := hwt
      resets := fun _ h => h
      calls := Nat.le_refl _
      abortCalls := fun h => by simp at h
      firstAbort := fun _ _ => rfl
      aborts := by simp }
  | succ k ih =>
    rw [FsMapSpiFlashFlushLoop_succ]
    by_cases hp : slotPresent s.blockPresent i = true
    · rw [if_pos hp]
      have hi : i < 16 := by omega
      obtain ⟨res, F, R, L, M, lf, nbp, he, hres, hM, hMlt, hFout, hFin, hbits, hnlt, hR, hno,
        hl, hpc, hrc⟩ := flushUnit_spec s i hwt hi
      rw [he]
      dsimp only
      rcases hres with h0 | h1
      · subst h0
        rw [if_pos (by decide)]
        have hwt3 : WellTyped
            { s with mallocAreaY := M, lastFoundBlock := lf, flash := F, resets := R, log := L,
                     blockPresent := nbp, shouldFlush := 0 } :=
          ⟨hnlt, hwt.2.1, hMlt⟩
        have hbelow3 : ∀ t, t < i + 1 → slotPresent nbp t = false := by
          intro t ht
          cases hpt : slotPresent nbp t with
          | false => rfl
          | true =>
            have hb := (hbits t (by omega)).1 hpt
            by_cases hti : t = i
            · subst hti
              exact absurd (cachedSlot_first s t hi hp hbelow) (hb.2 _ rfl)
            · rw [hbelow t (by omega)] at hb
              exact absurd hb.1 (by simp)
        have h3 := ih (i + 1)
          { s with mallocAreaY := M, lastFoundBlock := lf, flash := F, resets := R, log := L,
                   blockPresent := nbp, shouldFlush := 0 } hwt3 (by omega) hbelow3
        exact {
          flag := h3.flag
          noReset := fun h => h3.noReset (fun x hx => h x (hR x hx))
          subset := fun t ht h => ((hbits t ht).1 (h3.subset t ht h)).1
          empty := h3.empty
          address := h3.address
          slots := fun x hx => by rw [h3.slots x hx]; exact hM x hx
          wellTyped := h3.wellTyped
          resets := fun x hx => hR x (h3.resets x hx)
          calls := by have := h3.calls; dsimp only at this; omega
          abortCalls := fun h => by have := h3.calls; dsimp only at this; omega
          firstAbort := fun h hc => by
            have := h3.abortCalls h
            dsimp only at this
            omega
          aborts := by
            have := h3.aborts
            dsimp only at this
            rw [this, hrc]
            simp }
      · subst h1
        rw [if_neg (by decide)]
        exact {
          flag := Or.inr rfl
          noReset := fun h => absurd (hno h) (by decide)
          subset := fun t _ h => h
          empty := fun h => by simp at h
          address := rfl
          slots := hM
          wellTyped := ⟨hwt.1, hwt.2.1, hMlt⟩
          resets := hR
          calls := by dsimp only; omega
          abortCalls := fun _ => by dsimp only; omega
          firstAbort := fun _ _ => rfl
          aborts := by dsimp only; rw [hrc]; simp }
    · rw [if_neg hp]
      have hbelow2 : ∀ t, t < i + 1 → slotPresent s.blockPresent t = false := by
        intro t ht
        by_cases hti : t = i
        · subst hti; simpa using hp
        · exact hbelow t (by omega)
      exact ih (i + 1) s hwt (by omega) hbelow2

/-! ## The slot loop of the flush: logical content -/

theorem logicalWord_congr (s t : State) (h1 : t.blockPresent = s.blockPresent)
    (h2 : t.blockAddress = s.blockAddress) (h3 : t.mallocAreaY = s.mallocAreaY)
    (h4 : t.flash = s.flash) (A w : Nat) : logicalWord t A w = logicalWord s A w := by
  rw [logicalWord_eq, logicalWord_eq]
  unfold cachedSlot flashWord
  rw [h1, h2, h3, h4]

theorem FlushLoop_content (k i : Nat) (s : State) (hwt : WellTyped s)
    (hd : DistinctPresent s) (hik : i + k = 16) :
    FlushContent s (FsMapSpiFlashFlushLoop k i s) := by
  induction k generalizing i s with
  | zero =>
    rw [FsMapSpiFlashFlushLoop]
    exact {
      distinct := hd
      kept := fun _ A w _ => logicalWord_congr s { s with shouldFlush := 0 } rfl rfl rfl rfl A w
      interrupted := fun h => by simp at h
      keptAbort := fun h => by simp at h
      retained := fun h => by simp at h }
  | succ k ih =>
    rw [FsMapSpiFlashFlushLoop_succ]
    by_cases hp : slotPresent s.blockPresent i = true
    · rw [if_pos hp]
      have hi : i < 16 := by omega
      have hai : s.blockAddress i < 65536 := hwt.2.1 i (by simpa [CACHE_BLOCKS] using hi)
      obtain ⟨res, F, R, L, M, lf, nbp, he, hres, hM, hMlt, hFout, hFin, hbits, hnlt, hR, hno,
        hl, hpc, hrc⟩ := flushUnit_spec s i hwt hi
      rw [he]
      dsimp only
      rcases hres with h0 | h1
      · subst h0
        rw [if_pos (by decide)]
        have hwt3 : WellTyped
            { s with mallocAreaY := M, lastFoundBlock := lf, flash := F, resets := R, log := L,
                     blockPresent := nbp, shouldFlush := 0 } :=
          ⟨hnlt, hwt.2.1, hMlt⟩
        have hd3 : DistinctPresent
            { s with mallocAreaY := M, lastFoundBlock := lf, flash := F, resets := R, log := L,
                     blockPresent := nbp, shouldFlush := 0 } := by
          intro a b ha hb hpa hpb hab
          exact hd a b ha hb ((hbits a (by simpa [CACHE_BLOCKS] using ha)).1 hpa).1
            ((hbits b (by simpa [CACHE_BLOCKS] using hb)).1 hpb).1 hab
        have h3 := ih (i + 1)
          { s with mallocAreaY := M, lastFoundBlock := lf, flash := F, resets := R, log := L,
                   blockPresent := nbp, shouldFlush := 0 } hwt3 hd3 (by omega)
        have hL := logicalWord_after_unit s hd i F R L M lf nbp 0 hM hFout
          (hFin rfl) hbits
        -- the unit interrupted later is not the unit programmed here
        have hother : (FsMapSpiFlashFlushLoop k (i + 1)
            { s with mallocAreaY := M, lastFoundBlock := lf, flash := F, resets := R, log := L,
                     blockPresent := nbp, shouldFlush := 0 }).shouldFlush = 1 →
            ∀ A, A / 8 = s.blockAddress i / 8 →
            lastProgram (FsMapSpiFlashFlushLoop k (i + 1)
              { s with mallocAreaY := M, lastFoundBlock := lf, flash := F, resets := R, log := L,
                       blockPresent := nbp, shouldFlush := 0 }).log ≠ some (8 * (A / 8)) := by
          intro h A hA hlp
          obtain ⟨t, ht, hpt, _, hlt⟩ := h3.interrupted h
          dsimp only at hpt hlt
          have hne := present_after_unit_other s hd i nbp hbits t ht hpt
          have hat : s.blockAddress t < 65536 := hwt.2.1 t (by simpa [CACHE_BLOCKS] using ht)
          rw [hlt, and_fff8 _ hat] at hlp
          injection hlp with hlp
          omega
        exact {
          distinct := h3.distinct
          kept := fun h A w hw => by rw [h3.kept h A w hw]; exact hL A w hw
          interrupted := fun h => by
            obtain ⟨t, ht, hpt, hpr, hlt⟩ := h3.interrupted h
            exact ⟨t, ht, ((hbits t ht).1 hpt).1, hpr, hlt⟩
          keptAbort := fun h A w hw hA => by
            rw [← hL A w hw]
            apply h3.keptAbort h A w hw
            by_cases hAu : A / 8 = s.blockAddress i / 8
            · exact Or.inr (hother h A hAu)
            · rcases hA with hA | hA
              · left
                have : cachedSlot
                    { s with mallocAreaY := M, lastFoundBlock := lf, flash := F, resets := R,
                             log := L, blockPresent := nbp, shouldFlush := 0 } A =
                    cachedSlot s A := cachedSlot_after_unit s i nbp hbits A hAu
                rw [this]
                exact hA
              · exact Or.inr hA
          retained := fun h t ht hpt hlt => by
            apply h3.retained h t ht _ hlt
            rw [(hbits t ht)]
            refine ⟨hpt, fun A hA hc => ?_⟩
            have hat : s.blockAddress t < 65536 := hwt.2.1 t (by simpa [CACHE_BLOCKS] using ht)
            have h4 := (findFrom_some hc).2.2.2.1
            apply hother h A hA
            rw [hlt, and_fff8 _ hat, h4] }
      · subst h1
        rw [if_neg (by decide)]
        exact {
          distinct := hd
          kept := fun h => by simp at h
          interrupted := fun _ => ⟨i, hi, hp, hp, hl⟩
          keptAbort := fun _ A w hw hA => by
            rw [logicalWord_eq, logicalWord_eq]
            have hcs : cachedSlot
                { s with mallocAreaY := M, lastFoundBlock := lf, flash := F, resets := R,
                         log := L, shouldFlush := 1 } A = cachedSlot s A := rfl
            rw [hcs]
            cases hc : cachedSlot s A with
            | some t =>
              dsimp only
              have : t < 16 := cachedSlot_lt hc
              exact hM _ (by unfold WORKSPACE; omega)
            | none =>
              dsimp only
              rcases hA with hA | hA
              · exact absurd hc hA
              · dsimp only at hA
                rw [hl, and_fff8 _ hai] at hA
                have hne : A / 8 ≠ s.blockAddress i / 8 := by
                  intro h
                  apply hA
                  rw [h]
                unfold flashWord
                rw [readWord_eq, readWord_eq]
                dsimp only
                rw [hFout _ (by omega)]
          retained := fun _ t _ hpt _ => hpt }
    · rw [if_neg hp]
      exact ih (i + 1) s hwt hd (by omega)

/-! ## `FsMapSpiFlashFlush` -/

theorem FsMapSpiFlashFlush_presence (s : State) (hwt : WellTyped s) (hflag : s.shouldFlush ≤ 1) :
    FlushPresence s (FsMapSpiFlashFlush s) := by
  unfold FsMapSpiFlashFlush
  rw [if_neg (by omega)]
  have h := FlushLoop_presence CACHE_BLOCKS 0 { s with shouldFlush := 2 } hwt rfl
    (fun t ht => by omega)
  exact {
    flag := h.flag
    noReset := h.noReset
    subset := h.subset
    empty := h.empty
    address := h.address
    slots := h.slots
    wellTyped := h.wellTyped
    resets := h.resets
    calls := h.calls
    abortCalls := h.abortCalls
    firstAbort := h.firstAbort
    aborts := h.aborts }

theorem FsMapSpiFlashFlush_content (s : State) (hwt : WellTyped s) (hd : DistinctPresent s)
    (hflag : s.shouldFlush ≤ 1) : FlushContent s (FsMapSpiFlashFlush s) := by
  unfold FsMapSpiFlashFlush
  rw [if_neg (by omega)]
  have h := FlushLoop_content CACHE_BLOCKS 0 { s with shouldFlush := 2 } hwt hd rfl
  exact {
    distinct := h.distinct
    kept := fun h0 A w hw => by
      rw [h.kept h0 A w hw]
      exact logicalWord_congr s { s with shouldFlush := 2 } rfl rfl rfl rfl A w
    interrupted := h.interrupted
    keptAbort := fun h1 A w hw hA => by
      rw [h.keptAbort h1 A w hw hA]
      exact logicalWord_congr s { s with shouldFlush := 2 } rfl rfl rfl rfl A w
    retained := h.retained }

theorem FlushPresence.flag_of_no_abort {s r : State} (h : FlushPresence s r)
    (hok : resetCount r.log = resetCount s.log) : r.shouldFlush = 0 := by
  rcases h.flag with h0 | h1
  · exact h0
  · have := h.aborts
    rw [if_pos h1] at this
    omega

theorem FlushPresence.flag_of_abort {s r : State} (h : FlushPresence s r)
    (hab : resetCount r.log = resetCount s.log + 1) : r.shouldFlush = 1 := by
  rcases h.flag with h0 | h1
  · have := h.aborts
    rw [h0] at this
    simp at this
    omega
  · exact h1

theorem EeReadBlock_apply (s : State) (blockn : Nat) (data : Nat → Nat) (dptr x : Nat) :
    EeReadBlock s blockn data dptr x =
      if dptr ≤ x ∧ x < dptr + 256 then flashWord s blockn (x - dptr) else data x := by
  unfold EeReadBlock
  rw [storeWords_apply]
  rfl

theorem FindCachedBlock_snd (s : State) (b : Nat) :
    ∃ lf : Int, (FindCachedBlock s b).2 = { s with lastFoundBlock := lf } := by
  rw [FindCachedBlock_cachedSlot]
  cases cachedSlot s b with
  | none => exact ⟨-1, rfl⟩
  | some t => exact ⟨(t : Int), rfl⟩

theorem readSector_apply (s : State) (fb : Nat) (data : Nat → Nat) (off x : Nat) :
    (match (FindCachedBlock s fb).1 with
      | some source => memcpy data off (FindCachedBlock s fb).2.mallocAreaY source 256
      | none => EeReadBlock (FindCachedBlock s fb).2 fb data off) x =
      if off ≤ x ∧ x < off + 256 then logicalWord s fb (x - off) else data x := by
  rw [logicalWord_eq, FindCachedBlock_cachedSlot]
  cases hc : cachedSlot s fb with
  | none =>
    dsimp only
    rw [EeReadBlock_apply]
    rfl
  | some t =>
    dsimp only
    rw [memcpy_apply]

theorem FsMapSpiFlashReadLoop_spec (k fb bl off : Nat) (s : State) (data : Nat → Nat)
    (hfb : fb + k ≤ 65536) (hbl : bl < 65536) :
    ∃ lf : Int,
      (FsMapSpiFlashReadLoop k fb bl off s data).2.1 = { s with lastFoundBlock := lf } ∧
      (FsMapSpiFlashReadLoop k fb bl off s data).1 = (bl + k) % 65536 ∧
      ∀ x, (FsMapSpiFlashReadLoop k fb bl off s data).2.2 x =
        if off ≤ x ∧ x < off + 256 * k then
          logicalWord s (fb + (x - off) / 256) ((x - off) % 256)
        else data x := by
  induction k generalizing fb bl off s data with
  | zero =>
    refine ⟨s.lastFoundBlock, rfl, ?_, ?_⟩
    · rw [FsMapSpiFlashReadLoop]
      exact (Nat.mod_eq_of_lt hbl).symm
    · intro x
      rw [FsMapSpiFlashReadLoop, if_neg (by omega)]
  | succ k ih =>
    rw [FsMapSpiFlashReadLoop]
    have e1 : fb % 65536 = fb := Nat.mod_eq_of_lt (by omega)
    have e2 : (fb + 1) % 4294967296 = fb + 1 := Nat.mod_eq_of_lt (by omega)
    rw [e1, e2]
    obtain ⟨lf0, hf⟩ := FindCachedBlock_snd s fb
    have hsec := readSector_apply s fb data off
    generalize (match (FindCachedBlock s fb).1 with
      | some source => memcpy data off (FindCachedBlock s fb).2.mallocAreaY source 256
      | none => EeReadBlock (FindCachedBlock s fb).2 fb data off) = data1 at hsec ⊢
    rw [hf]
    obtain ⟨lf, h1, h2, h3⟩ := ih (fb + 1) ((bl + 1) % 65536) (off + 256)
      { s with lastFoundBlock := lf0 } data1 (by omega) (Nat.mod_lt _ (by decide))
    refine ⟨lf, ?_, ?_, ?_⟩
    · rw [h1]
    · rw [h2]
      omega
    · intro x
      rw [h3 x]
      by_cases hx1 : off + 256 ≤ x ∧ x < off + 256 + 256 * k
      · rw [if_pos hx1, if_pos (by omega)]
        rw [logicalWord_congr s { s with lastFoundBlock := lf0 } rfl rfl rfl rfl]
        have ea : fb + 1 + (x - (off + 256)) / 256 = fb + (x - off) / 256 := by omega
        have eb : (x - (off + 256)) % 256 = (x - off) % 256 := by omega
        rw [ea, eb]
      · rw [if_neg hx1, hsec x]
        by_cases hx0 : off ≤ x ∧ x < off + 256
        · rw [if_pos hx0, if_pos (by omega)]
          have ea : fb + (x - off) / 256 = fb := by omega
          have eb : (x - off) % 256 = x - off := by omega
          rw [ea, eb]
        · rw [if_neg hx0, if_neg (by omega)]

theorem toS16_small (n : Nat) (h : n < 32768) : toS16 n = (n : Int) := by
  unfold toS16
  have e : n % 65536 = n := Nat.mod_eq_of_lt (by omega)
  rw [e, if_pos h]

theorem FsMapSpiFlashRead_idle (s : State) (fb n : Nat) (data : Nat → Nat)
    (hidle : s.shouldFlush = 0) (hin : fb + n ≤ LOGICAL_DISK_BLOCKS) :
    ∃ lf : Int,
      (FsMapSpiFlashRead s fb n data).2.1 = { s with lastFoundBlock := lf } ∧
      (FsMapSpiFlashRead s fb n data).1 = (n : Int) ∧
      ∀ x, (FsMapSpiFlashRead s fb n data).2.2 x =
        if x < 256 * n then
          logicalWord s (fb + RESERVED_BLOCKS + x / 256) (x % 256)
        else data x := by
  have hin2 : fb + n ≤ 4064 := hin
  unfold FsMapSpiFlashRead
  rw [if_neg (by rw [hidle]; simp)]
  dsimp only
  have e1 : n % 65536 = n := Nat.mod_eq_of_lt (by omega)
  have e2 : (fb + RESERVED_BLOCKS) % 4294967296 = fb + RESERVED_BLOCKS :=
    Nat.mod_eq_of_lt (by unfold RESERVED_BLOCKS; omega)
  rw [e1, e2]
  obtain ⟨lf, h1, h2, h3⟩ := FsMapSpiFlashReadLoop_spec n (fb + RESERVED_BLOCKS) 0 0 s data
    (by unfold RESERVED_BLOCKS; omega) (by decide)
  refine ⟨lf, h1, ?_, ?_⟩
  · rw [h2, Nat.zero_add, e1]
    exact toS16_small n (by omega)
  · intro x
    rw [h3 x]
    simp only [Nat.zero_le, true_and, Nat.zero_add, Nat.sub_zero]

/-! ## The claims -/

theorem sampleState_wellTyped : WellTyped sampleState :=
  ⟨by decide, fun i hi => by
    have : i < 16 := hi
    show 32 + i < 65536
    omega, fun _ => by
    show 5 < 65536
    decide⟩

/-- C10: while the flush flag is `flushing` (`shouldFlush = 2`) every call of
`FsMapSpiFlashWrite`, for any address, count and data, returns 0 and leaves the
whole state (presence bitmap, slot addresses, slot data, flush flag, flash)
unchanged. -/
theorem write_rejected_while_flushing (s : State) (h : s.shouldFlush = 2)
    (firstBlock blocks : Nat) (data : Nat → Nat) :
    FsMapSpiFlashWrite s firstBlock blocks data = some (0, s) := by
  unfold FsMapSpiFlashWrite
  rw [if_pos (by rw [h]; decide)]

theorem write_rejected_while_flushing_witness :
    ({ sampleState with shouldFlush := 2 } : State).shouldFlush = 2 ∧
      FsMapSpiFlashWrite { sampleState with shouldFlush := 2 } 7 3 (fun _ => 9) =
        some (0, { sampleState with shouldFlush := 2 }) :=
  ⟨rfl, write_rejected_while_flushing _ rfl 7 3 (fun _ => 9)⟩

/-- C9, as the claim states it, fails: with the flag at `flushing` a read of one
sector returns 0, not 1. -/
theorem read_while_flushing_returns_zero :
    ({ sampleState with shouldFlush := 2 } : State).shouldFlush = 2 ∧
      (FsMapSpiFlashRead { sampleState with shouldFlush := 2 } 0 1 (fun _ => 0)).1 = 0 ∧
      (FsMapSpiFlashRead { sampleState with shouldFlush := 2 } 0 1 (fun _ => 0)).1 ≠ 1 := by
  decide

/-- C9, amended: `FsMapSpiFlashRead` serves no sector while the flush flag is
not idle (flushing or flush failed): it returns 0 and leaves the state and the
output buffer as they were. In the idle state an in-range request of `n`
sectors returns `n` and fills the output with, for each sector, the cached
words when a present slot holds its address and the flash words otherwise. -/
theorem read_served_only_when_idle (s : State) (firstBlock n : Nat) (data : Nat → Nat)
    (hin : firstBlock + n ≤ LOGICAL_DISK_BLOCKS) :
    (s.shouldFlush ≠ 0 → FsMapSpiFlashRead s firstBlock n data = (0, s, data)) ∧
    (s.shouldFlush = 0 →
      (FsMapSpiFlashRead s firstBlock n data).1 = (n : Int) ∧
      (∀ j w, j < n → w < 256 →
        (FsMapSpiFlashRead s firstBlock n data).2.2 (256 * j + w) =
          logicalWord s (firstBlock + RESERVED_BLOCKS + j) w) ∧
      ∀ x, 256 * n ≤ x → (FsMapSpiFlashRead s firstBlock n data).2.2 x = data x) := by
  constructor
  · intro h
    unfold FsMapSpiFlashRead
    rw [if_pos h]
  · intro h
    obtain ⟨lf, _, h2, h3⟩ := FsMapSpiFlashRead_idle s firstBlock n data h hin
    refine ⟨h2, ?_, ?_⟩
    · intro j w hj hw
      rw [h3, if_pos (by omega)]
      have e1 : (256 * j + w) / 256 = j := by omega
      have e2 : (256 * j + w) % 256 = w := by omega
      rw [e1, e2]
    · intro x hx
      rw [h3, if_neg (by omega)]

theorem read_served_only_when_idle_witness :
    0 + 2 ≤ LOGICAL_DISK_BLOCKS ∧
      FsMapSpiFlashRead { sampleState with shouldFlush := 2 } 0 2 (fun _ => 0) =
        (0, { sampleState with shouldFlush := 2 }, fun _ => 0) ∧
      (FsMapSpiFlashRead sampleState 0 2 (fun _ => 0)).1 = 2 :=
  ⟨by decide,
    (read_served_only_when_idle { sampleState with shouldFlush := 2 } 0 2 (fun _ => 0)
      (by decide)).1 (by decide),
    ((read_served_only_when_idle sampleState 0 2 (fun _ => 0) (by decide)).2 rfl).1⟩

/-- C8: in the idle state a one-sector `FsMapSpiFlashWrite` to an in-range
address whose payload equals the flash content of the sector (`EeCompareBlock`
returns 0) returns 1 and leaves the state unchanged, so the presence bitmap,
the slot addresses and the flash are as before; any number `N` of such writes
leaves the state unchanged, and from an empty cache the number of present slots
stays 0. -/
theorem redundant_write_is_noop (s : State) (hidle : s.shouldFlush = 0) (A : Nat)
    (hA : A < LOGICAL_DISK_BLOCKS) (data : Nat → Nat)
    (hsame : EeCompareBlock s (A + RESERVED_BLOCKS) data 0 = 0) :
    FsMapSpiFlashWrite s A 1 data = some (1, s) ∧
    (∀ N, writeTimes N s A data = some s) ∧
    (s.blockPresent = 0 →
      ∀ N, (writeTimes N s A data).map (fun r => presentCount r.blockPresent) = some 0) := by
  have hA2 : A < 4064 := hA
  have hw : FsMapSpiFlashWrite s A 1 data = some (1, s) := by
    unfold FsMapSpiFlashWrite
    rw [if_neg (by rw [hidle]; simp)]
    have e1 : (A + RESERVED_BLOCKS) % 4294967296 = A + RESERVED_BLOCKS :=
      Nat.mod_eq_of_lt (by unfold RESERVED_BLOCKS; omega)
    have e2 : (A + RESERVED_BLOCKS) % 65536 = A + RESERVED_BLOCKS :=
      Nat.mod_eq_of_lt (by unfold RESERVED_BLOCKS; omega)
    have e3 : (1 : Nat) % 65536 = 1 := by decide
    rw [e1, e3, FsMapSpiFlashWriteLoop, e2, if_neg (by rw [hsame]; simp), FsMapSpiFlashWriteLoop]
    rfl
  have hN : ∀ N, writeTimes N s A data = some s := by
    intro N
    induction N with
    | zero => rfl
    | succ N ih =>
      rw [writeTimes, hw]
      exact ih
  refine ⟨hw, hN, fun h0 N => ?_⟩
  rw [hN N, Option.map_some', h0]
  rfl

set_option maxRecDepth 100000 in
theorem redundant_write_is_noop_witness :
    (powerUp (fun _ => 0) []).shouldFlush = 0 ∧ 3 < LOGICAL_DISK_BLOCKS ∧
      EeCompareBlock (powerUp (fun _ => 0) []) (3 + RESERVED_BLOCKS) (fun _ => 65535) 0 = 0 ∧
      FsMapSpiFlashWrite (powerUp (fun _ => 0) []) 3 1 (fun _ => 65535) =
        some (1, powerUp (fun _ => 0) []) :=
  ⟨rfl, by decide, by decide,
    (redundant_write_is_noop (powerUp (fun _ => 0) []) rfl 3 (by decide) (fun _ => 65535)
      (by decide)).1⟩

/-- C5: from a state whose flush flag is not `flushing` (`shouldFlush ≤ 1`), a
`FsMapSpiFlashFlush` in which no `EeProgram4K` call returns `-1` (the log gains
no `reset` entry) returns with `blockPresent = 0`. -/
theorem flush_success_empties_cache (s : State) (hwt : WellTyped s)
    (hflag : s.shouldFlush ≤ 1)
    (hok : resetCount (FsMapSpiFlashFlush s).log = resetCount s.log) :
    (FsMapSpiFlashFlush s).blockPresent = 0 := by
  have hp := FsMapSpiFlashFlush_presence s hwt hflag
  exact eq_zero_of_no_slot _ hp.wellTyped.1 (hp.empty (hp.flag_of_no_abort hok))

set_option maxRecDepth 100000 in
theorem flush_success_empties_cache_witness :
    sampleState.shouldFlush ≤ 1 ∧
      resetCount (FsMapSpiFlashFlush sampleState).log = resetCount sampleState.log ∧
      sampleState.blockPresent = 3 ∧ (FsMapSpiFlashFlush sampleState).blockPresent = 0 :=
  ⟨by decide, by decide, rfl,
    flush_success_empties_cache sampleState sampleState_wellTyped (by decide) (by decide)⟩

theorem FsMapSpiFlashWriteLoop_succ (k fb bl off : Nat) (data : Nat → Nat) (s : State) :
    FsMapSpiFlashWriteLoop (k + 1) fb bl off data s =
      if EeCompareBlock s (fb % 65536) data off ≠ 0 then
        (cacheSector s (fb % 65536) data off).bind (fun s4 =>
          FsMapSpiFlashWriteLoop k ((fb + 1) % 4294967296) ((bl + 1) % 65536) (off + 256) data
            (WriteContinuous4K s4).2)
      else
        FsMapSpiFlashWriteLoop k ((fb + 1) % 4294967296) ((bl + 1) % 65536) (off + 256) data
          s := by
  rw [FsMapSpiFlashWriteLoop]
  unfold cacheSector
  dsimp only
  split
  · split <;> rename_i h <;> simp only [h, Option.bind_some, Option.bind_none, Option.bind]
  · rfl

theorem FsMapSpiFlashWrite_one (s : State) (A : Nat) (data : Nat → Nat)
    (hidle : s.shouldFlush = 0) (hA : A < LOGICAL_DISK_BLOCKS) :
    FsMapSpiFlashWrite s A 1 data =
      if EeCompareBlock s (A + RESERVED_BLOCKS) data 0 ≠ 0 then
        (cacheSector s (A + RESERVED_BLOCKS) data 0).map
          (fun s4 => (1, (WriteContinuous4K s4).2))
      else some (1, s) := by
  have hA2 : A < 4064 := hA
  unfold FsMapSpiFlashWrite
  rw [if_neg (by rw [hidle]; simp)]
  have e1 : (A + RESERVED_BLOCKS) % 4294967296 = A + RESERVED_BLOCKS :=
    Nat.mod_eq_of_lt (by unfold RESERVED_BLOCKS; omega)
  have e2 : (A + RESERVED_BLOCKS) % 65536 = A + RESERVED_BLOCKS :=
    Nat.mod_eq_of_lt (by unfold RESERVED_BLOCKS; omega)
  have e3 : (1 : Nat) % 65536 = 1 := by decide
  rw [e1, e3, FsMapSpiFlashWriteLoop_succ, e2]
  split
  · cases cacheSector s (A + RESERVED_BLOCKS) data 0 with
    | none => rfl
    | some s4 =>
      simp only [Option.bind_some, Option.map_some', FsMapSpiFlashWriteLoop]
      rfl
  · rw [FsMapSpiFlashWriteLoop]
    rfl

/-- C1 fails on the code: on a chip whose sectors read as zeros, logical sector
0 is written with words 5 (cached, the read returns them); a second write of
the same sector with zeros, which equal its flash content (`EeCompareBlock`
returns 0), returns 1 but is skipped, and the read that follows returns the
stale word 5 instead of the 0 just written. -/
theorem write_equal_to_flash_is_not_read_back :
    readBack (thenWrite (some (FsMapSpiFlashCreate (powerUp (fun _ => 0xffff) [])))
      0 (fun _ => 5)) 0 0 = some (1, 5) ∧
    (thenWrite (some (FsMapSpiFlashCreate (powerUp (fun _ => 0xffff) []))) 0 (fun _ => 5)).bind
      (fun s => (FsMapSpiFlashWrite s 0 1 (fun _ => 0)).map
        (fun r => (s.shouldFlush, EeCompareBlock s (0 + RESERVED_BLOCKS) (fun _ => 0) 0, r.1))) =
      some (0, 0, 1) ∧
    readBack (thenWrite (thenWrite (some (FsMapSpiFlashCreate (powerUp (fun _ => 0xffff) [])))
      0 (fun _ => 5)) 0 (fun _ => 0)) 0 0 = some (1, 5) := by
  decide!

/-- C3 fails on the code: in the state `staleSlotsState`, reached by writes and
a flush, no slot is present and slots 1..7 still hold the addresses 41..47 of
sectors flushed earlier. Writing logical sector 8 caches one sector in slot 0;
`WriteContinuous4K` is then entered with only slot 0 present (bitmap 1) and
calls `EeProgram4K(40, slot 0)`: it returns 1 and the log gains one program
call for block 40. -/
theorem write_combiner_programs_absent_slots :
    staleSlotsState.map (fun s => (s.blockPresent, s.shouldFlush,
      (List.range 8).map s.blockAddress)) = some (0, 0, [41, 41, 42, 43, 44, 45, 46, 47]) ∧
    staleSlotsState.bind (fun s => (cacheSector s (8 + RESERVED_BLOCKS) (fun _ => 888) 0).map
      (fun t => (t.blockPresent, (List.range 8).map (fun k => slotPresent t.blockPresent k),
        (List.range 8).map t.blockAddress))) =
      some (1, [true, false, false, false, false, false, false, false],
        [40, 41, 42, 43, 44, 45, 46, 47]) ∧
    staleSlotsState.bind (fun s => (cacheSector s (8 + RESERVED_BLOCKS) (fun _ => 888) 0).map
      (fun t => ((WriteContinuous4K t).1, lastProgram (WriteContinuous4K t).2.log,
        programCalls (WriteContinuous4K t).2.log - programCalls t.log,
        resetCount (WriteContinuous4K t).2.log))) = some (1, some 40, 1, 0) := by
  decide!

/-- C4 fails on the code: in the state `staleSlotsState` (idle, reached with no
abort) logical sector 9 reads 777, the words last written to it. After
`FsMapSpiFlashWrite(8, 1, ...)`, with no abort, logical sector 9 reads 101: the
write combiner programmed the unit from slot 0 and the released slots 1..7,
whose stale data overwrote sector 9 on flash. -/
theorem write_disturbs_other_sector :
    staleSlotsState.map (fun s => (s.shouldFlush, s.resets, resetCount s.log)) =
      some (0, [], 0) ∧
    readBack staleSlotsState 9 0 = some (1, 777) ∧
    (thenWrite staleSlotsState 8 (fun _ => 888)).map (fun s => (s.shouldFlush,
      resetCount s.log)) = some (0, 0) ∧
    readBack (thenWrite staleSlotsState 8 (fun _ => 888)) 8 0 = some (1, 888) ∧
    readBack (thenWrite staleSlotsState 8 (fun _ => 888)) 9 0 = some (1, 101) := by
  decide!

/-! ## Erase, page and read counts of `EeProgram4K` -/

theorem EeIsBlockErasedLoop_cases (flash : Nat → Nat) (blockn k n : Nat) :
    EeIsBlockErasedLoop flash blockn k n = 0 ∨ EeIsBlockErasedLoop flash blockn k n = 1 := by
  induction k generalizing n with
  | zero => right; rfl
  | succ k ih =>
    rw [EeIsBlockErasedLoop]
    split
    · left; rfl
    · exact ih (n + 1)

theorem EeIsBlockErasedLoop_of_blank (flash : Nat → Nat) (blockn k n : Nat)
    (h : ∀ t, n ≤ t → t < n + k → readWord flash blockn t = 0xffff) :
    EeIsBlockErasedLoop flash blockn k n = 1 := by
  induction k generalizing n with
  | zero => rfl
  | succ k ih =>
    rw [EeIsBlockErasedLoop, if_neg (by rw [h n (Nat.le_refl _) (by omega)]; simp)]
    exact ih (n + 1) (fun t h1 h2 => h t (by omega) (by omega))

theorem EeIsBlockErased_iff (s : State) (blockn : Nat) :
    EeIsBlockErased s blockn = 1 ↔ ∀ n, n < 2048 → readWord s.flash blockn n = 0xffff := by
  unfold EeIsBlockErased
  constructor
  · intro h n hn
    have := @EeIsBlockErasedLoop_one s.flash blockn 2048 0 (by rw [h]; decide) n
      (Nat.zero_le _) (by omega)
    rw [readWord_eq]
    exact this
  · intro h
    exact EeIsBlockErasedLoop_of_blank _ _ _ _ (fun t _ h2 => h t (by omega))

theorem EeProgram4KLoop_log (k blockn dptr : Nat) (s : State) :
    eraseCount (EeProgram4KLoop k blockn dptr s).2.log = eraseCount s.log ∧
    readCalls (EeProgram4KLoop k blockn dptr s).2.log = readCalls s.log ∧
    ((∀ r ∈ s.resets, r = false) →
      pageCount (EeProgram4KLoop k blockn dptr s).2.log = pageCount s.log + 2 * k) := by
  induction k generalizing blockn dptr s with
  | zero =>
    rw [EeProgram4KLoop]
    exact ⟨rfl, rfl, fun _ => rfl⟩
  | succ k ih =>
    rw [EeProgram4KLoop]
    simp only [SpiWaitStatus_fst, SpiWaitStatus_snd]
    by_cases h1 : s.resets.headD false = true
    · rw [if_pos h1]
      exact ⟨rfl, rfl, fun h => absurd (h true (headD_true_mem h1)) (by simp)⟩
    · rw [if_neg h1]
      by_cases h2 : s.resets.tail.headD false = true
      · rw [if_pos h2]
        exact ⟨rfl, rfl, fun h =>
          absurd (h true (List.mem_of_mem_tail (headD_true_mem h2))) (by simp)⟩
      · rw [if_neg h2]
        obtain ⟨e1, e2, e3⟩ := ih ((blockn + 1) % 65536) (dptr + 256)
          { s with
            flash := chipProgram
              (chipProgram s.flash (EePutReadBlockAddress blockn).1
                (EePutReadBlockAddress blockn).2.1 (EePutReadBlockAddress blockn).2.2
                fun n => not16 (s.mallocAreaY (dptr + n)))
              (secondPageAddress blockn).1 (secondPageAddress blockn).2.1
              (secondPageAddress blockn).2.2 fun n => not16 (s.mallocAreaY (dptr + 128 + n))
            resets := s.resets.tail.tail
            log := FlashOp.page (secondPageAddress blockn).1 (secondPageAddress blockn).2.1
                (secondPageAddress blockn).2.2 ::
              FlashOp.page (EePutReadBlockAddress blockn).1
                (EePutReadBlockAddress blockn).2.1 (EePutReadBlockAddress blockn).2.2 ::
              s.log }
        refine ⟨e1, e2, fun h => ?_⟩
        rw [e3 (fun r hr => h r (List.mem_of_mem_tail (List.mem_of_mem_tail hr)))]
        simp only [pageCount]
        omega

theorem EeProgram4K_log (s : State) (blockn dptr : Nat) :
    eraseCount (EeProgram4K s blockn dptr).2.log =
      eraseCount s.log + (if EeIsBlockErased s blockn = 0 then 1 else 0) ∧
    readCalls (EeProgram4K s blockn dptr).2.log = readCalls s.log ∧
    ((∀ r ∈ s.resets, r = false) →
      pageCount (EeProgram4K s blockn dptr).2.log = pageCount s.log + 16) := by
  unfold EeProgram4K
  dsimp only
  have hE : EeIsBlockErased { s with log := FlashOp.program4K blockn dptr :: s.log } blockn =
      EeIsBlockErased s blockn := rfl
  rw [hE]
  by_cases he : EeIsBlockErased s blockn = 0
  · simp only [he, if_true]
    simp only [SpiWaitStatus_fst, SpiWaitStatus_snd]
    by_cases h1 : s.resets.headD false = true
    · rw [if_pos h1]
      exact ⟨rfl, rfl, fun h => absurd (h true (headD_true_mem h1)) (by simp)⟩
    · rw [if_neg h1]
      obtain ⟨e1, e2, e3⟩ := EeProgram4KLoop_log 8 blockn dptr
        { s with
          flash := chipErase s.flash (EePutReadBlockAddress blockn).1
            (EePutReadBlockAddress blockn).2.1 (EePutReadBlockAddress blockn).2.2
          resets := s.resets.tail
          log := FlashOp.erase (EePutReadBlockAddress blockn).1
              (EePutReadBlockAddress blockn).2.1 (EePutReadBlockAddress blockn).2.2 ::
            FlashOp.program4K blockn dptr :: s.log }
      refine ⟨by rw [e1]; rfl, by rw [e2]; rfl, fun h => ?_⟩
      rw [e3 (fun r hr => h r (List.mem_of_mem_tail hr))]
      rfl
  · simp only [he, if_false]
    simp only [SpiWaitStatus_fst, SpiWaitStatus_snd]
    by_cases h1 : s.resets.headD false = true
    · rw [if_pos h1]
      exact ⟨rfl, rfl, fun h => absurd (h true (headD_true_mem h1)) (by simp)⟩
    · rw [if_neg h1]
      obtain ⟨e1, e2, e3⟩ := EeProgram4KLoop_log 8 blockn dptr
        { s with resets := s.resets.tail, log := FlashOp.program4K blockn dptr :: s.log }
      refine ⟨by rw [e1]; rfl, by rw [e2]; rfl, fun h => ?_⟩
      rw [e3 (fun r hr => h r (List.mem_of_mem_tail hr))]
      rfl

/-- C17: `EeIsBlockErased(blockn)` returns 1 exactly when the 2048 words read
from `blockn` all equal `0xffff`, and 0 otherwise; `EeProgram4K(blockn, d)`
sends one erase command when `EeIsBlockErased(blockn)` returns 0 and none when
it returns 1; for a blank unit, with no bus reset, it returns 0 after sending
the 16 page program commands and no erase command. -/
theorem program_erases_only_when_not_blank (s : State) (blockn dptr : Nat) :
    (EeIsBlockErased s blockn = 1 ↔ ∀ n, n < 2048 → readWord s.flash blockn n = 0xffff) ∧
    (EeIsBlockErased s blockn = 0 ∨ EeIsBlockErased s blockn = 1) ∧
    (EeIsBlockErased s blockn = 0 →
      eraseCount (EeProgram4K s blockn dptr).2.log = eraseCount s.log + 1) ∧
    (EeIsBlockErased s blockn = 1 →
      eraseCount (EeProgram4K s blockn dptr).2.log = eraseCount s.log) ∧
    (EeIsBlockErased s blockn = 1 → NoReset s → blockn % 8 = 0 → blockn < 65536 →
      (EeProgram4K s blockn dptr).1 = 0 ∧
      pageCount (EeProgram4K s blockn dptr).2.log = pageCount s.log + 16) := by
  obtain ⟨e1, _, e3⟩ := EeProgram4K_log s blockn dptr
  refine ⟨EeIsBlockErased_iff s blockn, EeIsBlockErasedLoop_cases _ _ _ _, ?_, ?_, ?_⟩
  · intro h
    rw [e1, if_pos h]
  · intro h
    rw [e1, if_neg (by rw [h]; decide), Nat.add_zero]
  · intro _ hno ha hb
    obtain ⟨res, F, R, L, hp, _, _, _, _, hres, _⟩ := EeProgram4K_spec s blockn dptr ha hb
    refine ⟨?_, e3 hno⟩
    rw [hp]
    exact hres hno

set_option maxRecDepth 100000 in
theorem program_erases_only_when_not_blank_witness :
    EeIsBlockErased blankState 32 = 1 ∧
      eraseCount (EeProgram4K blankState 32 0).2.log = eraseCount blankState.log ∧
      (EeProgram4K blankState 32 0).1 = 0 ∧
      pageCount (EeProgram4K blankState 32 0).2.log = pageCount blankState.log + 16 ∧
      EeIsBlockErased sampleState 32 = 0 ∧
      eraseCount (EeProgram4K sampleState 32 0).2.log = eraseCount sampleState.log + 1 :=
  ⟨by decide,
    (program_erases_only_when_not_blank blankState 32 0).2.2.2.1 (by decide),
    ((program_erases_only_when_not_blank blankState 32 0).2.2.2.2 (by decide)
      (fun r hr => by simp [blankState, powerUp] at hr) (by decide) (by decide)).1,
    ((program_erases_only_when_not_blank blankState 32 0).2.2.2.2 (by decide)
      (fun r hr => by simp [blankState, powerUp] at hr) (by decide) (by decide)).2,
    by decide,
    (program_erases_only_when_not_blank sampleState 32 0).2.2.1 (by decide)⟩

/-- C19: for a unit-aligned sector number `b < 32768` and a buffer of 2048
16-bit words at `dptr`, after `EeProgram4K(b, dptr)` returned 0,
`EeReadBlock(b + j)` delivers exactly the words `256*j .. 256*j + 255` of the
buffer, for each `j` in `0..7`, and leaves the rest of the destination as it
was. -/
theorem program_read_round_trip (s : State) (b dptr : Nat) (ha : b % 8 = 0) (hb : b < 32768)
    (hd : ∀ n, n < 2048 → s.mallocAreaY (dptr + n) < 65536)
    (hok : (EeProgram4K s b dptr).1 = 0)
    (j : Nat) (hj : j < 8) (data : Nat → Nat) (off x : Nat) :
    EeReadBlock (EeProgram4K s b dptr).2 (b + j) data off x =
      if off ≤ x ∧ x < off + 256 then s.mallocAreaY (dptr + 256 * j + (x - off))
      else data x := by
  obtain ⟨res, F, R, L, hp, _, _, hin, _⟩ := EeProgram4K_spec s b dptr ha (by omega)
  rw [hp] at hok ⊢
  rw [EeReadBlock_apply]
  by_cases hx : off ≤ x ∧ x < off + 256
  · rw [if_pos hx, if_pos hx]
    unfold flashWord
    rw [readWord_eq]
    dsimp only at hok ⊢
    rw [hin hok _ (by omega)]
    have e : dptr + (256 * (b + j) + (x - off) - 256 * b) = dptr + 256 * j + (x - off) := by
      omega
    rw [e, not16_not16 _ (by
      have := hd (256 * j + (x - off)) (by omega)
      rw [← Nat.add_assoc] at this
      exact this)]
  · rw [if_neg hx, if_neg hx]

set_option maxRecDepth 100000 in
theorem program_read_round_trip_witness :
    (EeProgram4K sampleState 32 256).1 = 0 ∧
      EeReadBlock (EeProgram4K sampleState 32 256).2 (32 + 3) (fun _ => 0) 0 9 =
        (if 0 ≤ 9 ∧ 9 < 0 + 256 then sampleState.mallocAreaY (256 + 256 * 3 + (9 - 0))
          else (fun _ => 0) 9) :=
  ⟨by decide,
    program_read_round_trip sampleState 32 256 (by decide) (by decide)
      (fun _ _ => by show 5 < 65536; decide) (by decide) 3 (by decide) (fun _ => 0) 0 9⟩

/-! ## Slot allocation -/

theorem GetEmptyBlockLoop_eq (b : Nat) (k i : Nat) (s : State) :
    GetEmptyBlockLoop b k i s =
      match findFree s.blockPresent k i with
      | some m =>
        (some (256 * m),
          { s with
            blockPresent := s.blockPresent ||| ((1 <<< m) % 65536)
            blockAddress := setWord s.blockAddress m b })
      | none => (none, s) := by
  induction k generalizing i with
  | zero => simp [GetEmptyBlockLoop, findFree]
  | succ k ih =>
    rw [GetEmptyBlockLoop, findFree]
    split
    · rfl
    · exact ih (i + 1)

theorem GetEmptyBlock_eq (s : State) (b : Nat) :
    GetEmptyBlock s b =
      match findFree s.blockPresent CACHE_BLOCKS 0 with
      | some m =>
        (some (256 * m),
          { s with
            blockPresent := s.blockPresent ||| ((1 <<< m) % 65536)
            blockAddress := setWord s.blockAddress m b })
      | none => (none, s) :=
  GetEmptyBlockLoop_eq b CACHE_BLOCKS 0 s

theorem findFree_some {bp k i m : Nat} (h : findFree bp k i = some m) :
    i ≤ m ∧ m < i + k ∧ slotPresent bp m = false ∧
      ∀ t, i ≤ t → t < m → slotPresent bp t = true := by
  induction k generalizing i with
  | zero => simp [findFree] at h
  | succ k ih =>
    rw [findFree] at h
    split at h
    · rename_i hc
      injection h with h
      subst h
      refine ⟨Nat.le_refl _, by omega, by simpa using hc, fun t h1 h2 => by omega⟩
    · rename_i hc
      obtain ⟨h1, h2, h3, h4⟩ := ih h
      refine ⟨by omega, by omega, h3, fun t ht1 ht2 => ?_⟩
      by_cases hti : t = i
      · subst hti; simpa using hc
      · exact h4 t (by omega) ht2

theorem findFree_none {bp k i : Nat} (h : findFree bp k i = none) :
    ∀ t, i ≤ t → t < i + k → slotPresent bp t = true := by
  induction k generalizing i with
  | zero => intro t h1 h2; omega
  | succ k ih =>
    rw [findFree] at h
    split at h
    · simp at h
    · rename_i hc
      intro t ht1 ht2
      by_cases hti : t = i
      · subst hti; simpa using hc
      · exact ih h t (by omega) (by omega)

theorem findFree_of_absent {bp k i : Nat} (hk : 0 < k) (h : slotPresent bp i = false) :
    findFree bp k i = some i := by
  cases k with
  | zero => omega
  | succ k => rw [findFree, h]; rfl

theorem slotPresent_zero (t : Nat) : slotPresent 0 t = false := by
  simp [slotPresent]

theorem slotPresent_setSlot (bp i t : Nat) (hi : i < 16) (ht : t < 16) :
    slotPresent (bp ||| ((1 <<< i) % 65536)) t = (slotPresent bp t || decide (i = t)) := by
  rw [slotPresent_eq_testBit _ _ ht, slotPresent_eq_testBit _ _ ht, testBit_setSlot _ _ _ hi]

theorem flush_bp_zero (s : State) (hwt : WellTyped s) (hflag : s.shouldFlush ≤ 1)
    (hok : resetCount (FsMapSpiFlashFlush s).log = resetCount s.log) :
    (FsMapSpiFlashFlush s).blockPresent = 0 := by
  have hp := FsMapSpiFlashFlush_presence s hwt hflag
  exact eq_zero_of_no_slot _ hp.wellTyped.1 (hp.empty (hp.flag_of_no_abort hok))

/-- C18: a `FsMapSpiFlashFlush` entered with the flag not `flushing`
(`shouldFlush ≤ 1`) returns with `shouldFlush = 0` exactly when no `EeProgram4K`
call of that flush returned `-1`, with `shouldFlush = 1` exactly when one did,
and never with `shouldFlush = 2`. -/
theorem flush_flag_outcome (s : State) (hwt : WellTyped s) (hflag : s.shouldFlush ≤ 1) :
    ((FsMapSpiFlashFlush s).shouldFlush = 0 ↔
      resetCount (FsMapSpiFlashFlush s).log = resetCount s.log) ∧
    ((FsMapSpiFlashFlush s).shouldFlush = 1 ↔
      resetCount (FsMapSpiFlashFlush s).log = resetCount s.log + 1) ∧
    ((FsMapSpiFlashFlush s).shouldFlush = 0 ∨ (FsMapSpiFlashFlush s).shouldFlush = 1) ∧
    (FsMapSpiFlashFlush s).shouldFlush ≠ 2 := by
  have hp := FsMapSpiFlashFlush_presence s hwt hflag
  have ha := hp.aborts
  refine ⟨⟨fun h => ?_, hp.flag_of_no_abort⟩, ⟨fun h => ?_, hp.flag_of_abort⟩, hp.flag, ?_⟩
  · rw [ha, h]; rfl
  · rw [ha, if_pos h]
  · rcases hp.flag with h | h <;> rw [h] <;> decide

set_option maxRecDepth 100000 in
theorem flush_flag_outcome_witness :
    sampleState.shouldFlush ≤ 1 ∧ (FsMapSpiFlashFlush sampleState).shouldFlush = 0 ∧
      (FsMapSpiFlashFlush { sampleState with resets := [false, false, true] }).shouldFlush = 1 :=
  ⟨by decide,
    (flush_flag_outcome sampleState sampleState_wellTyped (by decide)).1.2 (by decide),
    (flush_flag_outcome { sampleState with resets := [false, false, true] }
      sampleState_wellTyped (by decide)).2.1.2 (by decide)⟩

/-- C14: in the loop body of `FsMapSpiFlashWrite` (the flag is 0, or 1 after a
failed flush earlier in the same call), when `FindCachedBlock` finds nothing,
the first `GetEmptyBlock` returns `NULL` and the forced `FsMapSpiFlashFlush`
completes with no abort, the second `GetEmptyBlock` returns a slot (slot 0), so
the sector is cached and the endless loop is not reached. -/
theorem allocation_after_forced_flush (s : State) (hwt : WellTyped s)
    (hflag : s.shouldFlush ≤ 1) (b : Nat) (data : Nat → Nat) (off : Nat)
    (hfind : (FindCachedBlock s b).1 = none)
    (hfull : (GetEmptyBlock (FindCachedBlock s b).2 b).1 = none)
    (hok : resetCount (FsMapSpiFlashFlush (GetEmptyBlock (FindCachedBlock s b).2 b).2).log =
      resetCount (GetEmptyBlock (FindCachedBlock s b).2 b).2.log) :
    (GetEmptyBlock (FsMapSpiFlashFlush (GetEmptyBlock (FindCachedBlock s b).2 b).2) b).1 =
      some 0 ∧
    (cacheSector s b data off).isSome = true := by
  obtain ⟨lf, hf⟩ := FindCachedBlock_snd s b
  have hwt1 : WellTyped (GetEmptyBlock (FindCachedBlock s b).2 b).2 := by
    rw [hf] at hfull ⊢
    rw [GetEmptyBlock_eq] at hfull ⊢
    cases hff : findFree s.blockPresent CACHE_BLOCKS 0 with
    | none => exact hwt
    | some m =>
      have hff2 : findFree ({ s with lastFoundBlock := lf } : State).blockPresent
          CACHE_BLOCKS 0 = some m := hff
      rw [hff2] at hfull
      simp at hfull
  have hflag1 : (GetEmptyBlock (FindCachedBlock s b).2 b).2.shouldFlush ≤ 1 := by
    rw [hf, GetEmptyBlock_eq]
    cases findFree ({ s with lastFoundBlock := lf } : State).blockPresent CACHE_BLOCKS 0 <;>
      exact hflag
  have hbp := flush_bp_zero _ hwt1 hflag1 hok
  have h2 : (GetEmptyBlock (FsMapSpiFlashFlush
      (GetEmptyBlock (FindCachedBlock s b).2 b).2) b).1 = some 0 := by
    rw [GetEmptyBlock_eq, hbp, findFree_of_absent (by decide) (slotPresent_zero 0)]
  refine ⟨h2, ?_⟩
  unfold cacheSector
  dsimp only
  rw [hfind]
  dsimp only
  rw [hfull]
  dsimp only
  rw [h2]
  rfl

theorem fullState_wellTyped : WellTyped fullState :=
  ⟨by decide, fun i hi => by
    have : i < 16 := hi
    show 32 + i < 65536
    omega, fun _ => by
    show 5 < 65536
    decide⟩

set_option maxRecDepth 100000 in
theorem allocation_after_forced_flush_witness :
    (FindCachedBlock fullState 100).1 = none ∧
      (GetEmptyBlock (FindCachedBlock fullState 100).2 100).1 = none ∧
      (GetEmptyBlock (FsMapSpiFlashFlush
        (GetEmptyBlock (FindCachedBlock fullState 100).2 100).2) 100).1 = some 0 :=
  ⟨by decide, by decide,
    (allocation_after_forced_flush fullState fullState_wellTyped (by decide) 100 (fun _ => 7) 0
      (by decide) (by decide) (by decide)).1⟩

/-! ## The loop body of `FsMapSpiFlashWrite` -/

theorem FsMapSpiFlashWriteLoop_step (k fb bl off : Nat) (data : Nat → Nat) (s : State) :
    FsMapSpiFlashWriteLoop (k + 1) fb bl off data s =
      (writeSector s (fb % 65536) data off).bind (fun s2 =>
        FsMapSpiFlashWriteLoop k ((fb + 1) % 4294967296) ((bl + 1) % 65536) (off + 256)
          data s2) := by
  rw [FsMapSpiFlashWriteLoop_succ]
  unfold writeSector
  split
  · cases cacheSector s (fb % 65536) data off <;> rfl
  · rfl

theorem cacheSector_hit (s : State) (b : Nat) (data : Nat → Nat) (off t : Nat)
    (h : cachedSlot s b = some t) :
    cacheSector s b data off =
      some { s with
        lastFoundBlock := (t : Int)
        mallocAreaY := memcpy s.mallocAreaY (256 * t) data off 256 } := by
  unfold cacheSector
  rw [FindCachedBlock_cachedSlot, h]

theorem cacheSector_alloc (s : State) (b : Nat) (data : Nat → Nat) (off m : Nat)
    (h : cachedSlot s b = none) (hf : findFree s.blockPresent CACHE_BLOCKS 0 = some m) :
    cacheSector s b data off =
      some { s with
        lastFoundBlock := -1
        blockPresent := s.blockPresent ||| ((1 <<< m) % 65536)
        blockAddress := setWord s.blockAddress m b
        mallocAreaY := memcpy s.mallocAreaY (256 * m) data off 256 } := by
  unfold cacheSector
  rw [FindCachedBlock_cachedSlot, h]
  dsimp only
  rw [GetEmptyBlock_eq]
  have hf2 : findFree ({ s with lastFoundBlock := -1 } : State).blockPresent CACHE_BLOCKS 0 =
      some m := hf
  rw [hf2]

theorem cacheSector_full (s : State) (b : Nat) (data : Nat → Nat) (off : Nat)
    (h : cachedSlot s b = none) (hf : findFree s.blockPresent CACHE_BLOCKS 0 = none) :
    cacheSector s b data off =
      match findFree (FsMapSpiFlashFlush { s with lastFoundBlock := -1 }).blockPresent
          CACHE_BLOCKS 0 with
      | some m =>
        some { FsMapSpiFlashFlush { s with lastFoundBlock := -1 } with
          blockPresent := (FsMapSpiFlashFlush { s with lastFoundBlock := -1 }).blockPresent |||
            ((1 <<< m) % 65536)
          blockAddress :=
            setWord (FsMapSpiFlashFlush { s with lastFoundBlock := -1 }).blockAddress m b
          mallocAreaY :=
            memcpy (FsMapSpiFlashFlush { s with lastFoundBlock := -1 }).mallocAreaY (256 * m)
              data off 256 }
      | none => none := by
  unfold cacheSector
  rw [FindCachedBlock_cachedSlot, h]
  dsimp only
  rw [GetEmptyBlock_eq]
  have hf2 : findFree ({ s with lastFoundBlock := -1 } : State).blockPresent CACHE_BLOCKS 0 =
      none := hf
  rw [hf2]
  dsimp only
  rw [GetEmptyBlock_eq]
  cases findFree (FsMapSpiFlashFlush { s with lastFoundBlock := -1 }).blockPresent
    CACHE_BLOCKS 0 <;> rfl

/-! ## `WriteContinuous4K` -/

theorem WriteContinuous4KLoop_eq (n i : Nat) (s : State) :
    WriteContinuous4KLoop n i s =
      match findRun s.blockPresent s.blockAddress n i with
      | some m =>
        if (EeProgram4K s (s.blockAddress m) (256 * m)).1 ≠ -1 then
          (1, { (EeProgram4K s (s.blockAddress m) (256 * m)).2 with
            blockPresent :=
              releaseFrom m 8 0 (EeProgram4K s (s.blockAddress m) (256 * m)).2.blockPresent })
        else (0, (EeProgram4K s (s.blockAddress m) (256 * m)).2)
      | none => (0, s) := by
  induction n generalizing i with
  | zero => rfl
  | succ n ih =>
    rw [WriteContinuous4KLoop, findRun]
    by_cases h1 : (slotPresent s.blockPresent i && (s.blockAddress i &&& 0x0007 == 0)) = true
    · by_cases h2 : continuousFrom s.blockAddress i 7 1 = true
      · simp only [h1, h2, if_true, Bool.and_self]
      · simp only [h1, h2, if_true, Bool.true_and, Bool.false_eq_true, if_false]
        exact ih (i + 1)
    · simp only [h1, Bool.false_eq_true, if_false, Bool.false_and]
      exact ih (i + 1)

theorem WriteContinuous4K_eq (s : State) :
    WriteContinuous4K s =
      match findRun s.blockPresent s.blockAddress (CACHE_BLOCKS - 7) 0 with
      | some m =>
        if (EeProgram4K s (s.blockAddress m) (256 * m)).1 ≠ -1 then
          (1, { (EeProgram4K s (s.blockAddress m) (256 * m)).2 with
            blockPresent :=
              releaseFrom m 8 0 (EeProgram4K s (s.blockAddress m) (256 * m)).2.blockPresent })
        else (0, (EeProgram4K s (s.blockAddress m) (256 * m)).2)
      | none => (0, s) :=
  WriteContinuous4KLoop_eq _ 0 s

theorem continuousFrom_true {addr : Nat → Nat} {i n k : Nat}
    (h : continuousFrom addr i n k = true) :
    ∀ t, k ≤ t → t < k + n → addr (i + t) = (addr i + t) % 65536 := by
  induction n generalizing k with
  | zero => intro t h1 h2; omega
  | succ n ih =>
    rw [continuousFrom] at h
    split at h
    · simp at h
    · rename_i hc
      intro t h1 h2
      by_cases ht : t = k
      · subst ht; simpa using hc
      · exact ih h t (by omega) (by omega)

theorem continuousFrom_of_all {addr : Nat → Nat} {i n k : Nat}
    (h : ∀ t, k ≤ t → t < k + n → addr (i + t) = (addr i + t) % 65536) :
    continuousFrom addr i n k = true := by
  induction n generalizing k with
  | zero => rfl
  | succ n ih =>
    rw [continuousFrom, if_neg (by rw [h k (Nat.le_refl _) (by omega)]; simp)]
    exact ih (fun t h1 h2 => h t (by omega) (by omega))

theorem findRun_some {bp : Nat} {addr : Nat → Nat} {n i m : Nat}
    (h : findRun bp addr n i = some m) :
    i ≤ m ∧ m < i + n ∧ slotPresent bp m = true ∧ addr m % 8 = 0 ∧
      ∀ t, 1 ≤ t → t < 8 → addr (m + t) = (addr m + t) % 65536 := by
  induction n generalizing i with
  | zero => simp [findRun] at h
  | succ n ih =>
    rw [findRun] at h
    split at h
    · rename_i hc
      simp only [Bool.and_eq_true, beq_iff_eq] at hc
      injection h with h
      subst h
      refine ⟨Nat.le_refl _, by omega, hc.1.1, ?_, continuousFrom_true hc.2⟩
      rw [← and_seven]
      exact hc.1.2
    · obtain ⟨h1, h2, h3⟩ := ih h
      exact ⟨by omega, by omega, h3⟩

theorem findRun_none {bp : Nat} {addr : Nat → Nat} {n i : Nat}
    (h : ∀ t, i ≤ t → t < i + n →
      slotPresent bp t = false ∨ addr t % 8 ≠ 0 ∨
        ∃ k, 1 ≤ k ∧ k < 8 ∧ addr (t + k) ≠ (addr t + k) % 65536) :
    findRun bp addr n i = none := by
  induction n generalizing i with
  | zero => rfl
  | succ n ih =>
    rw [findRun]
    have hi := h i (Nat.le_refl _) (by omega)
    rw [if_neg, ih (fun t h1 h2 => h t (by omega) (by omega))]
    intro hc
    simp only [Bool.and_eq_true, beq_iff_eq] at hc
    rcases hi with hi | hi | ⟨k, hk1, hk2, hk3⟩
    · rw [hi] at hc; simp at hc
    · rw [and_seven] at hc; exact hi hc.1.2
    · exact hk3 (continuousFrom_true hc.2 k hk1 (by omega))

theorem slotPresent_releaseFrom (i n k bp t : Nat) (hi : i + k + n ≤ 16) (ht : t < 16) :
    slotPresent (releaseFrom i n k bp) t =
      (slotPresent bp t && !decide (i + k ≤ t ∧ t < i + k + n)) := by
  induction n generalizing k bp with
  | zero =>
    rw [releaseFrom]
    have : ¬ (i + k ≤ t ∧ t < i + k + 0) := by omega
    rw [decide_eq_false this]
    simp
  | succ n ih =>
    rw [releaseFrom, ih (k + 1) _ (by omega), slotPresent_clearSlot _ _ _ (by omega) ht]
    by_cases h1 : i + k = t
    · have h2 : i + k ≤ t ∧ t < i + k + (n + 1) := by omega
      simp [h1, h2]
    · by_cases h3 : i + (k + 1) ≤ t ∧ t < i + (k + 1) + n
      · have h2 : i + k ≤ t ∧ t < i + k + (n + 1) := by omega
        simp [h1, h2, h3]
      · have h2 : ¬ (i + k ≤ t ∧ t < i + k + (n + 1)) := by omega
        simp [h1, h2, h3]

theorem releaseFrom_lt (i n k bp : Nat) (h : bp < 65536) : releaseFrom i n k bp < 65536 := by
  induction n generalizing k bp with
  | zero => exact h
  | succ n ih =>
    rw [releaseFrom]
    exact ih _ _ (clearSlot_lt _ _)

/-! ## The cache invariant -/

theorem CacheInv_of_frame {s t : State} (h : CacheInv s)
    (hbp : t.blockPresent = s.blockPresent) (haddr : t.blockAddress = s.blockAddress)
    (hmem : ∀ a, t.mallocAreaY a < 65536) (hflag : t.shouldFlush ≤ 1) : CacheInv t :=
  { wellTyped := ⟨by rw [hbp]; exact h.wellTyped.1, by rw [haddr]; exact h.wellTyped.2.1, hmem⟩
    distinct := by
      intro i j hi hj hpi hpj hij
      rw [hbp] at hpi hpj
      rw [haddr] at hij
      exact h.distinct i j hi hj hpi hpj hij
    flag := hflag }

theorem memcpy_lt {dst : Nat → Nat} {data : Nat → Nat} (hdst : ∀ a, dst a < 65536)
    (hdata : ∀ x, data x < 65536) (dstOff srcOff count a : Nat) :
    memcpy dst dstOff data srcOff count a < 65536 := by
  rw [memcpy_apply]
  split
  · exact hdata _
  · exact hdst _

theorem CacheInv_alloc {s : State} (h : CacheInv s) (b : Nat) (hb : b < 65536)
    (data : Nat → Nat) (hdata : ∀ x, data x < 65536) (off : Nat) (lf : Int) (m : Nat)
    (hnot : ∀ t, t < 16 → slotPresent s.blockPresent t = true → s.blockAddress t ≠ b)
    (hm : findFree s.blockPresent CACHE_BLOCKS 0 = some m) :
    CacheInv
      { s with
        lastFoundBlock := lf
        blockPresent := s.blockPresent ||| ((1 <<< m) % 65536)
        blockAddress := setWord s.blockAddress m b
        mallocAreaY := memcpy s.mallocAreaY (256 * m) data off 256 } := by
  have hm16 : m < 16 := by
    have := (findFree_some hm).2.1
    simpa [CACHE_BLOCKS] using this
  have h2m : (1 <<< m) % 65536 < 2 ^ 16 := Nat.mod_lt _ (by decide)
  refine { wellTyped := ⟨?_, ?_, ?_⟩, distinct := ?_, flag := h.flag }
  · exact Nat.or_lt_two_pow (n := 16) (by simpa using h.wellTyped.1) h2m
  · intro i hi
    show setWord s.blockAddress m b i < 65536
    unfold setWord
    split
    · exact hb
    · exact h.wellTyped.2.1 i hi
  · intro a
    dsimp only
    exact memcpy_lt h.wellTyped.2.2 hdata _ _ _ _
  · intro i j hi hj hpi hpj hij
    have hi16 : i < 16 := hi
    have hj16 : j < 16 := hj
    dsimp only at hpi hpj hij
    rw [slotPresent_setSlot _ _ _ hm16 hi16] at hpi
    rw [slotPresent_setSlot _ _ _ hm16 hj16] at hpj
    simp only [Bool.or_eq_true, decide_eq_true_eq] at hpi hpj
    unfold setWord at hij
    by_cases him : i = m
    · by_cases hjm : j = m
      · rw [him, hjm]
      · rw [if_pos him, if_neg hjm] at hij
        have hpj2 : slotPresent s.blockPresent j = true := by
          rcases hpj with hq | hq
          · exact hq
          · exact absurd hq.symm hjm
        exact absurd hij.symm (hnot j hj16 hpj2)
    · have hpi2 : slotPresent s.blockPresent i = true := by
        rcases hpi with hq | hq
        · exact hq
        · exact absurd hq.symm him
      by_cases hjm : j = m
      · rw [if_neg him, if_pos hjm] at hij
        exact absurd hij (hnot i hi16 hpi2)
      · rw [if_neg him, if_neg hjm] at hij
        have hpj2 : slotPresent s.blockPresent j = true := by
          rcases hpj with hq | hq
          · exact hq
          · exact absurd hq.symm hjm
        exact h.distinct i j hi hj hpi2 hpj2 hij

theorem CacheInv_flush {s : State} (h : CacheInv s) : CacheInv (FsMapSpiFlashFlush s) := by
  have hp := FsMapSpiFlashFlush_presence s h.wellTyped h.flag
  refine { wellTyped := hp.wellTyped, distinct := ?_, flag := ?_ }
  · intro i j hi hj hpi hpj hij
    rw [hp.address] at hij
    exact h.distinct i j hi hj (hp.subset i hi hpi) (hp.subset j hj hpj) hij
  · rcases hp.flag with h0 | h1 <;> omega

theorem not_cached_of_none {s : State} {b : Nat} (h : cachedSlot s b = none) :
    ∀ t, t < 16 → slotPresent s.blockPresent t = true → s.blockAddress t ≠ b := by
  intro t ht hp hb
  exact findFrom_none h t (Nat.zero_le _) (by simpa [CACHE_BLOCKS] using ht) ⟨hp, hb⟩

theorem CacheInv_cacheSector {s s4 : State} (h : CacheInv s) (b : Nat) (hb : b < 65536)
    (data : Nat → Nat) (hdata : ∀ x, data x < 65536) (off : Nat)
    (hc : cacheSector s b data off = some s4) : CacheInv s4 := by
  cases hcs : cachedSlot s b with
  | some t =>
    rw [cacheSector_hit s b data off t hcs] at hc
    injection hc with hc
    rw [← hc]
    exact CacheInv_of_frame h rfl rfl
      (fun a => by dsimp only; exact memcpy_lt h.wellTyped.2.2 hdata _ _ _ _) h.flag
  | none =>
    cases hf : findFree s.blockPresent CACHE_BLOCKS 0 with
    | some m =>
      rw [cacheSector_alloc s b data off m hcs hf] at hc
      injection hc with hc
      rw [← hc]
      exact CacheInv_alloc h b hb data hdata off (-1) m (not_cached_of_none hcs) hf
    | none =>
      rw [cacheSector_full s b data off hcs hf] at hc
      have h1 : CacheInv ({ s with lastFoundBlock := -1 } : State) :=
        CacheInv_of_frame h rfl rfl h.wellTyped.2.2 h.flag
      have h2 := CacheInv_flush h1
      have hp := FsMapSpiFlashFlush_presence _ h1.wellTyped h1.flag
      cases hf2 : findFree (FsMapSpiFlashFlush { s with lastFoundBlock := -1 }).blockPresent
          CACHE_BLOCKS 0 with
      | none =>
        rw [hf2] at hc
        simp at hc
      | some m =>
        rw [hf2] at hc
        injection hc with hc
        rw [← hc]
        refine CacheInv_alloc h2 b hb data hdata off _ m ?_ hf2
        intro t ht hpt
        rw [hp.address]
        exact not_cached_of_none hcs t ht (hp.subset t ht hpt)

theorem CacheInv_WriteContinuous4K {s : State} (h : CacheInv s) :
    CacheInv (WriteContinuous4K s).2 := by
  rw [WriteContinuous4K_eq]
  cases hr : findRun s.blockPresent s.blockAddress (CACHE_BLOCKS - 7) 0 with
  | none => exact h
  | some m =>
    obtain ⟨_, hm, _, ha, _⟩ := findRun_some hr
    have hm9 : m < 9 := by
      have : m < 0 + (16 - 7) := hm
      omega
    have hm16 : m < 16 := by omega
    obtain ⟨res, F, R, L, hp, _⟩ := EeProgram4K_spec s (s.blockAddress m) (256 * m) ha
      (h.wellTyped.2.1 m hm16)
    dsimp only
    rw [hp]
    split
    · refine { wellTyped := ⟨releaseFrom_lt _ _ _ _ h.wellTyped.1, h.wellTyped.2.1,
        h.wellTyped.2.2⟩, distinct := ?_, flag := h.flag }
      intro i j hi hj hpi hpj hij
      have hi16 : i < 16 := hi
      have hj16 : j < 16 := hj
      dsimp only at hpi hpj
      rw [slotPresent_releaseFrom _ _ _ _ _ (by omega) hi16] at hpi
      rw [slotPresent_releaseFrom _ _ _ _ _ (by omega) hj16] at hpj
      simp only [Bool.and_eq_true] at hpi hpj
      exact h.distinct i j hi hj hpi.1 hpj.1 hij
    · exact CacheInv_of_frame h rfl rfl h.wellTyped.2.2 h.flag

theorem CacheInv_writeSector {s s2 : State} (h : CacheInv s) (b : Nat) (hb : b < 65536)
    (data : Nat → Nat) (hdata : ∀ x, data x < 65536) (off : Nat)
    (hw : writeSector s b data off = some s2) : CacheInv s2 := by
  unfold writeSector at hw
  split at hw
  · cases hc : cacheSector s b data off with
    | none => rw [hc] at hw; simp at hw
    | some s4 =>
      rw [hc] at hw
      simp only [Option.map_some', Option.some.injEq] at hw
      rw [← hw]
      exact CacheInv_WriteContinuous4K (CacheInv_cacheSector h b hb data hdata off hc)
  · injection hw with hw
    rw [← hw]
    exact h

theorem CacheInv_WriteLoop (k fb bl off : Nat) (data : Nat → Nat) (hdata : ∀ x, data x < 65536)
    {s : State} (h : CacheInv s) {r : Nat × State}
    (hw : FsMapSpiFlashWriteLoop k fb bl off data s = some r) : CacheInv r.2 := by
  induction k generalizing fb bl off s with
  | zero =>
    rw [FsMapSpiFlashWriteLoop] at hw
    injection hw with hw
    rw [← hw]
    exact h
  | succ k ih =>
    rw [FsMapSpiFlashWriteLoop_step] at hw
    cases hs : writeSector s (fb % 65536) data off with
    | none => rw [hs] at hw; simp at hw
    | some s2 =>
      rw [hs] at hw
      exact ih _ _ _ (CacheInv_writeSector h _ (Nat.mod_lt _ (by decide)) data hdata off hs) hw

theorem CacheInv_Write {s : State} (h : CacheInv s) (fb n : Nat) (data : Nat → Nat)
    (hdata : ∀ x, data x < 65536) {r : Int × State}
    (hw : FsMapSpiFlashWrite s fb n data = some r) : CacheInv r.2 := by
  unfold FsMapSpiFlashWrite at hw
  split at hw
  · injection hw with hw
    rw [← hw]
    exact h
  · cases hl : FsMapSpiFlashWriteLoop (n % 65536) ((fb + RESERVED_BLOCKS) % 4294967296) 0 0
        data s with
    | none => rw [hl] at hw; simp at hw
    | some r2 =>
      rw [hl] at hw
      simp only [Option.map_some', Option.some.injEq] at hw
      rw [← hw]
      exact CacheInv_WriteLoop _ _ _ _ data hdata h hl

theorem FsMapSpiFlashReadLoop_state (k fb bl off : Nat) (s : State) (data : Nat → Nat) :
    ∃ lf : Int, (FsMapSpiFlashReadLoop k fb bl off s data).2.1 =
      { s with lastFoundBlock := lf } := by
  induction k generalizing fb bl off s data with
  | zero => exact ⟨s.lastFoundBlock, rfl⟩
  | succ k ih =>
    rw [FsMapSpiFlashReadLoop]
    obtain ⟨lf0, hf⟩ := FindCachedBlock_snd s (fb % 65536)
    rw [hf]
    exact ih _ _ _ _ _

theorem FsMapSpiFlashRead_state (s : State) (fb n : Nat) (data : Nat → Nat) :
    ∃ lf : Int, (FsMapSpiFlashRead s fb n data).2.1 = { s with lastFoundBlock := lf } := by
  unfold FsMapSpiFlashRead
  split
  · exact ⟨s.lastFoundBlock, rfl⟩
  · exact FsMapSpiFlashReadLoop_state _ _ _ _ s data

theorem CacheInv_create {s0 : State} (h : WellTyped s0) : CacheInv (FsMapSpiFlashCreate s0) :=
  { wellTyped := ⟨by show 0 < 65536; decide, h.2.1, h.2.2⟩
    distinct := by
      intro i j _ _ hpi
      have : slotPresent 0 i = true := hpi
      rw [slotPresent_zero] at this
      exact absurd this (by simp)
    flag := by show 0 ≤ 1; decide }

theorem CacheInv_apply {s s2 : State} (h : CacheInv s) (c : Call) (hc : c.wellTyped)
    (ha : c.apply s = some s2) : CacheInv s2 := by
  cases c with
  | read fb n =>
    obtain ⟨lf, hs⟩ := FsMapSpiFlashRead_state s fb n (fun _ => 0)
    simp only [Call.apply, Option.some.injEq] at ha
    rw [← ha, hs]
    exact CacheInv_of_frame h rfl rfl h.wellTyped.2.2 h.flag
  | write fb n data =>
    simp only [Call.apply] at ha
    cases hw : FsMapSpiFlashWrite s fb n data with
    | none => rw [hw] at ha; simp at ha
    | some r =>
      rw [hw] at ha
      simp only [Option.map_some', Option.some.injEq] at ha
      rw [← ha]
      exact CacheInv_Write h fb n data hc hw
  | flush =>
    simp only [Call.apply, Option.some.injEq] at ha
    rw [← ha]
    exact CacheInv_flush h

theorem CacheInv_run (calls : List Call) (hc : ∀ c ∈ calls, c.wellTyped) {s s2 : State}
    (h : CacheInv s) (hr : run calls s = some s2) : CacheInv s2 := by
  induction calls generalizing s with
  | nil =>
    rw [run] at hr
    injection hr with hr
    rw [← hr]
    exact h
  | cons c cs ih =>
    rw [run] at hr
    cases ha : c.apply s with
    | none => rw [ha] at hr; simp at hr
    | some s1 =>
      rw [ha] at hr
      exact ih (fun c2 hc2 => hc c2 (List.mem_cons_of_mem _ hc2))
        (CacheInv_apply h c (hc c (List.mem_cons_self _ _)) ha) hr

theorem powerUp_wellTyped (flash : Nat → Nat) (resets : List Bool) :
    WellTyped (powerUp flash resets) :=
  ⟨by show 0 < 65536; decide, fun _ _ => by show 0 < 65536; decide,
    fun _ => by show 0 < 65536; decide⟩

theorem eq_some_getD {α : Type} {o : Option α} (d : α) (h : o.isSome = true) :
    o = some (o.getD d) := by
  cases o with
  | none => simp at h
  | some a => rfl

theorem twoWrites_wellTyped : ∀ c ∈ twoWrites, c.wellTyped := by
  intro c hc
  simp only [twoWrites, List.mem_cons, List.mem_singleton, List.not_mem_nil, or_false] at hc
  rcases hc with rfl | rfl
  · intro x
    show 5 < 65536
    decide
  · intro x
    show 6 < 65536
    decide

/-- C16: in every state reached from `FsMapSpiFlashCreate` by a sequence of
`FsMapSpiFlashRead`, `FsMapSpiFlashWrite` and `FsMapSpiFlashFlush` calls, with
any coming bus resets (the variables and the data written are 16-bit words),
two different slots whose presence bits are both set hold different
addresses. -/
theorem present_addresses_distinct (s0 : State) (hwt : WellTyped s0) (calls : List Call)
    (hc : ∀ c ∈ calls, c.wellTyped) (s : State)
    (hr : run calls (FsMapSpiFlashCreate s0) = some s)
    (i j : Nat) (hi : i < CACHE_BLOCKS) (hj : j < CACHE_BLOCKS) (hij : i ≠ j)
    (hpi : slotPresent s.blockPresent i = true) (hpj : slotPresent s.blockPresent j = true) :
    s.blockAddress i ≠ s.blockAddress j := by
  have h := CacheInv_run calls hc (CacheInv_create hwt) hr
  intro he
  exact hij (h.distinct i j hi hj hpi hpj he)

set_option maxRecDepth 100000 in
theorem present_addresses_distinct_witness :
    slotPresent twoSlotState.blockPresent 0 = true ∧
      slotPresent twoSlotState.blockPresent 1 = true ∧
      twoSlotState.blockAddress 0 ≠ twoSlotState.blockAddress 1 :=
  ⟨by decide, by decide,
    present_addresses_distinct (powerUp (fun _ => 0) []) (powerUp_wellTyped _ _) twoWrites
      twoWrites_wellTyped twoSlotState (eq_some_getD _ (by decide)) 0 1 (by decide) (by decide)
      (by decide) (by decide) (by decide)⟩

/-- C13 fails on the code: with all 16 slots present and the flag idle, a write
of a further sector (logical 200) during which the bus is reset: the forced
flush is aborted in its first `EeProgram4K` call, no slot is released, the
second `GetEmptyBlock` returns `NULL` and the call reaches the endless loop
after `FATAL ERROR: NO CACHE SPACE`: it never returns. With no bus reset the
same call returns 1. -/
theorem write_halts_when_forced_flush_aborts :
    (fullCacheScenario [true]).map (fun s => (s.blockPresent, s.shouldFlush, s.resets)) =
      some (65535, 0, [true]) ∧
    ((fullCacheScenario [true]).bind
      (fun s => FsMapSpiFlashWrite s 200 1 (fun _ => 5))).isNone = true ∧
    ((fullCacheScenario []).bind
      (fun s => FsMapSpiFlashWrite s 200 1 (fun _ => 5))).map Prod.fst = some 1 := by
  decide!

/-! ## The reserved sectors -/

theorem byteAddress_first (blockn : Nat) :
    (EePutReadBlockAddress blockn).1 * 65536 + (EePutReadBlockAddress blockn).2.1 * 256 +
      (EePutReadBlockAddress blockn).2.2 = 512 * blockn := by
  unfold EePutReadBlockAddress
  have e : blockn <<< 1 % 65536 &&& 0xff = (blockn <<< 1 % 65536) % 256 :=
    Nat.and_pow_two_sub_one_eq_mod _ 8
  rw [e]
  simp only [Nat.shiftRight_eq_div_pow, Nat.shiftLeft_eq]
  omega

theorem byteAddress_second (blockn : Nat) :
    (secondPageAddress blockn).1 * 65536 + (secondPageAddress blockn).2.1 * 256 +
      (secondPageAddress blockn).2.2 = 512 * blockn + 256 := by
  unfold secondPageAddress
  have e : (blockn <<< 1 % 65536 + 1) % 65536 &&& 0xff =
      ((blockn <<< 1 % 65536 + 1) % 65536) % 256 :=
    Nat.and_pow_two_sub_one_eq_mod _ 8
  rw [e]
  simp only [Nat.shiftRight_eq_div_pow, Nat.shiftLeft_eq]
  omega

theorem opInRange_page_first (blockn : Nat) (h1 : 32 ≤ blockn) (h2 : blockn < 4096) :
    opInRange (FlashOp.page (EePutReadBlockAddress blockn).1 (EePutReadBlockAddress blockn).2.1
      (EePutReadBlockAddress blockn).2.2) := by
  simp only [opInRange]
  rw [byteAddress_first]
  unfold RESERVED_BLOCKS CHIP_TOTAL_BLOCKS
  omega

theorem opInRange_page_second (blockn : Nat) (h1 : 32 ≤ blockn) (h2 : blockn < 4096) :
    opInRange (FlashOp.page (secondPageAddress blockn).1 (secondPageAddress blockn).2.1
      (secondPageAddress blockn).2.2) := by
  simp only [opInRange]
  rw [byteAddress_second]
  unfold RESERVED_BLOCKS CHIP_TOTAL_BLOCKS
  omega

theorem opInRange_erase (blockn : Nat) (h0 : blockn % 8 = 0) (h1 : 32 ≤ blockn)
    (h2 : blockn + 8 ≤ 4096) :
    opInRange (FlashOp.erase (EePutReadBlockAddress blockn).1 (EePutReadBlockAddress blockn).2.1
      (EePutReadBlockAddress blockn).2.2) := by
  simp only [opInRange]
  rw [byteAddress_first]
  unfold RESERVED_BLOCKS CHIP_TOTAL_BLOCKS
  omega

theorem EeProgram4KLoop_range (k blockn dptr : Nat) (s : State) (h1 : 32 ≤ blockn)
    (h2 : blockn + k ≤ 4096) :
    ∀ e ∈ (EeProgram4KLoop k blockn dptr s).2.log, e ∈ s.log ∨ opInRange e := by
  induction k generalizing blockn dptr s with
  | zero =>
    rw [EeProgram4KLoop]
    exact fun e he => Or.inl he
  | succ k ih =>
    have hp1 := opInRange_page_first blockn h1 (by omega)
    have hp2 := opInRange_page_second blockn h1 (by omega)
    rw [EeProgram4KLoop]
    simp only [SpiWaitStatus_fst, SpiWaitStatus_snd]
    split
    · intro e he
      simp only [List.mem_cons] at he
      rcases he with rfl | rfl | he
      · right; trivial
      · right; exact hp1
      · left; exact he
    · split
      · intro e he
        simp only [List.mem_cons] at he
        rcases he with rfl | rfl | rfl | he
        · right; trivial
        · right; exact hp2
        · right; exact hp1
        · left; exact he
      · intro e he
        have hb1 : (blockn + 1) % 65536 = blockn + 1 := Nat.mod_eq_of_lt (by omega)
        rw [hb1] at he
        have := ih (blockn + 1) (dptr + 256) _ (by omega) (by omega) e he
        rcases this with this | this
        · simp only [List.mem_cons] at this
          rcases this with rfl | rfl | this
          · right; exact hp2
          · right; exact hp1
          · left; exact this
        · right; exact this

theorem EeProgram4K_range (s : State) (blockn dptr : Nat) (h0 : blockn % 8 = 0)
    (h1 : 32 ≤ blockn) (h2 : blockn + 8 ≤ 4096) :
    (∀ e ∈ (EeProgram4K s blockn dptr).2.log, e ∈ s.log ∨ opInRange e) ∧
    ∀ w, w < 8192 → (EeProgram4K s blockn dptr).2.flash w = s.flash w := by
  constructor
  · have hprog : opInRange (FlashOp.program4K blockn dptr) := by
      simp only [opInRange]
      unfold RESERVED_BLOCKS CHIP_TOTAL_BLOCKS
      exact ⟨h1, h2⟩
    have he := opInRange_erase blockn h0 h1 h2
    unfold EeProgram4K
    dsimp only
    simp only [SpiWaitStatus_fst, SpiWaitStatus_snd]
    split
    · split
      · intro e hm
        simp only [List.mem_cons] at hm
        rcases hm with rfl | rfl | rfl | hm
        · right; trivial
        · right; exact he
        · right; exact hprog
        · left; exact hm
      · intro e hm
        have := EeProgram4KLoop_range 8 blockn dptr _ h1 (by omega) e hm
        rcases this with this | this
        · simp only [List.mem_cons] at this
          rcases this with rfl | rfl | this
          · right; exact he
          · right; exact hprog
          · left; exact this
        · right; exact this
    · split
      · intro e hm
        simp only [List.mem_cons] at hm
        rcases hm with rfl | rfl | hm
        · right; trivial
        · right; exact hprog
        · left; exact hm
      · intro e hm
        have := EeProgram4KLoop_range 8 blockn dptr _ h1 (by omega) e hm
        rcases this with this | this
        · simp only [List.mem_cons] at this
          rcases this with rfl | this
          · right; exact hprog
          · left; exact this
        · right; exact this
  · obtain ⟨res, F, R, L, hp, _, hout, _⟩ := EeProgram4K_spec s blockn dptr h0 (by omega)
    intro w hw
    rw [hp]
    exact hout w (by omega)

theorem RangeInv_step {s0 s s2 : State} (h : RangeInv s0 s)
    (haddr : ∀ i, i < 16 → slotPresent s2.blockPresent i = true →
      32 ≤ s2.blockAddress i ∧ s2.blockAddress i < 4096)
    (hboot : ∀ w, w < 8192 → s2.flash w = s.flash w)
    (hlog : ∀ e ∈ s2.log, e ∈ s.log ∨ opInRange e) : RangeInv s0 s2 :=
  { addr := haddr
    boot := fun w hw => by rw [hboot w hw]; exact h.boot w hw
    log := fun e he => by
      rcases hlog e he with h1 | h1
      · exact h.log e h1
      · exact Or.inr h1 }

theorem flushUnit_range (s : State) (i : Nat)
    (hr : 32 ≤ s.blockAddress i ∧ s.blockAddress i < 4096) :
    (∀ e ∈ (flushUnit s i).1.2.log, e ∈ s.log ∨ opInRange e) ∧
    ∀ w, w < 8192 → (flushUnit s i).1.2.flash w = s.flash w := by
  have hlba : s.blockAddress i &&& 0xfff8 = 8 * (s.blockAddress i / 8) :=
    and_fff8 _ (by omega)
  have hlba2 : 8 * (s.blockAddress i / 8) &&& 0xfff8 = 8 * (s.blockAddress i / 8) := by
    rw [and_fff8 _ (by omega)]; omega
  unfold flushUnit
  dsimp only
  rw [hlba, EeRead4KSectorYToWorkspace_eq, hlba2]
  dsimp only
  obtain ⟨M, lf, he, _⟩ := flushMerge_spec (8 * (s.blockAddress i / 8)) 8 0
    { s with
      mallocAreaY := fun x =>
        if WORKSPACE ≤ x ∧ x < WORKSPACE + 2048 then
          not16 (s.flash (256 * (8 * (s.blockAddress i / 8)) + (x - WORKSPACE)))
        else s.mallocAreaY x
      log := FlashOp.read4K (8 * (s.blockAddress i / 8)) :: s.log }
    s.blockPresent (by omega)
  rw [he]
  obtain ⟨h1, h2⟩ := EeProgram4K_range
    { s with
      mallocAreaY := M
      lastFoundBlock := lf
      log := FlashOp.read4K (8 * (s.blockAddress i / 8)) :: s.log }
    (8 * (s.blockAddress i / 8)) WORKSPACE (by omega) (by omega) (by omega)
  constructor
  · intro e hm
    rcases h1 e hm with h3 | h3
    · have h4 : e ∈ FlashOp.read4K (8 * (s.blockAddress i / 8)) :: s.log := h3
      simp only [List.mem_cons] at h4
      rcases h4 with rfl | h4
      · right; trivial
      · left; exact h4
    · right; exact h3
  · intro w hw
    rw [h2 w hw]

theorem FlushLoop_range (k i : Nat) (s : State) (hwt : WellTyped s) (hik : i + k = 16)
    (haddr : ∀ t, t < 16 → slotPresent s.blockPresent t = true →
      32 ≤ s.blockAddress t ∧ s.blockAddress t < 4096) :
    (∀ e ∈ (FsMapSpiFlashFlushLoop k i s).log, e ∈ s.log ∨ opInRange e) ∧
    ∀ w, w < 8192 → (FsMapSpiFlashFlushLoop k i s).flash w = s.flash w := by
  induction k generalizing i s with
  | zero =>
    rw [FsMapSpiFlashFlushLoop]
    exact ⟨fun e he => Or.inl he, fun _ _ => rfl⟩
  | succ k ih =>
    rw [FsMapSpiFlashFlushLoop_succ]
    by_cases hp : slotPresent s.blockPresent i = true
    · rw [if_pos hp]
      have hi : i < 16 := by omega
      have hrange := flushUnit_range s i (haddr i hi hp)
      obtain ⟨res, F, R, L, M, lf, nbp, he, hres, hM, hMlt, hFout, hFin, hbits, hnlt, hR, hno,
        hl, hpc, hrc⟩ := flushUnit_spec s i hwt hi
      rw [he] at hrange ⊢
      dsimp only at hrange ⊢
      split
      · have h3 := ih (i + 1)
          { s with mallocAreaY := M, lastFoundBlock := lf, flash := F, resets := R, log := L,
                   blockPresent := nbp, shouldFlush := 0 }
          ⟨hnlt, hwt.2.1, hMlt⟩ (by omega)
          (fun t ht hpt => haddr t ht ((hbits t ht).1 hpt).1)
        constructor
        · intro e hm
          rcases h3.1 e hm with h4 | h4
          · exact hrange.1 e h4
          · exact Or.inr h4
        · intro w hw
          rw [h3.2 w hw]
          exact hrange.2 w hw
      · exact hrange
    · rw [if_neg hp]
      exact ih (i + 1) s hwt (by omega) haddr

theorem RangeInv_flush {s0 s : State} (hc : CacheInv s) (h : RangeInv s0 s) :
    RangeInv s0 (FsMapSpiFlashFlush s) := by
  have hp := FsMapSpiFlashFlush_presence s hc.wellTyped hc.flag
  have hr : (∀ e ∈ (FsMapSpiFlashFlush s).log, e ∈ s.log ∨ opInRange e) ∧
      ∀ w, w < 8192 → (FsMapSpiFlashFlush s).flash w = s.flash w := by
    unfold FsMapSpiFlashFlush
    split
    · exact ⟨fun e he => Or.inl he, fun _ _ => rfl⟩
    · exact FlushLoop_range CACHE_BLOCKS 0 { s with shouldFlush := 2 } hc.wellTyped rfl h.addr
  refine RangeInv_step h ?_ hr.2 hr.1
  intro i hi hpi
  rw [hp.address]
  exact h.addr i hi (hp.subset i hi hpi)

theorem RangeInv_WriteContinuous4K {s0 s : State} (h : RangeInv s0 s) :
    RangeInv s0 (WriteContinuous4K s).2 := by
  rw [WriteContinuous4K_eq]
  cases hr : findRun s.blockPresent s.blockAddress (CACHE_BLOCKS - 7) 0 with
  | none => exact h
  | some m =>
    obtain ⟨_, hm, hpm, ha, _⟩ := findRun_some hr
    have hm9 : m < 9 := by
      have : m < 0 + (16 - 7) := hm
      omega
    have hin := h.addr m (by omega) hpm
    obtain ⟨h1, h2⟩ := EeProgram4K_range s (s.blockAddress m) (256 * m) ha hin.1 (by omega)
    obtain ⟨res, F, R, L, hp, _⟩ := EeProgram4K_spec s (s.blockAddress m) (256 * m) ha
      (by omega)
    dsimp only
    rw [hp] at h1 h2 ⊢
    dsimp only at h1 h2
    split
    · refine RangeInv_step h ?_ h2 h1
      intro i hi hpi
      dsimp only at hpi
      rw [slotPresent_releaseFrom _ _ _ _ _ (by omega) hi] at hpi
      simp only [Bool.and_eq_true] at hpi
      exact h.addr i hi hpi.1
    · exact RangeInv_step h h.addr h2 h1

theorem RangeInv_of_frame {s0 s t : State} (h : RangeInv s0 s)
    (hbp : t.blockPresent = s.blockPresent) (haddr : t.blockAddress = s.blockAddress)
    (hflash : t.flash = s.flash) (hlog : t.log = s.log) : RangeInv s0 t :=
  RangeInv_step h (fun i hi hp => by rw [haddr]; rw [hbp] at hp; exact h.addr i hi hp)
    (fun w _ => by rw [hflash]) (fun e he => by rw [hlog] at he; exact Or.inl he)

theorem RangeInv_alloc {s0 s : State} (h : RangeInv s0 s) (b : Nat) (hb1 : 32 ≤ b)
    (hb2 : b < 4096) (mem : Nat → Nat) (lf : Int) (m : Nat) (hm : m < 16) :
    RangeInv s0
      { s with
        lastFoundBlock := lf
        blockPresent := s.blockPresent ||| ((1 <<< m) % 65536)
        blockAddress := setWord s.blockAddress m b
        mallocAreaY := mem } := by
  refine RangeInv_step h ?_ (fun _ _ => rfl) (fun e he => Or.inl he)
  intro i hi hpi
  dsimp only at hpi ⊢
  rw [slotPresent_setSlot _ _ _ hm hi] at hpi
  simp only [Bool.or_eq_true, decide_eq_true_eq] at hpi
  unfold setWord
  by_cases him : i = m
  · rw [if_pos him]; exact ⟨hb1, hb2⟩
  · rw [if_neg him]
    rcases hpi with hq | hq
    · exact h.addr i hi hq
    · exact absurd hq.symm him

theorem RangeInv_cacheSector {s0 s s4 : State} (hc : CacheInv s) (h : RangeInv s0 s) (b : Nat)
    (hb1 : 32 ≤ b) (hb2 : b < 4096) (data : Nat → Nat) (off : Nat)
    (hcs : cacheSector s b data off = some s4) : RangeInv s0 s4 := by
  cases hcc : cachedSlot s b with
  | some t =>
    rw [cacheSector_hit s b data off t hcc] at hcs
    injection hcs with hcs
    rw [← hcs]
    exact RangeInv_of_frame h rfl rfl rfl rfl
  | none =>
    cases hf : findFree s.blockPresent CACHE_BLOCKS 0 with
    | some m =>
      rw [cacheSector_alloc s b data off m hcc hf] at hcs
      injection hcs with hcs
      rw [← hcs]
      have hm16 : m < 16 := by
        have := (findFree_some hf).2.1
        simpa [CACHE_BLOCKS] using this
      exact RangeInv_alloc h b hb1 hb2 _ _ m hm16
    | none =>
      rw [cacheSector_full s b data off hcc hf] at hcs
      have hc1 : CacheInv ({ s with lastFoundBlock := -1 } : State) :=
        CacheInv_of_frame hc rfl rfl hc.wellTyped.2.2 hc.flag
      have h1 : RangeInv s0 ({ s with lastFoundBlock := -1 } : State) :=
        RangeInv_of_frame h rfl rfl rfl rfl
      have h2 := RangeInv_flush hc1 h1
      cases hf2 : findFree (FsMapSpiFlashFlush { s with lastFoundBlock := -1 }).blockPresent
          CACHE_BLOCKS 0 with
      | none =>
        rw [hf2] at hcs
        simp at hcs
      | some m =>
        rw [hf2] at hcs
        injection hcs with hcs
        rw [← hcs]
        have hm16 : m < 16 := by
          have := (findFree_some hf2).2.1
          simpa [CACHE_BLOCKS] using this
        exact RangeInv_alloc h2 b hb1 hb2 _ _ m hm16

theorem RangeInv_writeSector {s0 s s2 : State} (hc : CacheInv s) (h : RangeInv s0 s) (b : Nat)
    (hb1 : 32 ≤ b) (hb2 : b < 4096) (data : Nat → Nat) (off : Nat) (hw : writeSector s b data off = some s2) : RangeInv s0 s2 := by
  unfold writeSector at hw
  split at hw
  · cases hcs : cacheSector s b data off with
    | none => rw [hcs] at hw; simp at hw
    | some s4 =>
      rw [hcs] at hw
      simp only [Option.map_some', Option.some.injEq] at hw
      rw [← hw]
      exact RangeInv_WriteContinuous4K (RangeInv_cacheSector hc h b hb1 hb2 data off hcs)
  · injection hw with hw
    rw [← hw]
    exact h

theorem RangeInv_WriteLoop (k fb bl off : Nat) (data : Nat → Nat) (hdata : ∀ x, data x < 65536)
    (hfb1 : 32 ≤ fb) (hfb2 : fb + k ≤ 4096) {s0 s : State} (hc : CacheInv s)
    (h : RangeInv s0 s) {r : Nat × State}
    (hw : FsMapSpiFlashWriteLoop k fb bl off data s = some r) : RangeInv s0 r.2 := by
  induction k generalizing fb bl off s with
  | zero =>
    rw [FsMapSpiFlashWriteLoop] at hw
    injection hw with hw
    rw [← hw]
    exact h
  | succ k ih =>
    rw [FsMapSpiFlashWriteLoop_step] at hw
    have e1 : fb % 65536 = fb := Nat.mod_eq_of_lt (by omega)
    have e2 : (fb + 1) % 4294967296 = fb + 1 := Nat.mod_eq_of_lt (by omega)
    rw [e1, e2] at hw
    cases hs : writeSector s fb data off with
    | none => rw [hs] at hw; simp at hw
    | some s2 =>
      rw [hs] at hw
      exact ih _ _ _ (by omega) (by omega)
        (CacheInv_writeSector hc _ (by omega) data hdata off hs)
        (RangeInv_writeSector hc h fb hfb1 (by omega) data off hs) hw

theorem RangeInv_apply {s0 s s2 : State} (hc : CacheInv s) (h : RangeInv s0 s) (c : Call)
    (hwt : c.wellTyped) (hin : c.inRange) (ha : c.apply s = some s2) : RangeInv s0 s2 := by
  cases c with
  | read fb n =>
    obtain ⟨lf, hs⟩ := FsMapSpiFlashRead_state s fb n (fun _ => 0)
    simp only [Call.apply, Option.some.injEq] at ha
    rw [← ha, hs]
    exact RangeInv_of_frame h rfl rfl rfl rfl
  | write fb n data =>
    have hin2 : fb + n ≤ 4064 := hin
    simp only [Call.apply] at ha
    unfold FsMapSpiFlashWrite at ha
    split at ha
    · simp only [Option.map_some', Option.some.injEq] at ha
      rw [← ha]
      exact h
    · have e1 : n % 65536 = n := Nat.mod_eq_of_lt (by omega)
      have e2 : (fb + RESERVED_BLOCKS) % 4294967296 = fb + 32 :=
        Nat.mod_eq_of_lt (by unfold RESERVED_BLOCKS; omega)
      rw [e1, e2] at ha
      cases hl : FsMapSpiFlashWriteLoop n (fb + 32) 0 0 data s with
      | none => rw [hl] at ha; simp at ha
      | some r2 =>
        rw [hl] at ha
        simp only [Option.map_some', Option.some.injEq] at ha
        rw [← ha]
        exact RangeInv_WriteLoop n (fb + 32) 0 0 data hwt (by omega) (by omega) hc h hl
  | flush =>
    simp only [Call.apply, Option.some.injEq] at ha
    rw [← ha]
    exact RangeInv_flush hc h

theorem RangeInv_run (calls : List Call) (hwt : ∀ c ∈ calls, c.wellTyped)
    (hin : ∀ c ∈ calls, c.inRange) {s0 s s2 : State} (hc : CacheInv s) (h : RangeInv s0 s)
    (hr : run calls s = some s2) : RangeInv s0 s2 := by
  induction calls generalizing s with
  | nil =>
    rw [run] at hr
    injection hr with hr
    rw [← hr]
    exact h
  | cons c cs ih =>
    rw [run] at hr
    cases ha : c.apply s with
    | none => rw [ha] at hr; simp at hr
    | some s1 =>
      rw [ha] at hr
      exact ih (fun c2 hc2 => hwt c2 (List.mem_cons_of_mem _ hc2))
        (fun c2 hc2 => hin c2 (List.mem_cons_of_mem _ hc2))
        (CacheInv_apply hc c (hwt c (List.mem_cons_self _ _)) ha)
        (RangeInv_apply hc h c (hwt c (List.mem_cons_self _ _)) (hin c (List.mem_cons_self _ _))
          ha) hr

/-- C12: for every sequence of `FsMapSpiFlashRead`, `FsMapSpiFlashWrite` and
`FsMapSpiFlashFlush` calls from `FsMapSpiFlashCreate` whose logical sector
numbers stay below `LOGICAL_DISK_BLOCKS`, with any bus resets, every flash
operation logged since then (an `EeProgram4K` call, an erase or a page program
command) covers only sectors in `[32, 4096)`, and the flash words of sectors
`0..31` keep their content. -/
theorem reserved_sectors_never_modified (s0 : State) (hwt0 : WellTyped s0)
    (calls : List Call) (hwt : ∀ c ∈ calls, c.wellTyped) (hin : ∀ c ∈ calls, c.inRange)
    (s : State) (hr : run calls (FsMapSpiFlashCreate s0) = some s) :
    (∀ e ∈ s.log, e ∈ s0.log ∨ opInRange e) ∧
    (∀ w, w < 256 * RESERVED_BLOCKS → s.flash w = s0.flash w) ∧
    ∀ i, i < CACHE_BLOCKS → slotPresent s.blockPresent i = true →
      RESERVED_BLOCKS ≤ s.blockAddress i ∧ s.blockAddress i < CHIP_TOTAL_BLOCKS := by
  have h0 : RangeInv s0 (FsMapSpiFlashCreate s0) :=
    { addr := fun i _ hp => by
        have : slotPresent 0 i = true := hp
        rw [slotPresent_zero] at this
        exact absurd this (by simp)
      boot := fun _ _ => rfl
      log := fun e he => Or.inl he }
  have h := RangeInv_run calls hwt hin (CacheInv_create hwt0) h0 hr
  exact ⟨h.log, h.boot, h.addr⟩

theorem twoWrites_inRange : ∀ c ∈ twoWrites, c.inRange := by
  intro c hc
  simp only [twoWrites, List.mem_cons, List.mem_singleton, List.not_mem_nil, or_false] at hc
  rcases hc with rfl | rfl
  · show 0 + 1 ≤ LOGICAL_DISK_BLOCKS
    decide
  · show 8 + 1 ≤ LOGICAL_DISK_BLOCKS
    decide

set_option maxRecDepth 100000 in
theorem reserved_sectors_never_modified_witness :
    slotPresent twoSlotState.blockPresent 1 = true ∧
      RESERVED_BLOCKS ≤ twoSlotState.blockAddress 1 ∧
      twoSlotState.blockAddress 1 < CHIP_TOTAL_BLOCKS :=
  ⟨by decide,
    (reserved_sectors_never_modified (powerUp (fun _ => 0) []) (powerUp_wellTyped _ _) twoWrites
      twoWrites_wellTyped twoWrites_inRange twoSlotState (eq_some_getD _ (by decide))).2.2 1
      (by decide) (by decide)⟩

/-! ## Eight ascending writes of one erase unit -/

theorem findFree_first {bp k i j : Nat} (h1 : i ≤ j) (h2 : j < i + k)
    (hp : ∀ t, i ≤ t → t < j → slotPresent bp t = true) (ha : slotPresent bp j = false) :
    findFree bp k i = some j := by
  induction k generalizing i with
  | zero => omega
  | succ k ih =>
    rw [findFree]
    by_cases hij : i = j
    · subst hij
      rw [ha]
      rfl
    · rw [hp i (Nat.le_refl _) (by omega)]
      exact ih (by omega) (by omega) (fun t ht1 ht2 => hp t (by omega) ht2)

theorem findFrom_eq_none {bp : Nat} {addr : Nat → Nat} {b k i : Nat}
    (h : ∀ t, i ≤ t → t < i + k → ¬ (slotPresent bp t = true ∧ addr t = b)) :
    findFrom bp addr b k i = none := by
  induction k generalizing i with
  | zero => rfl
  | succ k ih =>
    rw [findFrom]
    have hi := h i (Nat.le_refl _) (by omega)
    have e : (slotPresent bp i && addr i == b) = false := by
      simpa [Bool.and_eq_true] using hi
    rw [e]
    exact ih (fun t h1 h2 => h t (by omega) (by omega))

theorem EeCompareBlock_congr (s t : State) (h : t.flash = s.flash) (b : Nat) (data : Nat → Nat)
    (off : Nat) : EeCompareBlock t b data off = EeCompareBlock s b data off := by
  unfold EeCompareBlock
  rw [h]

theorem thenWrite_some (s : State) (A : Nat) (data : Nat → Nat) :
    thenWrite (some s) A data = (FsMapSpiFlashWrite s A 1 data).map Prod.snd := rfl

theorem ascending_prefix (s : State) (hidle : s.shouldFlush = 0) (hempty : s.blockPresent = 0)
    (A : Nat) (hA : A + 8 ≤ LOGICAL_DISK_BLOCKS) (halign : (A + RESERVED_BLOCKS) % 8 = 0)
    (d : Nat → Nat → Nat)
    (hdiff : ∀ k, k < 8 → EeCompareBlock s (A + RESERVED_BLOCKS + k) (d k) 0 ≠ 0)
    (hstale : s.blockAddress 7 ≠ A + RESERVED_BLOCKS + 7) (j : Nat) (hj : j ≤ 7) :
    ∃ t, writeRun s A d j = some t ∧ t.shouldFlush = 0 ∧
      (∀ i, i < 16 → slotPresent t.blockPresent i = decide (i < j)) ∧
      t.blockPresent < 65536 ∧
      (∀ i, i < j → t.blockAddress i = A + RESERVED_BLOCKS + i) ∧
      (∀ i, j ≤ i → t.blockAddress i = s.blockAddress i) ∧
      t.flash = s.flash ∧ t.resets = s.resets ∧ t.log = s.log := by
  have hA2 : A + 8 ≤ 4064 := hA
  have hal : (A + 32) % 8 = 0 := halign
  induction j with
  | zero =>
    refine ⟨s, rfl, hidle, ?_, by rw [hempty]; decide, fun i hi => by omega, fun _ _ => rfl,
      rfl, rfl, rfl⟩
    intro i _
    rw [hempty, slotPresent_zero]
    simp
  | succ j ih =>
    obtain ⟨t, hrun, hflag, hbits, hlt, haddr, hrest, hflash, hresets, hlog⟩ := ih (by omega)
    rw [writeRun, hrun, thenWrite_some,
      FsMapSpiFlashWrite_one t (A + j) (d j) hflag (by show A + j < 4064; omega)]
    have hcmp : EeCompareBlock t (A + j + RESERVED_BLOCKS) (d j) 0 ≠ 0 := by
      rw [EeCompareBlock_congr s t hflash]
      have := hdiff j (by omega)
      rw [show A + j + RESERVED_BLOCKS = A + RESERVED_BLOCKS + j by omega]
      exact this
    rw [if_pos hcmp]
    have hcs : cachedSlot t (A + j + RESERVED_BLOCKS) = none := by
      unfold cachedSlot
      apply findFrom_eq_none
      intro i _ hi ⟨hp, ha⟩
      have hi16 : i < 16 := hi
      rw [hbits i hi16] at hp
      have hij : i < j := by simpa using hp
      rw [haddr i hij] at ha
      omega
    have hff : findFree t.blockPresent CACHE_BLOCKS 0 = some j := by
      apply findFree_first (Nat.zero_le _) (by show j < 0 + 16; omega)
      · intro i _ hi
        rw [hbits i (by omega)]
        simpa using hi
      · rw [hbits j (by omega)]
        simp
    rw [cacheSector_alloc t _ (d j) 0 j hcs hff]
    simp only [Option.map_some']
    rw [WriteContinuous4K_eq]
    have hrun0 : findRun
        ({ t with
          lastFoundBlock := -1
          blockPresent := t.blockPresent ||| ((1 <<< j) % 65536)
          blockAddress := setWord t.blockAddress j (A + j + RESERVED_BLOCKS)
          mallocAreaY := memcpy t.mallocAreaY (256 * j) (d j) 0 256 } : State).blockPresent
        ({ t with
          lastFoundBlock := -1
          blockPresent := t.blockPresent ||| ((1 <<< j) % 65536)
          blockAddress := setWord t.blockAddress j (A + j + RESERVED_BLOCKS)
          mallocAreaY := memcpy t.mallocAreaY (256 * j) (d j) 0 256 } : State).blockAddress
        (CACHE_BLOCKS - 7) 0 = none := by
      apply findRun_none
      intro i _ hi
      have hi9 : i < 9 := hi
      dsimp only
      by_cases hij : i ≤ j
      · by_cases hi0 : i = 0
        · right; right
          refine ⟨7, by omega, by omega, ?_⟩
          subst hi0
          unfold setWord
          rw [if_neg (by omega), hrest 7 (by omega)]
          by_cases hj0 : j = 0
          · rw [if_pos (by omega)]
            rw [Nat.mod_eq_of_lt (by unfold RESERVED_BLOCKS; omega)]
            unfold RESERVED_BLOCKS at hstale ⊢
            omega
          · rw [if_neg (by omega), haddr 0 (by omega)]
            rw [Nat.mod_eq_of_lt (by unfold RESERVED_BLOCKS; omega)]
            unfold RESERVED_BLOCKS at hstale ⊢
            omega
        · right; left
          unfold setWord
          by_cases hij2 : i = j
          · rw [if_pos hij2]
            unfold RESERVED_BLOCKS
            omega
          · rw [if_neg hij2, haddr i (by omega)]
            unfold RESERVED_BLOCKS
            omega
      · left
        rw [slotPresent_setSlot _ _ _ (by omega) (by omega), hbits i (by omega)]
        have h1 : ¬ (i < j) := by omega
        have h2 : ¬ (j = i) := by omega
        simp [h1, h2]
    rw [hrun0]
    refine ⟨_, rfl, hflag, ?_, ?_, ?_, ?_, hflash, hresets, hlog⟩
    · intro i hi
      dsimp only
      rw [slotPresent_setSlot _ _ _ (by omega) hi, hbits i hi]
      by_cases h1 : i < j
      · have : i < j + 1 := by omega
        simp [h1, this]
      · by_cases h2 : j = i
        · have : i < j + 1 := by omega
          simp [h2, this]
        · have : ¬ (i < j + 1) := by omega
          simp [h1, h2, this]
    · exact Nat.or_lt_two_pow (n := 16) (by simpa using hlt) (Nat.mod_lt _ (by decide))
    · intro i hi
      dsimp only
      unfold setWord
      by_cases hij : i = j
      · rw [if_pos hij, hij]
        omega
      · rw [if_neg hij]
        exact haddr i (by omega)
    · intro i hi
      dsimp only
      unfold setWord
      rw [if_neg (by omega)]
      exact hrest i (by omega)

theorem findRun_first {bp : Nat} {addr : Nat → Nat} {n : Nat}
    (hp : slotPresent bp 0 = true) (ha : addr 0 % 8 = 0)
    (hc : ∀ t, 1 ≤ t → t < 8 → addr (0 + t) = (addr 0 + t) % 65536) :
    findRun bp addr (n + 1) 0 = some 0 := by
  rw [findRun, if_pos]
  simp only [Bool.and_eq_true, beq_iff_eq]
  refine ⟨⟨hp, ?_⟩, continuousFrom_of_all (fun t h1 h2 => hc t h1 (by omega))⟩
  rw [and_seven]
  exact ha

/-- C11, as the claim states it, fails: from `FsMapSpiFlashCreate`, with no
abort and payloads that differ from flash, the eight sectors of the aligned
unit 8..15 written in the order 9, 8, 10, 11, ..., 15 leave 8 slots present
and `EeProgram4K` is not called: the write combiner only recognises the unit in
slots holding it in ascending order. -/
theorem out_of_order_unit_is_not_combined :
    ([9, 8, 10, 11, 12, 13, 14, 15].foldl (fun o a => thenWrite o a (fun _ => 5))
      (some (FsMapSpiFlashCreate (powerUp (fun _ => 0) [])))).map
      (fun s => (s.blockPresent, programCalls s.log, s.shouldFlush, resetCount s.log)) =
      some (255, 0, 0, 0) := by
  decide!

/-- C11, amended: from an empty cache in idle state, with no bus reset, when
the eight sectors `A .. A+7` of one aligned erase unit are written one by one
in ascending order with payloads that differ from flash, and slot 7 does not
already hold the stale address of the last sector (as is the case after
power-up), then nothing is programmed during the first seven writes, and once
the eighth sector is cached `WriteContinuous4K` commits the unit:
`EeProgram4K` has been called exactly once, for that unit,
`EeRead4KSectorYToWorkspace` not at all, nothing was aborted and all slots are
released. -/
theorem ascending_unit_is_combined (s : State) (hidle : s.shouldFlush = 0)
    (hempty : s.blockPresent = 0) (hno : NoReset s) (A : Nat)
    (hA : A + 8 ≤ LOGICAL_DISK_BLOCKS) (halign : (A + RESERVED_BLOCKS) % 8 = 0)
    (d : Nat → Nat → Nat)
    (hdiff : ∀ k, k < 8 → EeCompareBlock s (A + RESERVED_BLOCKS + k) (d k) 0 ≠ 0)
    (hstale : s.blockAddress 7 ≠ A + RESERVED_BLOCKS + 7) :
    (∃ s7, writeRun s A d 7 = some s7 ∧ programCalls s7.log = programCalls s.log ∧
      presentCount s7.blockPresent = 7) ∧
    ∃ s8, writeRun s A d 8 = some s8 ∧ s8.blockPresent = 0 ∧
      programCalls s8.log = programCalls s.log + 1 ∧
      lastProgram s8.log = some (A + RESERVED_BLOCKS) ∧
      readCalls s8.log = readCalls s.log ∧ resetCount s8.log = resetCount s.log := by
  have hA2 : A + 8 ≤ 4064 := hA
  have hal : (A + 32) % 8 = 0 := halign
  obtain ⟨t, hrun, hflag, hbits, hlt, haddr, hrest, hflash, hresets, hlog⟩ :=
    ascending_prefix s hidle hempty A hA halign d hdiff hstale 7 (Nat.le_refl _)
  constructor
  · refine ⟨t, hrun, by rw [hlog], ?_⟩
    unfold presentCount
    have : (List.range CACHE_BLOCKS).filter (fun i => slotPresent t.blockPresent i) =
        (List.range CACHE_BLOCKS).filter (fun i => decide (i < 7)) := by
      apply List.filter_congr
      intro i hi
      exact hbits i (by simpa [CACHE_BLOCKS] using hi)
    rw [this]
    decide
  · rw [writeRun, hrun, thenWrite_some,
      FsMapSpiFlashWrite_one t (A + 7) (d 7) hflag (by show A + 7 < 4064; omega)]
    have hcmp : EeCompareBlock t (A + 7 + RESERVED_BLOCKS) (d 7) 0 ≠ 0 := by
      rw [EeCompareBlock_congr s t hflash]
      have := hdiff 7 (by omega)
      rw [show A + 7 + RESERVED_BLOCKS = A + RESERVED_BLOCKS + 7 by omega]
      exact this
    rw [if_pos hcmp]
    have hcs : cachedSlot t (A + 7 + RESERVED_BLOCKS) = none := by
      unfold cachedSlot
      apply findFrom_eq_none
      intro i _ hi ⟨hp, ha⟩
      have hi16 : i < 16 := hi
      rw [hbits i hi16] at hp
      have hij : i < 7 := by simpa using hp
      rw [haddr i hij] at ha
      omega
    have hff : findFree t.blockPresent CACHE_BLOCKS 0 = some 7 := by
      apply findFree_first (Nat.zero_le _) (by show 7 < 0 + 16; omega)
      · intro i _ hi
        rw [hbits i (by omega)]
        simpa using hi
      · rw [hbits 7 (by omega)]
        simp
    rw [cacheSector_alloc t _ (d 7) 0 7 hcs hff]
    simp only [Option.map_some']
    rw [WriteContinuous4K_eq]
    have hbits4 : ∀ i, i < 16 →
        slotPresent (t.blockPresent ||| ((1 <<< 7) % 65536)) i = decide (i < 8) := by
      intro i hi
      rw [slotPresent_setSlot _ _ _ (by omega) hi, hbits i hi]
      by_cases h1 : i < 7
      · have : i < 8 := by omega
        simp [h1, this]
      · by_cases h2 : 7 = i
        · have : i < 8 := by omega
          simp [h2, this]
        · have : ¬ (i < 8) := by omega
          simp [h1, h2, this]
    have haddr4 : ∀ i, i < 8 →
        setWord t.blockAddress 7 (A + 7 + RESERVED_BLOCKS) i = A + RESERVED_BLOCKS + i := by
      intro i hi
      unfold setWord
      by_cases hi7 : i = 7
      · rw [if_pos hi7, hi7]
        omega
      · rw [if_neg hi7]
        exact haddr i (by omega)
    have hrun0 : findRun
        ({ t with
          lastFoundBlock := -1
          blockPresent := t.blockPresent ||| ((1 <<< 7) % 65536)
          blockAddress := setWord t.blockAddress 7 (A + 7 + RESERVED_BLOCKS)
          mallocAreaY := memcpy t.mallocAreaY (256 * 7) (d 7) 0 256 } : State).blockPresent
        ({ t with
          lastFoundBlock := -1
          blockPresent := t.blockPresent ||| ((1 <<< 7) % 65536)
          blockAddress := setWord t.blockAddress 7 (A + 7 + RESERVED_BLOCKS)
          mallocAreaY := memcpy t.mallocAreaY (256 * 7) (d 7) 0 256 } : State).blockAddress
        (CACHE_BLOCKS - 7) 0 = some 0 := by
      apply findRun_first
      · dsimp only
        rw [hbits4 0 (by omega)]
        rfl
      · dsimp only
        rw [haddr4 0 (by omega)]
        unfold RESERVED_BLOCKS
        omega
      · intro k hk1 hk2
        dsimp only
        rw [haddr4 (0 + k) (by omega), haddr4 0 (by omega),
          Nat.mod_eq_of_lt (by unfold RESERVED_BLOCKS; omega)]
        omega
    rw [hrun0]
    dsimp only
    rw [haddr4 0 (by omega)]
    obtain ⟨e1, e2, _⟩ := EeProgram4K_log
      ({ t with
        lastFoundBlock := -1
        blockPresent := t.blockPresent ||| ((1 <<< 7) % 65536)
        blockAddress := setWord t.blockAddress 7 (A + 7 + RESERVED_BLOCKS)
        mallocAreaY := memcpy t.mallocAreaY (256 * 7) (d 7) 0 256 } : State)
      (A + RESERVED_BLOCKS + 0) (256 * 0)
    obtain ⟨res, F, R, L, hp, _, _, _, _, hres, hl, hpc, hrc⟩ := EeProgram4K_spec
      ({ t with
        lastFoundBlock := -1
        blockPresent := t.blockPresent ||| ((1 <<< 7) % 65536)
        blockAddress := setWord t.blockAddress 7 (A + 7 + RESERVED_BLOCKS)
        mallocAreaY := memcpy t.mallocAreaY (256 * 7) (d 7) 0 256 } : State)
      (A + RESERVED_BLOCKS + 0) (256 * 0) (by unfold RESERVED_BLOCKS; omega)
      (by unfold RESERVED_BLOCKS; omega)
    have hres0 : res = 0 := hres (by
      intro r hr
      have hr2 : r ∈ t.resets := hr
      rw [hresets] at hr2
      exact hno r hr2)
    rw [hp] at e2 ⊢
    dsimp only at e2 hpc hrc ⊢
    subst hres0
    rw [if_pos (by decide)]
    refine ⟨_, rfl, ?_, ?_, ?_, ?_, ?_⟩
    · apply eq_zero_of_no_slot _ (releaseFrom_lt _ _ _ _
        (Nat.or_lt_two_pow (n := 16) (by simpa using hlt) (Nat.mod_lt _ (by decide))))
      intro i hi
      rw [slotPresent_releaseFrom _ _ _ _ _ (by omega) hi, hbits4 i hi]
      by_cases h8 : i < 8
      · have : 0 + 0 ≤ i ∧ i < 0 + 0 + 8 := by omega
        simp [h8, this]
      · simp [h8]
    · dsimp only
      rw [hpc, hlog]
    · dsimp only
      rw [hl]
      rfl
    · dsimp only
      rw [e2, hlog]
    · dsimp only
      rw [hrc, hlog]
      simp

set_option maxRecDepth 100000 in
theorem ascending_unit_is_combined_witness :
    (writeRun (FsMapSpiFlashCreate (powerUp (fun _ => 0) [])) 8 (fun _ _ => 5) 8).map
      (fun s => s.blockPresent) = some 0 := by
  obtain ⟨_, s8, h8, hbp, _⟩ := ascending_unit_is_combined
    (FsMapSpiFlashCreate (powerUp (fun _ => 0) [])) rfl rfl
    (fun r hr => absurd hr (List.not_mem_nil r)) 8 (by decide) (by decide) (fun _ _ => 5)
    (fun k hk => by interval_cases k <;> decide) (by decide)
  rw [h8, Option.map_some', hbp]

/-! ## Writes to ascending addresses -/

theorem WriteContinuous4K_ascending (s : State) (bound : Nat) (h : AscInv s bound) :
    AscInv (WriteContinuous4K s).2 bound ∧
    ∀ A w, w < 256 → logicalWord (WriteContinuous4K s).2 A w = logicalWord s A w := by
  have hinv5 := CacheInv_WriteContinuous4K h.inv
  cases hr : findRun s.blockPresent s.blockAddress (CACHE_BLOCKS - 7) 0 with
  | none =>
    have hs : (WriteContinuous4K s).2 = s := by rw [WriteContinuous4K_eq, hr]
    rw [hs]
    exact ⟨h, fun _ _ _ => rfl⟩
  | some m =>
    obtain ⟨_, hm, hpm, ha, hcont⟩ := findRun_some hr
    have hm9 : m < 9 := by
      have : m < 0 + (16 - 7) := hm
      omega
    have ha16 : s.blockAddress m < 65536 := h.inv.wellTyped.2.1 m (by show m < 16; omega)
    have hall : ∀ k, k < 8 → s.blockAddress (m + k) = s.blockAddress m + k := by
      intro k hk
      by_cases hk0 : k = 0
      · subst hk0; rfl
      · rw [hcont k (by omega) hk, Nat.mod_eq_of_lt (by omega)]
    have hpres : ∀ k, k < 8 → slotPresent s.blockPresent (m + k) = true := by
      intro k hk
      by_cases hk0 : k = 0
      · subst hk0; exact hpm
      · cases hq : slotPresent s.blockPresent (m + k) with
        | true => rfl
        | false =>
          exfalso
          apply h.stale m (m + k) (by omega) (by omega) hpm hq
          rw [hall k hk]
          omega
    obtain ⟨res, F, R, L, hp, _, hFout, hFin, hR, hno, _⟩ :=
      EeProgram4K_spec s (s.blockAddress m) (256 * m) ha ha16
    have hres0 : res = 0 := hno h.noReset
    subst hres0
    have hs5 : (WriteContinuous4K s).2 =
        { s with flash := F, resets := R, log := L
                 blockPresent := releaseFrom m 8 0 s.blockPresent } := by
      rw [WriteContinuous4K_eq, hr]
      dsimp only
      rw [hp]
      simp
    rw [hs5] at hinv5 ⊢
    have hbits5 : ∀ t, t < 16 → (slotPresent (releaseFrom m 8 0 s.blockPresent) t = true ↔
        slotPresent s.blockPresent t = true ∧ ¬ (m ≤ t ∧ t < m + 8)) := by
      intro t ht
      rw [slotPresent_releaseFrom _ _ _ _ _ (by omega) ht]
      simp only [Bool.and_eq_true, Bool.not_eq_true', decide_eq_false_iff_not, Nat.add_zero]
    -- a present slot outside the run holds no address of the unit
    have hother : ∀ t, t < 16 → slotPresent s.blockPresent t = true → ¬ (m ≤ t ∧ t < m + 8) →
        s.blockAddress t / 8 ≠ s.blockAddress m / 8 := by
      intro t ht hpt hnot hu
      have hk : s.blockAddress t - s.blockAddress m < 8 := by omega
      have he : s.blockAddress t = s.blockAddress (m + (s.blockAddress t - s.blockAddress m)) := by
        rw [hall _ hk]
        omega
      have := h.inv.distinct t (m + (s.blockAddress t - s.blockAddress m)) ht
        (by show m + _ < 16; omega) hpt (hpres _ hk) he
      omega
    constructor
    · exact {
        inv := hinv5
        idle := h.idle
        noReset := fun r hr => h.noReset r (hR r hr)
        below := h.below
        stale := by
          intro i j hi hj hpi hpj
          dsimp only at hpi hpj ⊢
          have hpi2 := (hbits5 i hi).1 hpi
          cases hq : slotPresent s.blockPresent j with
          | false => exact h.stale i j hi hj hpi2.1 hq
          | true =>
            have hjr : m ≤ j ∧ j < m + 8 := by
              by_contra hn
              have := (hbits5 j hj).2 ⟨hq, hn⟩
              rw [this] at hpj
              exact absurd hpj (by simp)
            have hju : s.blockAddress j / 8 = s.blockAddress m / 8 := by
              have e : j = m + (j - m) := by omega
              rw [e, hall (j - m) (by omega)]
              omega
            intro hc
            exact hother i hi hpi2.1 hpi2.2 (by rw [hc.1, hju]) }
    · intro A w hw
      rw [logicalWord_eq, logicalWord_eq]
      by_cases hA : A / 8 = s.blockAddress m / 8
      · have hk : A - s.blockAddress m < 8 := by omega
        have hAk : s.blockAddress (m + (A - s.blockAddress m)) = A := by
          rw [hall _ hk]
          omega
        have hc4 : cachedSlot s A = some (m + (A - s.blockAddress m)) := by
          have := findFrom_of_distinct h.inv.distinct
            (by show m + (A - s.blockAddress m) < 16; omega) (hpres _ hk)
          rw [hAk] at this
          exact this
        have hc5 : cachedSlot
            { s with flash := F, resets := R, log := L
                     blockPresent := releaseFrom m 8 0 s.blockPresent } A = none := by
          unfold cachedSlot
          apply findFrom_eq_none
          intro t _ ht ⟨hpt, hat⟩
          have ht16 : t < 16 := ht
          have hpt2 := (hbits5 t ht16).1 hpt
          exact hother t ht16 hpt2.1 hpt2.2 (by
            have : s.blockAddress t = A := hat
            rw [this, hA])
        rw [hc4, hc5]
        dsimp only
        unfold flashWord
        rw [readWord_eq]
        dsimp only
        rw [hFin rfl _ (by omega), not16_not16 _ (h.inv.wellTyped.2.2 _)]
        congr 1
        omega
      · have hc5 : cachedSlot
            { s with flash := F, resets := R, log := L
                     blockPresent := releaseFrom m 8 0 s.blockPresent } A = cachedSlot s A := by
          unfold cachedSlot
          apply findFrom_congr
          intro t _ ht
          have ht16 : t < 16 := ht
          dsimp only
          rw [hbits5 t ht16]
          constructor
          · rintro ⟨⟨h1, _⟩, h2⟩
            exact ⟨h1, h2⟩
          · rintro ⟨h1, h2⟩
            refine ⟨⟨h1, fun hin => ?_⟩, h2⟩
            apply hA
            have e : t = m + (t - m) := by omega
            rw [← h2, e, hall (t - m) (by omega)]
            omega
        rw [hc5]
        cases hc : cachedSlot s A with
        | some t => rfl
        | none =>
          dsimp only
          unfold flashWord
          rw [readWord_eq, readWord_eq]
          dsimp only
          rw [hFout _ (by omega)]

theorem EeCompareBlockLoop_zero {flash : Nat → Nat} {blockn : Nat} {data : Nat → Nat}
    {dptr k n : Nat} (h : EeCompareBlockLoop flash blockn data dptr k n = 0) :
    ∀ w, n ≤ w → w < n + k → data (dptr + w) = not16 (readWord flash blockn w) := by
  induction k generalizing n with
  | zero => intro w h1 h2; omega
  | succ k ih =>
    rw [EeCompareBlockLoop] at h
    by_cases hc : data (dptr + n) ≠ not16 (readWord flash blockn n)
    · rw [if_pos hc] at h
      exact absurd h (by decide)
    · rw [if_neg hc] at h
      intro w h1 h2
      by_cases hw : w = n
      · subst hw
        exact not_not.mp hc
      · exact ih h w (by omega) (by omega)

theorem AscInv.not_cached {s : State} {bound : Nat} (h : AscInv s bound) {b : Nat}
    (hb : bound ≤ b) : cachedSlot s b = none := by
  unfold cachedSlot
  apply findFrom_eq_none
  intro t _ ht ⟨_, hat⟩
  have := h.below t (by show t < 16; exact (by simpa [CACHE_BLOCKS] using ht))
  omega

theorem AscInv.mono {s : State} {bound : Nat} (h : AscInv s bound) {c : Nat} (hc : bound ≤ c) :
    AscInv s c :=
  { inv := h.inv
    idle := h.idle
    noReset := h.noReset
    below := fun i hi => Nat.lt_of_lt_of_le (h.below i hi) hc
    stale := h.stale }

theorem alloc_ascending (s : State) (bound : Nat) (h : AscInv s bound) (b : Nat)
    (hb : bound ≤ b) (hb16 : b < 65536) (data : Nat → Nat) (hdata : ∀ x, data x < 65536)
    (off : Nat) (lf : Int) (m : Nat) (hf : findFree s.blockPresent CACHE_BLOCKS 0 = some m) :
    AscInv { s with lastFoundBlock := lf, blockPresent := s.blockPresent ||| ((1 <<< m) % 65536), blockAddress := setWord s.blockAddress m b, mallocAreaY := memcpy s.mallocAreaY (256 * m) data off 256 } (b + 1) ∧
    (∀ w, w < 256 → logicalWord { s with lastFoundBlock := lf, blockPresent := s.blockPresent ||| ((1 <<< m) % 65536), blockAddress := setWord s.blockAddress m b, mallocAreaY := memcpy s.mallocAreaY (256 * m) data off 256 } b w = data (off + w)) ∧
    ∀ A w, A ≠ b → w < 256 → logicalWord { s with lastFoundBlock := lf, blockPresent := s.blockPresent ||| ((1 <<< m) % 65536), blockAddress := setWord s.blockAddress m b, mallocAreaY := memcpy s.mallocAreaY (256 * m) data off 256 } A w = logicalWord s A w := by
  obtain ⟨_, hm, hmabs, _⟩ := findFree_some hf
  have hm16 : m < 16 := by
    have : m < 0 + 16 := hm
    omega
  have hnot : ∀ t, t < 16 → slotPresent s.blockPresent t = true → s.blockAddress t ≠ b := by
    intro t ht _
    have := h.below t ht
    omega
  have hinv := CacheInv_alloc h.inv b hb16 data hdata off lf m hnot hf
  have hbits : ∀ t, t < 16 → (slotPresent (s.blockPresent ||| ((1 <<< m) % 65536)) t = true ↔
      slotPresent s.blockPresent t = true ∨ m = t) := by
    intro t ht
    rw [slotPresent_setSlot _ _ _ hm16 ht]
    simp only [Bool.or_eq_true, decide_eq_true_eq]
  refine ⟨?_, ?_, ?_⟩
  · exact {
      inv := hinv
      idle := h.idle
      noReset := h.noReset
      below := by
        intro i hi
        show setWord s.blockAddress m b i < b + 1
        unfold setWord
        by_cases him : i = m
        · rw [if_pos him]; omega
        · rw [if_neg him]
          have := h.below i hi
          omega
      stale := by
        intro i j hi hj hpi hpj
        dsimp only at hpi hpj ⊢
        have hjm : j ≠ m := by
          intro e
          have := (hbits j hj).2 (Or.inr e.symm)
          rw [this] at hpj
          exact absurd hpj (by simp)
        have hpj2 : slotPresent s.blockPresent j = false := by
          cases hq : slotPresent s.blockPresent j with
          | false => rfl
          | true =>
            have := (hbits j hj).2 (Or.inl hq)
            rw [this] at hpj
            exact absurd hpj (by simp)
        unfold setWord
        rw [if_neg hjm]
        by_cases him : i = m
        · rw [if_pos him]
          have := h.below j hj
          omega
        · rw [if_neg him]
          rcases (hbits i hi).1 hpi with hq | hq
          · exact h.stale i j hi hj hq hpj2
          · exact absurd hq.symm him }
  · intro w hw
    rw [logicalWord_eq]
    have hc : cachedSlot { s with lastFoundBlock := lf, blockPresent := s.blockPresent ||| ((1 <<< m) % 65536), blockAddress := setWord s.blockAddress m b, mallocAreaY := memcpy s.mallocAreaY (256 * m) data off 256 } b = some m := by
      have := findFrom_of_distinct hinv.distinct (by show m < 16; exact hm16)
        ((hbits m hm16).2 (Or.inr rfl))
      dsimp only at this
      have e : setWord s.blockAddress m b m = b := by simp [setWord]
      rw [e] at this
      exact this
    rw [hc]
    dsimp only
    rw [memcpy_apply, if_pos (by omega)]
    congr 1
    omega
  · intro A w hA hw
    rw [logicalWord_eq, logicalWord_eq]
    have hc : cachedSlot { s with lastFoundBlock := lf, blockPresent := s.blockPresent ||| ((1 <<< m) % 65536), blockAddress := setWord s.blockAddress m b, mallocAreaY := memcpy s.mallocAreaY (256 * m) data off 256 } A = cachedSlot s A := by
      unfold cachedSlot
      apply findFrom_congr
      intro t _ ht
      have ht16 : t < 16 := ht
      dsimp only
      rw [hbits t ht16]
      unfold setWord
      by_cases htm : t = m
      · subst htm
        rw [if_pos rfl, hmabs]
        constructor
        · rintro ⟨_, h2⟩
          exact absurd h2.symm hA
        · rintro ⟨h1, _⟩
          exact absurd h1 (by simp)
      · rw [if_neg htm]
        constructor
        · rintro ⟨h1 | h1, h2⟩
          · exact ⟨h1, h2⟩
          · exact absurd h1.symm htm
        · rintro ⟨h1, h2⟩
          exact ⟨Or.inl h1, h2⟩
    rw [hc]
    cases hcs : cachedSlot s A with
    | none => rfl
    | some t =>
      dsimp only
      obtain ⟨_, ht, hpt, _, _⟩ := findFrom_some hcs
      have htm : t ≠ m := by
        intro e
        rw [e, hmabs] at hpt
        exact absurd hpt (by simp)
      rw [memcpy_apply, if_neg (by omega)]

theorem flush_ascending (s : State) (bound : Nat) (h : AscInv s bound) (lf : Int) :
    AscInv (FsMapSpiFlashFlush { s with lastFoundBlock := lf }) bound ∧
    (FsMapSpiFlashFlush { s with lastFoundBlock := lf }).blockPresent = 0 ∧
    ∀ A w, w < 256 →
      logicalWord (FsMapSpiFlashFlush { s with lastFoundBlock := lf }) A w = logicalWord s A w := by
  have hci : CacheInv { s with lastFoundBlock := lf } :=
    CacheInv_of_frame h.inv rfl rfl h.inv.wellTyped.2.2 h.inv.flag
  have P := FsMapSpiFlashFlush_presence { s with lastFoundBlock := lf } hci.wellTyped hci.flag
  have C := FsMapSpiFlashFlush_content { s with lastFoundBlock := lf } hci.wellTyped
    hci.distinct hci.flag
  have hflag := P.noReset h.noReset
  have hempty := P.empty hflag
  refine ⟨?_, eq_zero_of_no_slot _ P.wellTyped.1 hempty, ?_⟩
  · exact {
      inv := CacheInv_flush hci
      idle := hflag
      noReset := fun r hr => h.noReset r (P.resets r hr)
      below := by
        intro i hi
        rw [P.address]
        exact h.below i hi
      stale := by
        intro i j hi _ hpi
        rw [hempty i hi] at hpi
        exact absurd hpi (by simp) }
  · intro A w hw
    rw [C.kept hflag A w hw]
    exact logicalWord_congr s { s with lastFoundBlock := lf } rfl rfl rfl rfl A w

theorem cacheSector_ascending (s : State) (bound : Nat) (h : AscInv s bound) (b : Nat)
    (hb : bound ≤ b) (hb16 : b < 65536) (data : Nat → Nat) (hdata : ∀ x, data x < 65536)
    (off : Nat) :
    ∃ s4, cacheSector s b data off = some s4 ∧ AscInv s4 (b + 1) ∧
      (∀ w, w < 256 → logicalWord s4 b w = data (off + w)) ∧
      ∀ A w, A ≠ b → w < 256 → logicalWord s4 A w = logicalWord s A w := by
  have hnc := h.not_cached hb
  cases hf : findFree s.blockPresent CACHE_BLOCKS 0 with
  | some m =>
    rw [cacheSector_alloc s b data off m hnc hf]
    exact ⟨_, rfl, alloc_ascending s bound h b hb hb16 data hdata off (-1) m hf⟩
  | none =>
    obtain ⟨hasc, hbp, hlw⟩ := flush_ascending s bound h (-1)
    have hf0 : findFree (FsMapSpiFlashFlush { s with lastFoundBlock := -1 }).blockPresent
        CACHE_BLOCKS 0 = some 0 := by
      rw [hbp]
      exact findFree_of_absent (by decide) (slotPresent_zero 0)
    rw [cacheSector_full s b data off hnc hf, hf0]
    obtain ⟨h1, h2, h3⟩ := alloc_ascending _ bound hasc b hb hb16 data hdata off
      (FsMapSpiFlashFlush { s with lastFoundBlock := -1 }).lastFoundBlock 0 hf0
    refine ⟨_, rfl, h1, h2, ?_⟩
    intro A w hA hw
    rw [h3 A w hA hw, hlw A w hw]

theorem writeSector_ascending (s : State) (bound : Nat) (h : AscInv s bound) (b : Nat)
    (hb : bound ≤ b) (hb16 : b < 65536) (data : Nat → Nat) (hdata : ∀ x, data x < 65536)
    (off : Nat) :
    ∃ s2, writeSector s b data off = some s2 ∧ AscInv s2 (b + 1) ∧
      (∀ w, w < 256 → logicalWord s2 b w = data (off + w)) ∧
      ∀ A w, A ≠ b → w < 256 → logicalWord s2 A w = logicalWord s A w := by
  unfold writeSector
  by_cases hc : EeCompareBlock s b data off ≠ 0
  · rw [if_pos hc]
    obtain ⟨s4, hs4, hasc, hw4, hk4⟩ := cacheSector_ascending s bound h b hb hb16 data hdata off
    obtain ⟨hasc5, hlw5⟩ := WriteContinuous4K_ascending s4 (b + 1) hasc
    rw [hs4]
    refine ⟨_, rfl, hasc5, ?_, ?_⟩
    · intro w hw
      rw [hlw5 b w hw, hw4 w hw]
    · intro A w hA hw
      rw [hlw5 A w hw, hk4 A w hA hw]
  · rw [if_neg hc]
    refine ⟨s, rfl, h.mono (by omega), ?_, fun _ _ _ _ => rfl⟩
    intro w hw
    rw [logicalWord_eq, h.not_cached hb]
    dsimp only
    unfold flashWord
    exact (EeCompareBlockLoop_zero (not_not.mp hc) w (Nat.zero_le _) (by omega)).symm

theorem writeRun_ascending (s : State) (bound : Nat) (h : AscInv s bound) (A : Nat)
    (d : Nat → Nat → Nat) (hlow : bound ≤ A + RESERVED_BLOCKS)
    (n : Nat) (hd : ∀ k x, k < n → d k x < 65536) (hn : A + n ≤ LOGICAL_DISK_BLOCKS) :
    ∃ t, writeRun s A d n = some t ∧ AscInv t (max bound (A + RESERVED_BLOCKS + n)) ∧
      (∀ k w, k < n → w < 256 → logicalWord t (A + RESERVED_BLOCKS + k) w = d k w) ∧
      ∀ B w, B < A + RESERVED_BLOCKS → w < 256 → logicalWord t B w = logicalWord s B w := by
  induction n with
  | zero =>
    refine ⟨s, rfl, h.mono (Nat.le_max_left _ _), ?_, fun _ _ _ _ => rfl⟩
    intro k w hk
    omega
  | succ n ih =>
    obtain ⟨t, ht, hasc, hw, hk⟩ := ih (fun k x hk => hd k x (by omega)) (by omega)
    have hdisk : LOGICAL_DISK_BLOCKS + RESERVED_BLOCKS ≤ 65536 := by decide
    have hbnd : max bound (A + RESERVED_BLOCKS + n) = A + RESERVED_BLOCKS + n := by
      rw [Nat.max_eq_right]
      omega
    rw [hbnd] at hasc
    obtain ⟨s2, hs2, hasc2, hw2, hk2⟩ := writeSector_ascending t _ hasc
      (A + n + RESERVED_BLOCKS) (by omega) (by omega) (d n)
      (fun x => hd n x (by omega)) 0
    have hwr : writeRun s A d (n + 1) = some s2 := by
      rw [writeRun, ht, thenWrite_some,
        FsMapSpiFlashWrite_one t (A + n) (d n) hasc.idle (by omega)]
      unfold writeSector at hs2
      by_cases hc : EeCompareBlock t (A + n + RESERVED_BLOCKS) (d n) 0 ≠ 0
      · rw [if_pos hc] at hs2 ⊢
        cases hcs : cacheSector t (A + n + RESERVED_BLOCKS) (d n) 0 with
        | none => rw [hcs] at hs2; exact absurd hs2 (by simp)
        | some s4 =>
          rw [hcs] at hs2
          exact hs2
      · rw [if_neg hc] at hs2 ⊢
        exact hs2
    refine ⟨s2, hwr, ?_, ?_, ?_⟩
    · have e : max bound (A + RESERVED_BLOCKS + (n + 1)) = A + n + RESERVED_BLOCKS + 1 := by
        rw [Nat.max_eq_right]
        · omega
        · omega
      rw [e]
      exact hasc2
    · intro k w hkn hw256
      by_cases hkeq : k = n
      · subst hkeq
        have e : A + RESERVED_BLOCKS + k = A + k + RESERVED_BLOCKS := by omega
        rw [e, hw2 w hw256, Nat.zero_add]
      · rw [hk2 _ w (by omega) hw256]
        exact hw k w (by omega) hw256
    · intro B w hB hw256
      rw [hk2 B w (by omega) hw256]
      exact hk B w hB hw256

theorem AscInv_create (flash : Nat → Nat) (resets : List Bool)
    (hno : ∀ r ∈ resets, r = false) :
    AscInv (FsMapSpiFlashCreate (powerUp flash resets)) 1 :=
  { inv := CacheInv_create (powerUp_wellTyped flash resets)
    idle := rfl
    noReset := hno
    below := fun _ _ => Nat.zero_lt_one
    stale := by
      intro i j _ _ hpi
      have : slotPresent 0 i = true := hpi
      rw [slotPresent_zero] at this
      exact absurd this (by simp) }

/-- C20: from a freshly created mapper at power-up (empty cache, idle flag,
slot addresses zero), for any flash contents and with no bus reset, the
single-sector writes of logical sectors 1000, 1001, ..., 1016 with any 16-bit
payloads `d 0 .. d 16` all return, and afterwards each single-sector
`FsMapSpiFlashRead` of sector `1000 + k` returns 1 and delivers exactly the
words of `d k`, and the one 17-sector read of `1000 .. 1016` returns 17 and
delivers the 17 payloads in order. -/
theorem capacity_scenario_reads_back (flash : Nat → Nat) (resets : List Bool)
    (d : Nat → Nat → Nat) (buf : Nat → Nat)
    (hno : ∀ r ∈ resets, r = false) (hd : ∀ k x, k < 17 → d k x < 65536) :
    ∃ t, writeRun (FsMapSpiFlashCreate (powerUp flash resets)) 1000 d 17 = some t ∧
      (∀ k w, k < 17 → w < 256 →
        (FsMapSpiFlashRead t (1000 + k) 1 buf).1 = 1 ∧
        (FsMapSpiFlashRead t (1000 + k) 1 buf).2.2 w = d k w) ∧
      (FsMapSpiFlashRead t 1000 17 buf).1 = 17 ∧
      ∀ k w, k < 17 → w < 256 →
        (FsMapSpiFlashRead t 1000 17 buf).2.2 (256 * k + w) = d k w := by
  obtain ⟨t, ht, hasc, hw, _⟩ := writeRun_ascending _ 1 (AscInv_create flash resets hno) 1000 d
    (by decide) 17 hd (by decide)
  refine ⟨t, ht, ?_, ?_, ?_⟩
  · intro k w hk hw256
    obtain ⟨_, _, hret, hout⟩ := FsMapSpiFlashRead_idle t (1000 + k) 1 buf hasc.idle
      (by unfold LOGICAL_DISK_BLOCKS CHIP_TOTAL_BLOCKS RESERVED_BLOCKS; omega)
    refine ⟨hret, ?_⟩
    rw [hout w, if_pos (by omega)]
    have e1 : w / 256 = 0 := by omega
    have e2 : w % 256 = w := by omega
    have e3 : 1000 + k + RESERVED_BLOCKS + 0 = 1000 + RESERVED_BLOCKS + k := by omega
    rw [e1, e2, e3]
    exact hw k w hk hw256
  · obtain ⟨_, _, hret, _⟩ := FsMapSpiFlashRead_idle t 1000 17 buf hasc.idle (by decide)
    exact hret
  · intro k w hk hw256
    obtain ⟨_, _, _, hout⟩ := FsMapSpiFlashRead_idle t 1000 17 buf hasc.idle (by decide)
    rw [hout (256 * k + w), if_pos (by omega)]
    have e1 : (256 * k + w) / 256 = k := by omega
    have e2 : (256 * k + w) % 256 = w := by omega
    rw [e1, e2]
    exact hw k w hk hw256

theorem capacity_scenario_reads_back_witness :
    ∃ t, writeRun (FsMapSpiFlashCreate (powerUp (fun _ => 0) [])) 1000
        (fun k _ => k + 1) 17 = some t ∧
      (∀ k w, k < 17 → w < 256 →
        (FsMapSpiFlashRead t (1000 + k) 1 (fun _ => 0)).1 = 1 ∧
        (FsMapSpiFlashRead t (1000 + k) 1 (fun _ => 0)).2.2 w = k + 1) ∧
      (FsMapSpiFlashRead t 1000 17 (fun _ => 0)).1 = 17 ∧
      ∀ k w, k < 17 → w < 256 →
        (FsMapSpiFlashRead t 1000 17 (fun _ => 0)).2.2 (256 * k + w) = k + 1 :=
  capacity_scenario_reads_back (fun _ => 0) [] (fun k _ => k + 1) (fun _ => 0)
    (by simp) (by intro k x hk; show k + 1 < 65536; omega)

/-! ## The address bytes of the chip commands -/

theorem EeProgram4KLoop_log_mem (k blockn dptr : Nat) (s : State) (op : FlashOp)
    (h : op ∈ s.log) : op ∈ (EeProgram4KLoop k blockn dptr s).2.log := by
  induction k generalizing blockn dptr s with
  | zero => exact h
  | succ k ih =>
    rw [EeProgram4KLoop]
    simp only [SpiWaitStatus_fst, SpiWaitStatus_snd]
    by_cases h1 : s.resets.headD false = true
    · rw [if_pos h1]
      exact List.mem_cons_of_mem _ (List.mem_cons_of_mem _ h)
    · rw [if_neg h1]
      by_cases h2 : s.resets.tail.headD false = true
      · rw [if_pos h2]
        exact List.mem_cons_of_mem _ (List.mem_cons_of_mem _ (List.mem_cons_of_mem _ h))
      · rw [if_neg h2]
        apply ih
        exact List.mem_cons_of_mem _ (List.mem_cons_of_mem _ h)

theorem EeProgram4KLoop_pages (k blockn dptr : Nat) (s : State) (hno : NoReset s) :
    FlashOp.page (EePutReadBlockAddress blockn).1 (EePutReadBlockAddress blockn).2.1
        (EePutReadBlockAddress blockn).2.2 ∈ (EeProgram4KLoop (k + 1) blockn dptr s).2.log ∧
    FlashOp.page (secondPageAddress blockn).1 (secondPageAddress blockn).2.1
        (secondPageAddress blockn).2.2 ∈ (EeProgram4KLoop (k + 1) blockn dptr s).2.log := by
  rw [EeProgram4KLoop]
  simp only [SpiWaitStatus_fst, SpiWaitStatus_snd]
  have h1 : ¬ s.resets.headD false = true := fun h =>
    absurd (hno true (headD_true_mem h)) (by simp)
  have h2 : ¬ s.resets.tail.headD false = true := fun h =>
    absurd (hno true (List.mem_of_mem_tail (headD_true_mem h))) (by simp)
  rw [if_neg h1, if_neg h2]
  constructor
  · apply EeProgram4KLoop_log_mem
    exact List.mem_cons_of_mem _ (List.mem_cons_self _ _)
  · apply EeProgram4KLoop_log_mem
    exact List.mem_cons_self _ _

theorem EeProgram4K_erase_mem (s : State) (blockn dptr : Nat)
    (he : EeIsBlockErased s blockn = 0) :
    FlashOp.erase (EePutReadBlockAddress blockn).1 (EePutReadBlockAddress blockn).2.1
      (EePutReadBlockAddress blockn).2.2 ∈ (EeProgram4K s blockn dptr).2.log := by
  unfold EeProgram4K
  dsimp only
  have hE : EeIsBlockErased { s with log := FlashOp.program4K blockn dptr :: s.log } blockn =
      EeIsBlockErased s blockn := rfl
  rw [hE]
  simp only [he, if_true]
  simp only [SpiWaitStatus_fst, SpiWaitStatus_snd]
  by_cases h1 : s.resets.headD false = true
  · rw [if_pos h1]
    exact List.mem_cons_of_mem _ (List.mem_cons_self _ _)
  · rw [if_neg h1]
    apply EeProgram4KLoop_log_mem
    exact List.mem_cons_self _ _

theorem EeProgram4K_pages_mem (s : State) (blockn dptr : Nat) (hno : NoReset s) :
    FlashOp.page (EePutReadBlockAddress blockn).1 (EePutReadBlockAddress blockn).2.1
        (EePutReadBlockAddress blockn).2.2 ∈ (EeProgram4K s blockn dptr).2.log ∧
    FlashOp.page (secondPageAddress blockn).1 (secondPageAddress blockn).2.1
        (secondPageAddress blockn).2.2 ∈ (EeProgram4K s blockn dptr).2.log := by
  unfold EeProgram4K
  dsimp only
  simp only [SpiWaitStatus_fst, SpiWaitStatus_snd]
  have h1 : ¬ s.resets.headD false = true := fun h =>
    absurd (hno true (headD_true_mem h)) (by simp)
  by_cases he : EeIsBlockErased { s with log := FlashOp.program4K blockn dptr :: s.log }
      blockn = 0
  · simp only [he, if_true]
    rw [if_neg h1]
    exact EeProgram4KLoop_pages 7 blockn dptr _ (fun r hr => hno r (List.mem_of_mem_tail hr))
  · simp only [he, if_false]
    rw [if_neg h1]
    exact EeProgram4KLoop_pages 7 blockn dptr _ (fun r hr => hno r (List.mem_of_mem_tail hr))

/-- C23: for every sector number `blockn < 32768`, the address bytes of
`EePutReadBlockAddress(blockn)` are `blockn>>7`, `(blockn<<1)&0xff` and 0, each
fits in 8 bits, and together they are the byte address `512 * blockn`; the
bytes of the second-page command are `blockn>>7`, `((blockn<<1)+1)&0xff` and 0,
each fits in 8 bits, and together they are `512 * blockn + 256`. The erase
command of `EeProgram4K(blockn, d)` (sent when the unit is not blank) carries
the first triple, and with no bus reset its first two page commands carry the
first and the second triple. -/
theorem address_bytes_encode_sector (blockn : Nat) (h : blockn < 32768) :
    EePutReadBlockAddress blockn = (blockn / 128, (2 * blockn) % 256, 0) ∧
    secondPageAddress blockn = (blockn / 128, (2 * blockn + 1) % 256, 0) ∧
    (EePutReadBlockAddress blockn).1 < 256 ∧ (EePutReadBlockAddress blockn).2.1 < 256 ∧
    (secondPageAddress blockn).1 < 256 ∧ (secondPageAddress blockn).2.1 < 256 ∧
    (EePutReadBlockAddress blockn).1 * 65536 + (EePutReadBlockAddress blockn).2.1 * 256 +
      (EePutReadBlockAddress blockn).2.2 = blockn * 512 ∧
    (secondPageAddress blockn).1 * 65536 + (secondPageAddress blockn).2.1 * 256 +
      (secondPageAddress blockn).2.2 = blockn * 512 + 256 ∧
    ∀ (s : State) (dptr : Nat),
      (EeIsBlockErased s blockn = 0 →
        FlashOp.erase (blockn / 128) ((2 * blockn) % 256) 0 ∈
          (EeProgram4K s blockn dptr).2.log) ∧
      (NoReset s →
        FlashOp.page (blockn / 128) ((2 * blockn) % 256) 0 ∈
          (EeProgram4K s blockn dptr).2.log ∧
        FlashOp.page (blockn / 128) ((2 * blockn + 1) % 256) 0 ∈
          (EeProgram4K s blockn dptr).2.log) := by
  have e1 : EePutReadBlockAddress blockn = (blockn / 128, (2 * blockn) % 256, 0) := by
    unfold EePutReadBlockAddress
    have e : blockn <<< 1 % 65536 &&& 0xff = (blockn <<< 1 % 65536) % 256 :=
      Nat.and_pow_two_sub_one_eq_mod _ 8
    rw [e]
    simp only [Nat.shiftRight_eq_div_pow, Nat.shiftLeft_eq]
    have a : blockn / 2 ^ 7 = blockn / 128 := rfl
    have b : blockn * 2 ^ 1 % 65536 % 256 = 2 * blockn % 256 := by omega
    rw [a, b]
  have e2 : secondPageAddress blockn = (blockn / 128, (2 * blockn + 1) % 256, 0) := by
    unfold secondPageAddress
    have e : (blockn <<< 1 % 65536 + 1) % 65536 &&& 0xff =
        ((blockn <<< 1 % 65536 + 1) % 65536) % 256 :=
      Nat.and_pow_two_sub_one_eq_mod _ 8
    rw [e]
    simp only [Nat.shiftRight_eq_div_pow, Nat.shiftLeft_eq]
    have a : blockn / 2 ^ 7 = blockn / 128 := rfl
    have b : (blockn * 2 ^ 1 % 65536 + 1) % 65536 % 256 = (2 * blockn + 1) % 256 := by omega
    rw [a, b]
  refine ⟨e1, e2, ?_, ?_, ?_, ?_, ?_, ?_, ?_⟩
  · rw [e1]; dsimp only; omega
  · rw [e1]; dsimp only; omega
  · rw [e2]; dsimp only; omega
  · rw [e2]; dsimp only; omega
  · rw [e1]; dsimp only; omega
  · rw [e2]; dsimp only; omega
  · intro s dptr
    constructor
    · intro he
      have := EeProgram4K_erase_mem s blockn dptr he
      rw [e1] at this
      exact this
    · intro hno
      have := EeProgram4K_pages_mem s blockn dptr hno
      rw [e1, e2] at this
      exact this

theorem address_bytes_encode_sector_witness :
    EePutReadBlockAddress 1032 = (8, 16, 0) ∧ secondPageAddress 1032 = (8, 17, 0) ∧
    8 * 65536 + 16 * 256 + 0 = 1032 * 512 ∧ 8 * 65536 + 17 * 256 + 0 = 1032 * 512 + 256 ∧
    EeIsBlockErased sampleState 1032 = 0 ∧
    FlashOp.erase 8 16 0 ∈ (EeProgram4K sampleState 1032 0).2.log ∧
    FlashOp.page 8 16 0 ∈ (EeProgram4K sampleState 1032 0).2.log ∧
    FlashOp.page 8 17 0 ∈ (EeProgram4K sampleState 1032 0).2.log :=
  have h := address_bytes_encode_sector 1032 (by decide)
  ⟨h.1, h.2.1, by decide, by decide, by decide!,
    (h.2.2.2.2.2.2.2.2 sampleState 0).1 (by decide!),
    ((h.2.2.2.2.2.2.2.2 sampleState 0).2 (by intro r hr; cases hr)).1,
    ((h.2.2.2.2.2.2.2.2 sampleState 0).2 (by intro r hr; cases hr)).2⟩

/-! ## The contract of `GetEmptyBlock` -/

theorem findFree_ne_none {bp k i t : Nat} (h1 : i ≤ t) (h2 : t < i + k)
    (ha : slotPresent bp t = false) : findFree bp k i ≠ none := by
  intro hn
  have := findFree_none hn t h1 h2
  rw [ha] at this
  exact absurd this (by simp)

/-- C21: `GetEmptyBlock(a)`. If some slot is absent, then for the
lowest-indexed absent slot `m` the call returns the buffer of slot `m`
(`mallocAreaY + 256*m`), sets the presence bit of slot `m` and
`blockAddress[m] = a`, and changes no other presence bit, no other address and
no other variable. If all 16 slots are present it returns `NULL` and changes
nothing. -/
theorem GetEmptyBlock_contract (s : State) (a : Nat) :
    ((∃ t, t < 16 ∧ slotPresent s.blockPresent t = false) →
      ∃ m, m < 16 ∧ slotPresent s.blockPresent m = false ∧
        (∀ t, t < m → slotPresent s.blockPresent t = true) ∧
        (GetEmptyBlock s a).1 = some (256 * m) ∧
        slotPresent (GetEmptyBlock s a).2.blockPresent m = true ∧
        (GetEmptyBlock s a).2.blockAddress m = a ∧
        (∀ t, t < 16 → t ≠ m →
          slotPresent (GetEmptyBlock s a).2.blockPresent t = slotPresent s.blockPresent t) ∧
        (∀ t, t ≠ m → (GetEmptyBlock s a).2.blockAddress t = s.blockAddress t) ∧
        (s.blockPresent < 65536 → (GetEmptyBlock s a).2.blockPresent < 65536) ∧
        (GetEmptyBlock s a).2 =
          { s with blockPresent := (GetEmptyBlock s a).2.blockPresent,
                   blockAddress := (GetEmptyBlock s a).2.blockAddress }) ∧
    ((∀ t, t < 16 → slotPresent s.blockPresent t = true) → GetEmptyBlock s a = (none, s)) := by
  constructor
  · rintro ⟨t, ht, hat⟩
    cases hf : findFree s.blockPresent CACHE_BLOCKS 0 with
    | none =>
      exact absurd hf (findFree_ne_none (Nat.zero_le _) (by show t < 0 + 16; omega) hat)
    | some m =>
      obtain ⟨_, hm, hmabs, hbelow⟩ := findFree_some hf
      have hm16 : m < 16 := by
        have : m < 0 + 16 := hm
        omega
      have he : GetEmptyBlock s a = (some (256 * m),
          { s with blockPresent := s.blockPresent ||| ((1 <<< m) % 65536),
                   blockAddress := setWord s.blockAddress m a }) := by
        rw [GetEmptyBlock_eq, hf]
      refine ⟨m, hm16, hmabs, fun t ht => hbelow t (Nat.zero_le _) ht, ?_⟩
      rw [he]
      dsimp only
      refine ⟨rfl, ?_, ?_, ?_, ?_, ?_, rfl⟩
      · rw [slotPresent_setSlot _ _ _ hm16 hm16]
        simp
      · simp [setWord]
      · intro t ht htm
        rw [slotPresent_setSlot _ _ _ hm16 ht]
        have : decide (m = t) = false := by
          simp only [decide_eq_false_iff_not]
          exact fun e => htm e.symm
        rw [this, Bool.or_false]
      · intro t htm
        simp [setWord, htm]
      · intro hlt
        have h2 : (1 <<< m) % 65536 < 2 ^ 16 := Nat.mod_lt _ (by decide)
        exact Nat.or_lt_two_pow (by simpa using hlt) h2
  · intro hall
    have hf : findFree s.blockPresent CACHE_BLOCKS 0 = none := by
      cases hf : findFree s.blockPresent CACHE_BLOCKS 0 with
      | none => rfl
      | some m =>
        obtain ⟨_, hm, hmabs, _⟩ := findFree_some hf
        have hm16 : m < 16 := by
          have : m < 0 + 16 := hm
          omega
        rw [hall m hm16] at hmabs
        exact absurd hmabs (by simp)
    rw [GetEmptyBlock_eq, hf]

theorem GetEmptyBlock_contract_witness :
    slotPresent sampleState.blockPresent 2 = false ∧
    (∃ m, m < 16 ∧ slotPresent sampleState.blockPresent m = false ∧
        (∀ t, t < m → slotPresent sampleState.blockPresent t = true) ∧
        (GetEmptyBlock sampleState 77).1 = some (256 * m) ∧
        slotPresent (GetEmptyBlock sampleState 77).2.blockPresent m = true ∧
        (GetEmptyBlock sampleState 77).2.blockAddress m = 77 ∧
        (∀ t, t < 16 → t ≠ m →
          slotPresent (GetEmptyBlock sampleState 77).2.blockPresent t =
            slotPresent sampleState.blockPresent t) ∧
        (∀ t, t ≠ m → (GetEmptyBlock sampleState 77).2.blockAddress t =
          sampleState.blockAddress t) ∧
        (sampleState.blockPresent < 65536 →
          (GetEmptyBlock sampleState 77).2.blockPresent < 65536) ∧
        (GetEmptyBlock sampleState 77).2 =
          { sampleState with blockPresent := (GetEmptyBlock sampleState 77).2.blockPresent,
                             blockAddress := (GetEmptyBlock sampleState 77).2.blockAddress }) ∧
    (∀ t, t < 16 → slotPresent fullState.blockPresent t = true) ∧
    GetEmptyBlock fullState 77 = (none, fullState) :=
  ⟨by decide, (GetEmptyBlock_contract sampleState 77).1 ⟨2, by decide, by decide⟩,
    by decide, (GetEmptyBlock_contract fullState 77).2 (by decide)⟩

/-! ## Each dirty unit is programmed once per flush -/

theorem EeProgram4KLoop_callsFor (u k blockn dptr : Nat) (s : State) :
    programCallsFor u (EeProgram4KLoop k blockn dptr s).2.log = programCallsFor u s.log := by
  induction k generalizing blockn dptr s with
  | zero => rfl
  | succ k ih =>
    rw [EeProgram4KLoop]
    simp only [SpiWaitStatus_fst, SpiWaitStatus_snd]
    by_cases h1 : s.resets.headD false = true
    · rw [if_pos h1]
      rfl
    · rw [if_neg h1]
      by_cases h2 : s.resets.tail.headD false = true
      · rw [if_pos h2]
        rfl
      · rw [if_neg h2, ih]
        rfl

theorem EeProgram4K_callsFor (u : Nat) (s : State) (blockn dptr : Nat) :
    programCallsFor u (EeProgram4K s blockn dptr).2.log =
      programCallsFor u s.log + (if blockn = u then 1 else 0) := by
  unfold EeProgram4K
  dsimp only
  simp only [SpiWaitStatus_fst, SpiWaitStatus_snd]
  by_cases he : EeIsBlockErased { s with log := FlashOp.program4K blockn dptr :: s.log }
      blockn = 0
  · simp only [he, if_true]
    by_cases h1 : s.resets.headD false = true
    · rw [if_pos h1]
      rfl
    · rw [if_neg h1, EeProgram4KLoop_callsFor]
      rfl
  · simp only [he, if_false]
    by_cases h1 : s.resets.headD false = true
    · rw [if_pos h1]
      rfl
    · rw [if_neg h1, EeProgram4KLoop_callsFor]
      rfl

theorem flushUnit_callsFor (u : Nat) (s : State) (i : Nat) :
    programCallsFor u (flushUnit s i).1.2.log =
      programCallsFor u s.log + (if s.blockAddress i &&& 0xfff8 = u then 1 else 0) := by
  unfold flushUnit
  dsimp only
  rw [EeProgram4K_callsFor]
  obtain ⟨M, lf, he, _⟩ := flushMerge_spec (s.blockAddress i &&& 0xfff8) 8 0
    (EeRead4KSectorYToWorkspace s (s.blockAddress i &&& 0xfff8))
    (EeRead4KSectorYToWorkspace s (s.blockAddress i &&& 0xfff8)).blockPresent (by omega)
  rw [he, EeRead4KSectorYToWorkspace_eq]
  simp only [programCallsFor]

theorem FlushLoop_callsFor (k i : Nat) (s : State) (hwt : WellTyped s)
    (hd : DistinctPresent s) (hik : i + k = 16)
    (hbelow : ∀ t, t < i → slotPresent s.blockPresent t = false)
    (hok : (FsMapSpiFlashFlushLoop k i s).shouldFlush = 0) (u : Nat) :
    (DirtyUnit s u →
      programCallsFor u (FsMapSpiFlashFlushLoop k i s).log = programCallsFor u s.log + 1) ∧
    (¬ DirtyUnit s u →
      programCallsFor u (FsMapSpiFlashFlushLoop k i s).log = programCallsFor u s.log) := by
  induction k generalizing i s with
  | zero =>
    rw [FsMapSpiFlashFlushLoop]
    refine ⟨?_, fun _ => rfl⟩
    rintro ⟨t, ht, hpt, _⟩
    rw [hbelow t (by omega)] at hpt
    exact absurd hpt (by simp)
  | succ k ih =>
    rw [FsMapSpiFlashFlushLoop_succ] at hok ⊢
    by_cases hp : slotPresent s.blockPresent i = true
    · rw [if_pos hp] at hok ⊢
      have hi : i < 16 := by omega
      have hai : s.blockAddress i < 65536 := hwt.2.1 i (by simpa [CACHE_BLOCKS] using hi)
      have hcf := flushUnit_callsFor u s i
      obtain ⟨res, F, R, L, M, lf, nbp, he, hres, hM, hMlt, hFout, hFin, hbits, hnlt, hR, hno,
        hl, hpc, hrc⟩ := flushUnit_spec s i hwt hi
      rw [he] at hok hcf ⊢
      dsimp only at hok hcf ⊢
      rcases hres with h0 | h1
      · subst h0
        rw [if_pos (by decide)] at hok ⊢
        have hwt3 : WellTyped
            { s with mallocAreaY := M, lastFoundBlock := lf, flash := F, resets := R, log := L,
                     blockPresent := nbp, shouldFlush := 0 } :=
          ⟨hnlt, hwt.2.1, hMlt⟩
        have hd3 : DistinctPresent
            { s with mallocAreaY := M, lastFoundBlock := lf, flash := F, resets := R, log := L,
                     blockPresent := nbp, shouldFlush := 0 } := by
          intro a b ha hb hpa hpb hab
          exact hd a b ha hb ((hbits a (by simpa [CACHE_BLOCKS] using ha)).1 hpa).1
            ((hbits b (by simpa [CACHE_BLOCKS] using hb)).1 hpb).1 hab
        have hother := present_after_unit_other s hd i nbp hbits
        have hbelow3 : ∀ t, t < i + 1 → slotPresent nbp t = false := by
          intro t ht
          cases hq : slotPresent nbp t with
          | false => rfl
          | true =>
            exfalso
            by_cases hti : t = i
            · subst hti
              exact hother t hi hq rfl
            · have := ((hbits t (by omega)).1 hq).1
              rw [hbelow t (by omega)] at this
              exact absurd this (by simp)
        obtain ⟨ih1, ih2⟩ := ih (i + 1)
          { s with mallocAreaY := M, lastFoundBlock := lf, flash := F, resets := R, log := L,
                   blockPresent := nbp, shouldFlush := 0 } hwt3 hd3 (by omega) hbelow3 hok
        dsimp only at ih1 ih2
        have hunit : ∀ t, t < 16 → s.blockAddress t &&& 0xfff8 = 8 * (s.blockAddress t / 8) :=
          fun t ht => and_fff8 _ (hwt.2.1 t (by simpa [CACHE_BLOCKS] using ht))
        by_cases hu : s.blockAddress i &&& 0xfff8 = u
        · rw [if_pos hu] at hcf
          have hnd : ¬ DirtyUnit
              { s with mallocAreaY := M, lastFoundBlock := lf, flash := F, resets := R,
                       log := L, blockPresent := nbp, shouldFlush := 0 } u := by
            rintro ⟨t, ht, hpt, hat⟩
            have h1 := hother t ht hpt
            have h2 : s.blockAddress t &&& 0xfff8 = u := hat
            rw [hunit t ht] at h2
            rw [hunit i hi] at hu
            omega
          refine ⟨fun _ => ?_, fun hn => ?_⟩
          · rw [ih2 hnd, hcf]
          · exact absurd ⟨i, hi, hp, hu⟩ hn
        · rw [if_neg hu, Nat.add_zero] at hcf
          have hiff : DirtyUnit
              { s with mallocAreaY := M, lastFoundBlock := lf, flash := F, resets := R,
                       log := L, blockPresent := nbp, shouldFlush := 0 } u ↔ DirtyUnit s u := by
            constructor
            · rintro ⟨t, ht, hpt, hat⟩
              exact ⟨t, ht, ((hbits t ht).1 hpt).1, hat⟩
            · rintro ⟨t, ht, hpt, hat⟩
              refine ⟨t, ht, (hbits t ht).2 ⟨hpt, fun A hA hc => ?_⟩, hat⟩
              have h4 := (findFrom_some hc).2.2.2.1
              apply hu
              rw [hunit i hi, ← hA, ← h4, ← hunit t ht]
              exact hat
          refine ⟨fun hdu => ?_, fun hn => ?_⟩
          · rw [ih1 (hiff.2 hdu), hcf]
          · rw [ih2 (fun h => hn (hiff.1 h)), hcf]
      · subst h1
        rw [if_neg (by decide)] at hok
        have hok1 : (1 : Nat) = 0 := hok
        exact absurd hok1 (by decide)
    · rw [if_neg hp] at hok ⊢
      have hpf : slotPresent s.blockPresent i = false := by
        cases hq : slotPresent s.blockPresent i with
        | false => rfl
        | true => exact absurd hq hp
      exact ih (i + 1) s hwt hd (by omega) (fun t ht => by
        by_cases hti : t = i
        · rw [hti]; exact hpf
        · exact hbelow t (by omega)) hok

theorem threeSlotState_wellTyped : WellTyped threeSlotState :=
  ⟨by decide, fun i _ => by
    show (if i = 0 then 32 else if i = 1 then 41 else 35) < 65536
    split
    · decide
    · split <;> decide, fun _ => by
    show 5 < 65536
    decide⟩

theorem threeSlotState_distinct : DistinctPresent threeSlotState := by
  intro i j hi hj hpi hpj h
  have hi3 : i < 3 := by
    by_contra hn
    have h16 : i < 16 := hi
    have : slotPresent 7 i = false := by
      have : i = 3 ∨ i = 4 ∨ i = 5 ∨ i = 6 ∨ i = 7 ∨ i = 8 ∨ i = 9 ∨ i = 10 ∨ i = 11 ∨
          i = 12 ∨ i = 13 ∨ i = 14 ∨ i = 15 := by omega
      rcases this with e | e | e | e | e | e | e | e | e | e | e | e | e <;> subst e <;> decide
    have hq : slotPresent 7 i = true := hpi
    rw [this] at hq
    exact absurd hq (by simp)
  have hj3 : j < 3 := by
    by_contra hn
    have h16 : j < 16 := hj
    have : slotPresent 7 j = false := by
      have : j = 3 ∨ j = 4 ∨ j = 5 ∨ j = 6 ∨ j = 7 ∨ j = 8 ∨ j = 9 ∨ j = 10 ∨ j = 11 ∨
          j = 12 ∨ j = 13 ∨ j = 14 ∨ j = 15 := by omega
      rcases this with e | e | e | e | e | e | e | e | e | e | e | e | e <;> subst e <;> decide
    have hq : slotPresent 7 j = true := hpj
    rw [this] at hq
    exact absurd hq (by simp)
  have h2 : (if i = 0 then 32 else if i = 1 then 41 else 35) =
      (if j = 0 then 32 else if j = 1 then 41 else 35) := h
  have hi' : i = 0 ∨ i = 1 ∨ i = 2 := by omega
  have hj' : j = 0 ∨ j = 1 ∨ j = 2 := by omega
  rcases hi' with e | e | e <;> rcases hj' with f | f | f <;> subst e <;> subst f <;>
    first
    | rfl
    | exact absurd h2 (by decide)

/-- C22: in a `FsMapSpiFlashFlush` call from a state with pairwise distinct
present addresses and flush flag not `flushing`, in which no `EeProgram4K` call
returns `-1`, `EeProgram4K` is called exactly once for the block `u` of every
erase unit that contains a present slot (`blockAddress[t] & 0xfff8 = u` for a
present slot `t`) and not at all for any other block `u`. -/
theorem flush_programs_each_dirty_unit_once (s : State) (hwt : WellTyped s)
    (hd : DistinctPresent s) (hflag : s.shouldFlush ≤ 1)
    (hok : resetCount (FsMapSpiFlashFlush s).log = resetCount s.log) (u : Nat) :
    (DirtyUnit s u →
      programCallsFor u (FsMapSpiFlashFlush s).log = programCallsFor u s.log + 1) ∧
    (¬ DirtyUnit s u →
      programCallsFor u (FsMapSpiFlashFlush s).log = programCallsFor u s.log) := by
  have hflag0 := (FsMapSpiFlashFlush_presence s hwt hflag).flag_of_no_abort hok
  unfold FsMapSpiFlashFlush at hflag0 ⊢
  rw [if_neg (by omega)] at hflag0 ⊢
  exact FlushLoop_callsFor CACHE_BLOCKS 0 { s with shouldFlush := 2 } hwt hd rfl
    (fun t ht => by omega) hflag0 u

set_option maxRecDepth 100000 in
theorem flush_programs_each_dirty_unit_once_witness :
    threeSlotState.shouldFlush ≤ 1 ∧
    resetCount (FsMapSpiFlashFlush threeSlotState).log = resetCount threeSlotState.log ∧
    DirtyUnit threeSlotState 32 ∧
    programCallsFor 32 (FsMapSpiFlashFlush threeSlotState).log =
      programCallsFor 32 threeSlotState.log + 1 :=
  ⟨by decide, by decide, ⟨2, by decide, by decide, by decide⟩,
    (flush_programs_each_dirty_unit_once threeSlotState threeSlotState_wellTyped
      threeSlotState_distinct (by decide) (by decide) 32).1 ⟨2, by decide, by decide, by decide⟩⟩
end SpiUsb
